import Mathlib

/-!
# Frontier exchange of the bootstrap subsystem

A shallow embedding of `nano/node/bootstrap/bootstrap_frontier.cpp`: the
frontier request server (`frontier_req_server`) that streams `(account, head)`
pairs out of the account table, and the frontier request client
(`frontier_req_client`) that walks the local account table alongside the
received stream and turns the differences into pull descriptors and bulk push
targets.  The base bootstrap attempt of `bootstrap_attempt.cpp` and the
representative crawler of `repcrawler.cpp` follow, each with its own
conventions.

Conventions of the embedding.

* A `uint256_union` (account, block hash) is the natural number it denotes;
  arithmetic on it is taken modulo `2 ^ 256` wherever the source computes with
  `number ()`.  Its 32 raw bytes are the big-endian digits of that number.
* The `uint64_t` difference of two timestamps wraps modulo `2 ^ 64`.  The
  counters of the exchange, whose declarations are in headers outside the
  sources at hand, are natural numbers.
* The `double` seconds of the slow-stream guard are rationals, so the test of
  the guard is computed without the rounding of `double` arithmetic and can
  differ from the source where quotient and floor are one rounding apart.  No
  theorem below says when the guard triggers: the theorems on received pairs
  take as a hypothesis that the guard has let the pair through, and their
  instances use clock readings at which no time has passed.
* The account table is read as it stands at one instant: it does not change
  while an exchange runs, and neither does the wall clock of the server.
* The asynchronous socket callbacks are composed directly: a write that
  completes without error is followed by its completion handler.  What is
  written to the socket is collected in a list of buffers.
* Loops whose termination depends on the account table carry a fuel argument
  and return `none` when the fuel is used up before the loop condition fails.
* Logging and debug assertions are not modelled.
-/

namespace nano

/-! ## Machine integers and the 32-byte union -/

/-- The number of values of a `uint256_t`. -/
def uint256_modulus : Nat := 2 ^ 256

/-- The number of values of a `uint64_t`. -/
def uint64_modulus : Nat := 2 ^ 64

/-- The value `std::numeric_limits<uint32_t>::max ()`. -/
def uint32_max : Nat := 2 ^ 32 - 1

/-- The big-endian digits of `n` in base 256, `len` of them (the number is
reduced modulo `256 ^ len`). -/
def to_bytes : Nat → Nat → List Nat
  | 0, _ => []
  | len + 1, n => to_bytes len (n / 256) ++ [n % 256]

/-- Modelled from the spec: the member `bytes` of `uint256_union`, which is
defined in `nano/lib/numbers.cpp`.  A 32-byte opaque array; the number the
union denotes is stored most significant byte first. -/
def bytes (n : Nat) : List Nat := to_bytes 32 n

/-- Modelled from the spec: `uint256_union::number ()` of
`nano/lib/numbers.cpp`, the number denoted by a byte array read most
significant byte first. -/
def number (bs : List Nat) : Nat := bs.foldl (fun acc b => acc * 256 + b) 0

/-! ## The account table -/

/-- The fields of `nano::account_info` that the frontier exchange reads. -/
structure account_info where
  head : Nat
  modified : Nat
deriving DecidableEq, Repr

/-- Modelled from the spec: the account table of the ledger store, which the
spec treats as a collaborator.  It maps accounts to their `account_info` and is
iterated in ascending account order, so it is represented by its list of
entries in iteration order. -/
abbrev account_store : Type := List (Nat × account_info)

/-- Modelled from the spec: `store.accounts_begin (transaction, key)`, an
iterator positioned at the first entry whose account is not below `key`; the
entries from that position to `accounts_end ()`. -/
def accounts_begin (store : account_store) (key : Nat) : account_store :=
  store.dropWhile (fun e => decide (e.1 < key))

/-- The parts of the node that the frontier exchange consults. -/
structure node where
  /-- The account table of the ledger store. -/
  store : account_store
  /-- The value `nano::seconds_since_epoch ()` returns during the exchange. -/
  seconds_since_epoch : Nat
  /-- The predicate `ledger.block_or_pruned_exists`. -/
  block_or_pruned_exists : Nat → Bool
  /-- The constant `network_params.bootstrap.frontier_retry_limit`. -/
  frontier_retry_limit : Nat

/-! ## Wire format of a frontier pair -/

/-- The constant `frontier_req_client::size_frontier`: the size of an account
plus the size of a block hash. -/
def size_frontier : Nat := 32 + 32

/-- The buffer `frontier_req_server::send_next` builds for the pair under its
cursor: `write (stream, current.bytes); write (stream, frontier.bytes)`. -/
def frontier_buffer (current frontier : Nat) : List Nat :=
  bytes current ++ bytes frontier

/-- The buffer `frontier_req_server::send_finished` builds:
`write (stream, zero.bytes)` twice. -/
def finished_buffer : List Nat :=
  bytes 0 ++ bytes 0

/-- The decoding at the head of `frontier_req_client::received_frontier`: the
account is read from the first `sizeof (account)` bytes of the receive buffer
and the hash from the `sizeof (latest)` bytes after them. -/
def read_frontier (receive_buffer : List Nat) : Nat × Nat :=
  (number (receive_buffer.take 32), number ((receive_buffer.drop 32).take 32))

/-! ## The frontier request server -/

/-- The message `nano::frontier_req`: `start` is 256 bits wide, `age` and
`count` are `uint32_t`. -/
structure frontier_req where
  start : Nat
  age : Nat
  count : Nat
deriving DecidableEq, Repr

/-- The state of a `nano::frontier_req_server`. -/
structure frontier_req_server where
  current : Nat
  frontier : Nat
  request : frontier_req
  count : Nat
  accounts : List (Nat × Nat)
deriving DecidableEq, Repr

/-- The age test of `frontier_req_server::next`:
`disable_age_filter || (now - info.modified) <= request->age`, the difference
being one of `uint64_t` values. -/
def frontier_req_server.age_ok (request : frontier_req) (now : Nat) (info : account_info) : Bool :=
  decide (request.age = uint32_max) ||
    decide ((now + (uint64_modulus - info.modified % uint64_modulus)) % uint64_modulus ≤ request.age)

/-- The `for` loop of `frontier_req_server::next` over the iterator range
`[i, n)`: it stops at the end of the table or as soon as the deque holds
`max_size = 128` pairs, and appends the pair of every entry that passes the age
test. -/
def frontier_req_server.fill (request : frontier_req) (now : Nat) :
    account_store → List (Nat × Nat) → List (Nat × Nat)
  | [], accounts => accounts
  | (account, info) :: rest, accounts =>
    if accounts.length = 128 then accounts
    else if frontier_req_server.age_ok request now info then
      frontier_req_server.fill request now rest (accounts ++ [(account, info.head)])
    else
      frontier_req_server.fill request now rest accounts

/-- The method `frontier_req_server::next`.  An empty deque is refilled from
the table entries at or after `current.number () + 1` (a `uint256_t` sum), with
a `(0, 0)` record appended when the loop ended before `max_size`; then the
front of the deque becomes the cursor.  The deque is never empty at
`accounts.front ()`; the last case is there for totality only. -/
def frontier_req_server.next (n : node) (s : frontier_req_server) : frontier_req_server :=
  let accounts :=
    if s.accounts.isEmpty then
      let filled := frontier_req_server.fill s.request n.seconds_since_epoch
        (accounts_begin n.store ((s.current + 1) % uint256_modulus)) []
      if filled.length ≠ 128 then filled ++ [(0, 0)] else filled
    else s.accounts
  match accounts with
  | account_pair :: rest =>
    { s with current := account_pair.1, frontier := account_pair.2, accounts := rest }
  | [] => s

/-- The constructor of `frontier_req_server`: `current` starts at
`request.start.number () - 1` (a `uint256_t` difference), `frontier` and
`count` at zero, and `next ()` is called once. -/
def frontier_req_server.create (n : node) (request : frontier_req) : frontier_req_server :=
  frontier_req_server.next n
    { current := (request.start % uint256_modulus + (uint256_modulus - 1)) % uint256_modulus
      frontier := 0
      request := request
      count := 0
      accounts := [] }

/-- The methods `frontier_req_server::send_next`, `sent_action` and
`send_finished` with every write completing without error; the result is the
list of buffers written to the socket, in order.  While the cursor is not zero
and `count < request->count` the pair under the cursor is written, `next ()`
moves the cursor and `sent_action` increments `count` and calls `send_next`
again; otherwise `send_finished` writes the all-zero pair, which is the last
write of the exchange.  Every round increments `count`, so
`request.count - count + 1` rounds of fuel are never used up. -/
def frontier_req_server.send_next (n : node) : Nat → frontier_req_server → List (List Nat)
  | 0, _ => []
  | fuel + 1, s =>
    if s.current ≠ 0 ∧ s.count < s.request.count then
      let send_buffer := frontier_buffer s.current s.frontier
      let s1 := frontier_req_server.next n s
      send_buffer :: frontier_req_server.send_next n fuel { s1 with count := s1.count + 1 }
    else
      [finished_buffer]

/-- Everything a frontier request server writes for `request`: construction
followed by `send_next ()`. -/
def frontier_req_server.serve (n : node) (request : frontier_req) : List (List Nat) :=
  frontier_req_server.send_next n (request.count + 1) (frontier_req_server.create n request)

/-- The pairs a written stream decodes to on the client side. -/
def decode_stream (stream : List (List Nat)) : List (Nat × Nat) :=
  stream.map read_frontier

/-! ## The frontier request client -/

/-- Modelled from the spec: the pull descriptor `nano::pull_info` of
`nano/node/bootstrap/bootstrap.hpp`, as built by the constructor call
`pull_info (account, head, end, bootstrap_id, count, retry_limit)`: the account
the chain belongs to, the newest hash wanted, the stop sentinel, the owning
attempt's incremental id, the cap on blocks and the retry budget. -/
structure pull_info where
  account_or_head : Nat
  head : Nat
  end_ : Nat
  bootstrap_id : Nat
  count : Nat
  retry_limit : Nat
deriving DecidableEq, Repr

/-- The constants of `nano::bootstrap_limits` the frontier client reads.  They
are defined in a header that is not part of the sources at hand, so they are
parameters; the three `double` constants are taken as rationals. -/
structure bootstrap_limits where
  bootstrap_connection_warmup_time_sec : ℚ
  bootstrap_minimum_elapsed_seconds_blockrate : ℚ
  bootstrap_minimum_frontier_blocks_per_sec : ℚ
  bulk_push_cost_limit : Nat

/-- The state of a `nano::frontier_req_client` together with what it has done
to its collaborators.  The counters `count` and `bulk_push_cost` are declared
in a header that is not part of the sources at hand; they are taken as
unbounded. -/
structure frontier_req_client where
  current : Nat
  frontier : Nat
  count : Nat
  bulk_push_cost : Nat
  frontiers_age : Nat
  accounts : List (Nat × Nat)
  /-- The time point `start_time`, in seconds. -/
  start_time : ℚ
  /-- The value of `promise`, once set. -/
  promise : Option Bool
  /-- The field `attempt->incremental_id`. -/
  incremental_id : Nat
  /-- The descriptors handed to `attempt->add_frontier`, oldest first. -/
  pulls : List pull_info
  /-- The `(head, end)` pairs handed to `attempt->add_bulk_push_target`,
  oldest first. -/
  bulk_push_targets : List (Nat × Nat)
  /-- Whether `connections->pool_connection (connection)` has been called. -/
  pooled : Bool
  /-- The number of reads scheduled through `receive_frontier ()`. -/
  reads : Nat
  /-- A record of the calls `unsynced (head, end)`, oldest first, whether or not
  they recorded a push target.  It is kept for stating properties only. -/
  offered : List (Nat × Nat)
deriving DecidableEq, Repr

/-- The method `frontier_req_client::unsynced`: the pair becomes a bulk push
target only while `bulk_push_cost` is below the limit and the request was made
with `frontiers_age` at its maximum; a recorded target costs 2 when `end` is
zero and 1 otherwise. -/
def frontier_req_client.unsynced (lim : bootstrap_limits) (s : frontier_req_client)
    (head end_ : Nat) : frontier_req_client :=
  let s := { s with offered := s.offered ++ [(head, end_)] }
  if s.bulk_push_cost < lim.bulk_push_cost_limit ∧ s.frontiers_age = uint32_max then
    let s := { s with bulk_push_targets := s.bulk_push_targets ++ [(head, end_)] }
    if end_ = 0 then
      { s with bulk_push_cost := s.bulk_push_cost + 2 }
    else
      { s with bulk_push_cost := s.bulk_push_cost + 1 }
  else s

/-- The `for` loop of `frontier_req_client::next` over the iterator range
`[i, n)`: it stops at the end of the table or as soon as the deque holds
`max_size = 128` pairs. -/
def frontier_req_client.fill : account_store → List (Nat × Nat) → List (Nat × Nat)
  | [], accounts => accounts
  | (account, info) :: rest, accounts =>
    if accounts.length = 128 then accounts
    else frontier_req_client.fill rest (accounts ++ [(account, info.head)])

/-- The method `frontier_req_client::next`.  An empty deque is refilled from
the table entries at or after `current.number () + 1` (a `uint256_t` sum), with
a `(0, 0)` record appended when the loop ended before `max_size`; then the
front of the deque becomes the cursor.  The deque is never empty at
`accounts.front ()`; the last case is there for totality only. -/
def frontier_req_client.next (n : node) (s : frontier_req_client) : frontier_req_client :=
  let accounts :=
    if s.accounts.isEmpty then
      let filled := frontier_req_client.fill
        (accounts_begin n.store ((s.current + 1) % uint256_modulus)) []
      if filled.length ≠ 128 then filled ++ [(0, 0)] else filled
    else s.accounts
  match accounts with
  | account_pair :: rest =>
    { s with current := account_pair.1, frontier := account_pair.2, accounts := rest }
  | [] => s

/-- The constructor of `frontier_req_client`: cursor, `count` and
`bulk_push_cost` start at zero and `next ()` is called once.  The member
`frontiers_age` is assigned by `run` before any pair is received; until then it
is taken to be the maximum. -/
def frontier_req_client.create (n : node) (incremental_id : Nat) : frontier_req_client :=
  frontier_req_client.next n
    { current := 0
      frontier := 0
      count := 0
      bulk_push_cost := 0
      frontiers_age := uint32_max
      accounts := []
      start_time := 0
      promise := none
      incremental_id := incremental_id
      pulls := []
      bulk_push_targets := []
      pooled := false
      reads := 0
      offered := [] }

/-- The method `frontier_req_client::receive_frontier`: one more read of
`size_frontier` bytes is scheduled. -/
def frontier_req_client.receive_frontier (s : frontier_req_client) : frontier_req_client :=
  { s with reads := s.reads + 1 }

/-- The method `frontier_req_client::run` with the request sent without error:
the age is stored and the first read is scheduled.  The request sent has a zero
`start`, the given age and the maximal `count`. -/
def frontier_req_client.run (s : frontier_req_client) (frontiers_age_a : Nat) :
    frontier_req_client × frontier_req :=
  (frontier_req_client.receive_frontier { s with frontiers_age := frontiers_age_a },
   { start := 0, age := frontiers_age_a, count := uint32_max })

/-- The test of the slow-stream guard in `received_frontier`, on the number of
pairs received so far and the time since the first one (in seconds, taken as a
rational).  With a positive minimum elapsed time the division is by a positive
number.  The source computes the quotient in `double` arithmetic, which this
test idealises: it is exact where the source rounds. -/
def frontier_req_client.too_slow (lim : bootstrap_limits) (count : Nat) (time_span : ℚ) : Bool :=
  let elapsed_sec := max time_span lim.bootstrap_minimum_elapsed_seconds_blockrate
  let blocks_per_sec := (count : ℚ) / elapsed_sec
  decide (elapsed_sec > lim.bootstrap_connection_warmup_time_sec) &&
    decide (blocks_per_sec < lim.bootstrap_minimum_frontier_blocks_per_sec)

/-- The loop `while (!current.is_zero () && current < account)` of
`received_frontier`: every local account below the received one is handed to
`unsynced (frontier, 0)` and the cursor moves on. -/
def frontier_req_client.skip_local (n : node) (lim : bootstrap_limits) (account : Nat) :
    Nat → frontier_req_client → Option frontier_req_client
  | 0, s => if s.current ≠ 0 ∧ s.current < account then none else some s
  | fuel + 1, s =>
    if s.current ≠ 0 ∧ s.current < account then
      frontier_req_client.skip_local n lim account fuel
        (frontier_req_client.next n (frontier_req_client.unsynced lim s s.frontier 0))
    else some s

/-- The loop `while (!current.is_zero ())` of `received_frontier`, run on the
terminating pair: every remaining local account is handed to
`unsynced (frontier, 0)`. -/
def frontier_req_client.drain_local (n : node) (lim : bootstrap_limits) :
    Nat → frontier_req_client → Option frontier_req_client
  | 0, s => if s.current ≠ 0 then none else some s
  | fuel + 1, s =>
    if s.current ≠ 0 then
      frontier_req_client.drain_local n lim fuel
        (frontier_req_client.next n (frontier_req_client.unsynced lim s s.frontier 0))
    else some s

/-- The call `attempt->add_frontier (pull)`. -/
def frontier_req_client.add_frontier (s : frontier_req_client) (pull : pull_info) :
    frontier_req_client :=
  { s with pulls := s.pulls ++ [pull] }

/-- The method `frontier_req_client::received_frontier`.  The error code is
`true` for an error; `receive_buffer` is the content of the connection's
receive buffer; `now_first` and `now` are the readings of the steady clock
taken when `count` is zero and when the time span is computed.  The result is
`none` when a loop does not end within `fuel` rounds.  When the promise is
set a second time the first value stays (no read is scheduled once it is set,
so this does not arise within one exchange). -/
def frontier_req_client.received_frontier (n : node) (lim : bootstrap_limits) (fuel : Nat)
    (s : frontier_req_client) (ec : Bool) (receive_buffer : List Nat) (now_first now : ℚ) :
    Option frontier_req_client :=
  if !ec then
    let account := (read_frontier receive_buffer).1
    let latest := (read_frontier receive_buffer).2
    let s := if s.count = 0 then { s with start_time := now_first } else s
    let s := { s with count := s.count + 1 }
    let time_span := now - s.start_time
    if frontier_req_client.too_slow lim s.count time_span then
      some { s with promise := s.promise.orElse (fun _ => some true) }
    else if account ≠ 0 then
      match frontier_req_client.skip_local n lim account fuel s with
      | none => none
      | some s =>
        let s :=
          if s.current ≠ 0 then
            if account = s.current then
              let s :=
                if latest = s.frontier then s
                else if n.block_or_pruned_exists latest then
                  frontier_req_client.unsynced lim s s.frontier latest
                else
                  { frontier_req_client.add_frontier s
                      ⟨account, latest, s.frontier, s.incremental_id, 0, n.frontier_retry_limit⟩
                    with bulk_push_cost := s.bulk_push_cost + 5 }
              frontier_req_client.next n s
            else
              frontier_req_client.add_frontier s
                ⟨account, latest, 0, s.incremental_id, 0, n.frontier_retry_limit⟩
          else
            frontier_req_client.add_frontier s
              ⟨account, latest, 0, s.incremental_id, 0, n.frontier_retry_limit⟩
        some (frontier_req_client.receive_frontier s)
    else
      match frontier_req_client.drain_local n lim fuel s with
      | none => none
      | some s =>
        some { s with promise := s.promise.orElse (fun _ => some false), pooled := true }
  else some s

/-- The completion handler of the read scheduled by `receive_frontier`: the
pair is handed to `received_frontier` when exactly `size_frontier` bytes were
read, and otherwise nothing is done (apart from logging). -/
def frontier_req_client.read_completed (n : node) (lim : bootstrap_limits) (fuel : Nat)
    (s : frontier_req_client) (ec : Bool) (size_a : Nat) (receive_buffer : List Nat)
    (now_first now : ℚ) : Option frontier_req_client :=
  if size_a = size_frontier then
    frontier_req_client.received_frontier n lim fuel s ec receive_buffer now_first now
  else some s

/-! ## Views of the account table used in the statements -/

/-- The pair `(account, info.head)` that `next` puts into the deque for a table
entry. -/
def account_pair (e : Nat × account_info) : Nat × Nat := (e.1, e.2.head)

/-- The table is well formed: accounts strictly ascend in iteration order and
none is the zero account (the burn account is never opened, and zero marks the
exhausted cursor). -/
def well_formed (store : account_store) : Prop :=
  store.Pairwise (fun a b => a.1 < b.1) ∧ ∀ e ∈ store, e.1 ≠ 0

/-- The ascending list of `(account, head)` over all accounts of the table that
are not below `request.start` and pass the age test at time
`n.seconds_since_epoch`. -/
def frontier_req_server.eligible (n : node) (request : frontier_req) : List (Nat × Nat) :=
  (n.store.filter (fun e => decide (request.start ≤ e.1) &&
    frontier_req_server.age_ok request n.seconds_since_epoch e.2)).map account_pair

/-- What a refill leaves in the deque when `l` is what the scan would yield
without the cap: the first 128 pairs, and the `(0, 0)` record when there are
fewer than 128. -/
def batch (l : List (Nat × Nat)) : List (Nat × Nat) :=
  if (l.take 128).length ≠ 128 then l.take 128 ++ [(0, 0)] else l.take 128

/-- The cursor and the deque of a state are the next entries of `remaining`
followed by the `(0, 0)` record. -/
def follows (current frontier : Nat) (accounts remaining : List (Nat × Nat)) : Prop :=
  ((current, frontier) :: accounts) <+: (remaining ++ [(0, 0)])

/-- The local accounts the client cursor has not passed yet, the one under the
cursor first: none once the cursor is zero, and otherwise the pairs of the
table from the cursor's account on. -/
def frontier_req_client.remaining (n : node) (s : frontier_req_client) : List (Nat × Nat) :=
  if s.current = 0 then []
  else (n.store.map account_pair).dropWhile (fun p => decide (p.1 < s.current))

/-- The cursor and deque of the client are in step with the local table: they
hold the next entries of `remaining` (followed by the `(0, 0)` record), as they
do after construction and after every `next ()`. -/
def frontier_req_client.in_step (n : node) (s : frontier_req_client) : Prop :=
  follows s.current s.frontier s.accounts (frontier_req_client.remaining n s)

/-- The client state after the bookkeeping at the head of `received_frontier`:
`start_time` is set on the first pair and `count` is incremented. -/
def frontier_req_client.counted (s : frontier_req_client) (now_first : ℚ) : frontier_req_client :=
  let s := if s.count = 0 then { s with start_time := now_first } else s
  { s with count := s.count + 1 }

/-- The slow-stream guard lets the pair received in state `s` through. -/
def frontier_req_client.guard_passes (lim : bootstrap_limits) (s : frontier_req_client)
    (now_first now : ℚ) : Prop :=
  frontier_req_client.too_slow lim (frontier_req_client.counted s now_first).count
    (now - (frontier_req_client.counted s now_first).start_time) = false

/-- The deque `frontier_req_client::next` takes its front from: the deque of
the state, refilled from the table when it is empty. -/
def frontier_req_client.refilled (n : node) (current : Nat) (accounts : List (Nat × Nat)) :
    List (Nat × Nat) :=
  if accounts.isEmpty then
    let filled := frontier_req_client.fill
      (accounts_begin n.store ((current + 1) % uint256_modulus)) []
    if filled.length ≠ 128 then filled ++ [(0, 0)] else filled
  else accounts

/-- What one completed read hands to `received_frontier`: the error code, the
content of the receive buffer and the two readings of the steady clock. -/
structure frontier_event where
  ec : Bool
  receive_buffer : List Nat
  now_first : ℚ
  now : ℚ

/-- The client state after a sequence of calls of `received_frontier`, one for
each event in order; `none` when one of the calls does not return. -/
def frontier_req_client.receive_all (n : node) (lim : bootstrap_limits) (fuel : Nat) :
    List frontier_event → frontier_req_client → Option frontier_req_client
  | [], s => some s
  | e :: rest, s =>
    match frontier_req_client.received_frontier n lim fuel s e.ec e.receive_buffer
        e.now_first e.now with
    | none => none
    | some s' => frontier_req_client.receive_all n lim fuel rest s'

/-- The stream of pairs as the spec words it, without batches: the first
`request.count` pairs of the ascending list of `(account, head)` over all
accounts that are not below `request.start` and pass the age test. -/
def frontier_req_server.unbatched_scan (n : node) (request : frontier_req) : List (Nat × Nat) :=
  (frontier_req_server.eligible n request).take request.count
/-! ## Concrete inputs used in the instances -/

/-- A table of two accounts, 3 and 7, both last modified at time 0. -/
def two_account_store : account_store :=
  [(3, { head := 30, modified := 0 }), (7, { head := 70, modified := 0 })]

/-- A node over `two_account_store` at time 100 that knows block 31 only. -/
def two_account_node : node :=
  { store := two_account_store
    seconds_since_epoch := 100
    block_or_pruned_exists := fun hash => decide (hash = 31)
    frontier_retry_limit := 16 }

/-- A table of 128 accounts, the last 128 values of a `uint256_t`: the account
`2 ^ 256 - 128 + k` has head `k + 1`. -/
def top_store : account_store :=
  (List.range 128).map (fun k => (uint256_modulus - 128 + k, { head := k + 1, modified := 0 }))

/-- A node over `top_store`. -/
def top_node : node :=
  { store := top_store
    seconds_since_epoch := 0
    block_or_pruned_exists := fun _ => false
    frontier_retry_limit := 16 }

/-- Limits under which the slow-stream guard needs five seconds to trigger. -/
def example_limits : bootstrap_limits :=
  { bootstrap_connection_warmup_time_sec := 5
    bootstrap_minimum_elapsed_seconds_blockrate := 1 / 50
    bootstrap_minimum_frontier_blocks_per_sec := 1000
    bulk_push_cost_limit := 200 }

/-- A client over `two_account_node` whose cursor has passed both local
accounts: the state reached from construction after the pairs of the accounts
3 and 7 were received in sync. -/
def exhausted_client : frontier_req_client :=
  { current := 0
    frontier := 0
    count := 2
    bulk_push_cost := 0
    frontiers_age := uint32_max
    accounts := []
    start_time := 0
    promise := none
    incremental_id := 9
    pulls := []
    bulk_push_targets := []
    pooled := false
    reads := 3
    offered := [] }

/-- A client over `two_account_node` right after construction and `run` with
the given age: the cursor is on account 3 and no pair has been received. -/
def fresh_client (frontiers_age : Nat) : frontier_req_client :=
  { current := 3
    frontier := 30
    count := 0
    bulk_push_cost := 0
    frontiers_age := frontiers_age
    accounts := [(7, 70), (0, 0)]
    start_time := 0
    promise := none
    incremental_id := 9
    pulls := []
    bulk_push_targets := []
    pooled := false
    reads := 1
    offered := [] }

/-- A client over `top_node` right after construction: the cursor is on the
first of the 128 local accounts, the deque holds the other 127 and no `(0, 0)`
record, since the refill took a full batch. -/
def top_client : frontier_req_client :=
  { current := uint256_modulus - 128
    frontier := 1
    count := 0
    bulk_push_cost := 0
    frontiers_age := uint32_max
    accounts := (top_store.map account_pair).tail
    start_time := 0
    promise := none
    incremental_id := 9
    pulls := []
    bulk_push_targets := []
    pooled := false
    reads := 0
    offered := [] }

/-- The client `fresh_client uint32_max` after it has received the pair
`(3, 30)` of its first local account in sync: the cursor is on account 7. -/
def synced_client : frontier_req_client :=
  { current := 7
    frontier := 70
    count := 1
    bulk_push_cost := 0
    frontiers_age := uint32_max
    accounts := [(0, 0)]
    start_time := 0
    promise := none
    incremental_id := 9
    pulls := []
    bulk_push_targets := []
    pooled := false
    reads := 2
    offered := [] }

/-- A client over `two_account_node` like `fresh_client uint32_max` whose
`bulk_push_cost` has passed the limit of `example_limits`. -/
def over_limit_client : frontier_req_client :=
  { fresh_client uint32_max with bulk_push_cost := 201 }

/-- The client `over_limit_client` after it has received the pair `(7, 70)`:
the local account 3 was offered and not recorded, account 7 was in sync. -/
def over_limit_client_after : frontier_req_client :=
  { current := 0
    frontier := 0
    count := 1
    bulk_push_cost := 201
    frontiers_age := uint32_max
    accounts := []
    start_time := 0
    promise := none
    incremental_id := 9
    pulls := []
    bulk_push_targets := []
    pooled := false
    reads := 2
    offered := [(30, 0)] }


/-- The client `fresh_client uint32_max` after it has received the terminator
as its first pair: the local accounts 3 and 7 were offered and recorded as push
targets at a cost of 2 each, and the exchange is over. -/
def drained_client : frontier_req_client :=
  { current := 0
    frontier := 0
    count := 1
    bulk_push_cost := 4
    frontiers_age := uint32_max
    accounts := []
    start_time := 0
    promise := some false
    incremental_id := 9
    pulls := []
    bulk_push_targets := [(30, 0), (70, 0)]
    pooled := true
    reads := 1
    offered := [(30, 0), (70, 0)] }

/-- The client `top_client` after `run` and after it has received the pairs of
its first 127 local accounts in sync: the cursor is on the last local account,
`2 ^ 256 - 1`, and the deque is empty. -/
def top_client_last : frontier_req_client :=
  { current := uint256_modulus - 1
    frontier := 128
    count := 127
    bulk_push_cost := 0
    frontiers_age := uint32_max
    accounts := []
    start_time := 0
    promise := none
    incremental_id := 9
    pulls := []
    bulk_push_targets := []
    pooled := false
    reads := 128
    offered := [] }
/-! ## The bootstrap attempt

The base class of `nano/node/bootstrap/bootstrap_attempt.cpp`.  Its methods run
under the attempt's mutex or on atomic members, so a history of the attempt is
a sequence of calls.  Waking the waiters of the condition variable, logging and
the websocket broadcasts are not modelled. -/

/-- The enumeration `nano::bootstrap_mode`, as far as `mode_text` tells its
values apart. -/
inductive bootstrap_mode where
  | legacy
  | lazy
  | wallet_lazy
deriving DecidableEq, Repr

/-- The enumeration `nano::signature_verification`, which is declared outside
the sources at hand; `unknown` is the value `process_block` passes on. -/
inductive signature_verification where
  | unknown
  | invalid
  | valid
  | valid_epoch
deriving DecidableEq, Repr

/-- A block, which the attempt passes on without looking into it: a number
standing for the block object. -/
abbrev block : Type := Nat

/-- The arguments of the constructor call
`nano::unchecked_info (block, account, modified, verified)`. -/
structure unchecked_info where
  block : block
  account : Nat
  modified : Nat
  verified : signature_verification
deriving DecidableEq, Repr

/-- The number of values of an `unsigned` counter. -/
def unsigned_modulus : Nat := 2 ^ 32

/-- The state of a `nano::bootstrap_attempt` together with what it has handed
to its collaborators.  The counter `pulling` is taken to be an `unsigned`
atomic and steady clock readings to be in nanoseconds. -/
structure bootstrap_attempt where
  incremental_id : Nat
  id : String
  mode : bootstrap_mode
  next_log : Nat
  pulling : Nat
  stopped : Bool
  /-- The ids passed to `connections->clear_pulls`, oldest first. -/
  cleared_pulls : List Nat
  /-- The entries passed to `node->block_processor.add`, oldest first. -/
  block_processor : List unchecked_info
deriving DecidableEq, Repr

/-- The method `bootstrap_attempt::still_pulling`. -/
def bootstrap_attempt.still_pulling (a : bootstrap_attempt) : Bool :=
  let running := !a.stopped
  let still_pulling := decide (a.pulling > 0)
  running && still_pulling

/-- The method `bootstrap_attempt::pull_started`: `++pulling`. -/
def bootstrap_attempt.pull_started (a : bootstrap_attempt) : bootstrap_attempt :=
  { a with pulling := (a.pulling + 1) % unsigned_modulus }

/-- The method `bootstrap_attempt::pull_finished`: `--pulling`. -/
def bootstrap_attempt.pull_finished (a : bootstrap_attempt) : bootstrap_attempt :=
  { a with pulling := (a.pulling + (unsigned_modulus - 1)) % unsigned_modulus }

/-- The method `bootstrap_attempt::stop`: the flag is set and the pulls of the
attempt are cleared from the connection pool. -/
def bootstrap_attempt.stop (a : bootstrap_attempt) : bootstrap_attempt :=
  { a with stopped := true, cleared_pulls := a.cleared_pulls ++ [a.incremental_id] }

/-- The method `bootstrap_attempt::process_block` of the base class: the block
is wrapped with the known account, a zero modification time and the
verification status `unknown`, and handed to the block processor; the result
is `false`.  The other four arguments are not used. -/
def bootstrap_attempt.process_block (a : bootstrap_attempt) (block_a : block)
    (known_account_a : Nat) (_pull_blocks _max_blocks : Nat) (_block_expected : Bool)
    (_retry_limit : Nat) : Bool × bootstrap_attempt :=
  let info : unchecked_info :=
    { block := block_a, account := known_account_a, modified := 0,
      verified := signature_verification.unknown }
  (false, { a with block_processor := a.block_processor ++ [info] })

/-- A call of one of the methods that change the `pulling` counter or the
`stopped` flag. -/
inductive attempt_call where
  | pull_started
  | pull_finished
  | stop
deriving DecidableEq, Repr

/-- The attempt after one call. -/
def bootstrap_attempt.call (a : bootstrap_attempt) : attempt_call → bootstrap_attempt
  | attempt_call.pull_started => a.pull_started
  | attempt_call.pull_finished => a.pull_finished
  | attempt_call.stop => a.stop

/-- The attempt after a sequence of calls, in order. -/
def bootstrap_attempt.calls (a : bootstrap_attempt) (cs : List attempt_call) : bootstrap_attempt :=
  cs.foldl bootstrap_attempt.call a


/-- The duration `std::chrono::seconds (s)` in ticks of the steady clock, which
are taken to be nanoseconds. -/
def seconds (s : Nat) : Nat := s * 1000000000

/-- The duration `std::chrono::milliseconds (ms)` in ticks of the steady
clock. -/
def milliseconds (ms : Nat) : Nat := ms * 1000000

/-- The method `bootstrap_attempt::should_log`, with `now` the reading of the
steady clock taken under the mutex: the result is `true` when `next_log` lies
before `now`, and `next_log` is then moved to 15 seconds after `now`. -/
def bootstrap_attempt.should_log (a : bootstrap_attempt) (now : Nat) : Bool × bootstrap_attempt :=
  let result := false
  if a.next_log < now then
    (true, { a with next_log := now + seconds 15 })
  else (result, a)

/-- The results of a sequence of `should_log ()` calls on one attempt, the
calls reading the steady clock as `nows` lists it. -/
def bootstrap_attempt.should_log_all : bootstrap_attempt → List Nat → List Bool
  | _, [] => []
  | a, now :: rest =>
    (a.should_log now).1 :: bootstrap_attempt.should_log_all (a.should_log now).2 rest

/-- The hexadecimal digit of a value below 16. -/
def hex_digit (d : Nat) : Char := Nat.digitChar d

/-- Modelled from the spec: `uint128_union::to_string ()` of
`nano/lib/numbers.cpp`, which the constructor uses to generate an id.  The
spec only says that an id is allocated; the string is taken to be the 32
hexadecimal digits of the 128-bit number, most significant first. -/
def uint128_to_string (value : Nat) : String :=
  String.mk ((List.range 32).map (fun k => hex_digit (value / 16 ^ (31 - k) % 16)))

/-- The constructor of `bootstrap_attempt`.  The members are initialised from
the arguments, and an empty id is replaced by the text of `random_128`, a 128
bit number drawn at random (`nano::random_constants`).  The members that have
default initialisers start with `next_log` at the current reading of the steady
clock, no pull under way and the attempt not stopped. -/
def bootstrap_attempt.create (mode_a : bootstrap_mode) (incremental_id_a : Nat) (id_a : String)
    (random_128 steady_now : Nat) : bootstrap_attempt :=
  let a : bootstrap_attempt :=
    { incremental_id := incremental_id_a
      id := id_a
      mode := mode_a
      next_log := steady_now
      pulling := 0
      stopped := false
      cleared_pulls := []
      block_processor := [] }
  if a.id.isEmpty then
    { a with id := uint128_to_string random_128 }
  else a
/-! ## The representative crawler

The methods of `nano/node/repcrawler.cpp` that keep the response queue and the
container of probable representatives, and the periodic crawl that cleans the
container up and queries random peers.  Each method runs under the mutex of
the member it touches, so a history of the crawler is a sequence of calls.
The steady clock is read once for a call, and what the source draws at random
(the peers, the hash to ask about) is supplied by the node. -/

/-- The enumeration `nano::transport::transport_type`. -/
inductive transport_type where
  | undefined
  | udp
  | tcp
  | loopback
deriving DecidableEq, Repr

/-- An address and a port; the address is a number, zero standing for the
unspecified address `address_v6::any ()`. -/
structure endpoint where
  address : Nat
  port : Nat
deriving DecidableEq, Repr

/-- What the crawler reads of a `nano::transport::channel`: `get_type ()`,
`get_endpoint ()`, `get_tcp_endpoint ()` and `get_network_version ()`. -/
structure channel where
  type : transport_type
  endpoint : nano.endpoint
  tcp_endpoint : nano.endpoint
  network_version : Nat
deriving DecidableEq, Repr

/-- What the crawler reads of a `nano::vote`: the voting account and the hashes
the vote carries, in the order `begin ()` to `end ()` visits them. -/
structure vote where
  account : Nat
  hashes : List Nat
deriving DecidableEq, Repr

/-- Modelled from the spec: the class `nano::representative` of
`nano/node/repcrawler.hpp`, the record
`{account, weight, channel, last_request_at, last_response_at}`; time points
are readings of the steady clock. -/
structure representative where
  account : Nat
  weight : Nat
  channel : nano.channel
  last_request : Nat
  last_response : Nat
deriving DecidableEq, Repr

/-- Modelled from the spec: a record as the constructor
`nano::representative (account, weight, channel)` makes it, with both time
points at the origin of the clock. -/
def representative.create (account weight : Nat) (ch : nano.channel) : representative :=
  { account := account, weight := weight, channel := ch, last_request := 0, last_response := 0 }

/-- The parts of the node that the crawler consults. -/
structure crawler_node where
  /-- The value of `node.minimum_principal_weight ()`. -/
  minimum_principal_weight : Nat
  /-- The function `node.ledger.weight`. -/
  weight : Nat → Nat
  /-- The reading `std::chrono::steady_clock::now ()` during the call. -/
  steady_now : Nat
  /-- The value of `node.online_reps.delta ()`. -/
  online_delta : Nat
  /-- The value of `node.network_params.network.is_dev_network ()`. -/
  is_dev_network : Bool
  /-- The function `node.network.tcp_channels.find_channel`. -/
  tcp_find_channel : endpoint → Option channel
  /-- The function `node.network.udp_channels.channel`. -/
  udp_channel : endpoint → Option channel
  /-- The value of `node.network_params.protocol.protocol_version_min ()`. -/
  protocol_version_min : Nat
  /-- The function `node.network.random_set (count, min_version,
  include_temporary_channels)`, as it answers during the call; the channels of
  the set in iteration order. -/
  random_set : Nat → Nat → Bool → List channel
  /-- The draws of `node.ledger.hash_root_random (transaction)` during the
  call, by their position: the first draw has position 0. -/
  hash_root_random : Nat → Nat × Nat

/-- The state of a `nano::rep_crawler`: the set `active` of hashes asked about,
the queue `responses` and the container `probable_reps`, whose records are
kept in insertion order and are unique by account. -/
structure rep_crawler where
  active : List Nat
  responses : List (channel × vote)
  probable_reps : List representative
deriving DecidableEq, Repr

/-- Modelled from the spec: `probable_reps.find (account)` on the index by
account, the record of that account if there is one. -/
def probable_reps_find (reps : List representative) (account : Nat) : Option representative :=
  reps.find? (fun r => decide (r.account = account))

/-- Modelled from the spec: `probable_reps.modify (existing, f)` for the record
`existing` found by account: that record is replaced by its image under `f`,
the others stay. -/
def probable_reps_modify (account : Nat) (f : representative → representative) :
    List representative → List representative
  | [] => []
  | r :: rest =>
    if r.account = account then f r :: rest
    else r :: probable_reps_modify account f rest

/-- Modelled from the spec: `probable_reps.emplace (record)`, which adds the
record unless one with the same account is present (the index by account is
unique). -/
def probable_reps_emplace (reps : List representative) (r : representative) :
    List representative :=
  if reps.any (fun x => decide (x.account = r.account)) then reps else reps ++ [r]

/-- The body of the loop of `rep_crawler::validate` for one queued response.
A response over a loopback channel, or of an account whose ledger weight is
not above the minimum principal weight, is skipped.  Otherwise the record of
the account gets the current time as `last_response` and, when its channel has
another endpoint than the response's channel, the current weight and the new
channel; an account without a record gets a new one. -/
def rep_crawler.validate_response (n : crawler_node) (c : rep_crawler) (i : channel × vote) :
    rep_crawler :=
  let vote := i.2
  let channel := i.1
  if channel.type ≠ transport_type.loopback then
    let rep_weight := n.weight vote.account
    if rep_weight > n.minimum_principal_weight then
      match probable_reps_find c.probable_reps vote.account with
      | some _ =>
        let modified := probable_reps_modify vote.account
          (fun info =>
            let info := { info with last_response := n.steady_now }
            if info.channel.endpoint ≠ channel.endpoint then
              { info with weight := rep_weight, channel := channel }
            else info)
          c.probable_reps
        { c with probable_reps := modified }
      | none =>
        let emplaced := probable_reps_emplace c.probable_reps
          (representative.create vote.account rep_weight channel)
        { c with probable_reps := emplaced }
    else c
  else c

/-- The method `rep_crawler::validate`: the queue is swapped out, leaving it
empty, and its responses are handled in order. -/
def rep_crawler.validate (n : crawler_node) (c : rep_crawler) : rep_crawler :=
  let responses_l := c.responses
  responses_l.foldl (rep_crawler.validate_response n) { c with responses := [] }

/-- The loop of `rep_crawler::response` over the hashes of the vote: at the
first hash that is in `active` the response is queued and the loop is left. -/
def rep_crawler.response_loop (c : rep_crawler) (channel_a : channel) (vote_a : vote) :
    List Nat → Bool × rep_crawler
  | [] => (true, c)
  | hash :: rest =>
    if c.active.count hash ≠ 0 then
      (false, { c with responses := c.responses ++ [(channel_a, vote_a)] })
    else rep_crawler.response_loop c channel_a vote_a rest

/-- The method `rep_crawler::response`: the result is the `error` flag. -/
def rep_crawler.response (c : rep_crawler) (channel_a : channel) (vote_a : vote) :
    Bool × rep_crawler :=
  rep_crawler.response_loop c channel_a vote_a vote_a.hashes


/-! ### The indices of the container and the periodic crawl -/

/-- The number of values of a `uint128_t`. -/
def uint128_modulus : Nat := 2 ^ 128

/-- The number of values of a `uint16_t`. -/
def uint16_modulus : Nat := 2 ^ 16

/-- Modelled from the spec: the index `tag_weight` of `probable_reps`, declared
in `nano/node/repcrawler.hpp`: the records by weight, descending; records of
equal weight stay in container order. -/
def index_by_weight (reps : List representative) : List representative :=
  reps.insertionSort (fun a b => b.weight ≤ a.weight)

/-- Modelled from the spec: the index `tag_last_request` of `probable_reps`,
declared in `nano/node/repcrawler.hpp`: the records by the time of the last
request, ascending; records of equal time stay in container order. -/
def index_by_last_request (reps : List representative) : List representative :=
  reps.insertionSort (fun a b => a.last_request ≤ b.last_request)

/-- Modelled from the spec: `erase (iterator)` on an index of `probable_reps`:
the record the iterator points to leaves the container.  The records are
unique by account, so it is the one record equal to it. -/
def probable_reps_erase (reps : List representative) (r : representative) : List representative :=
  reps.filter (fun x => decide (x ≠ r))

/-- Modelled from the spec: `probable_reps.get<tag_channel_ref> ().erase (channel)`
on the index by channel identity, which is not unique: every record of that
channel leaves the container.  Two channels are the same channel when all that
the crawler reads of them agrees. -/
def probable_reps_erase_channel (reps : List representative) (ch : channel) :
    List representative :=
  reps.filter (fun x => decide (x.channel ≠ ch))

/-- The method `rep_crawler::remove`. -/
def rep_crawler.remove (c : rep_crawler) (hash_a : Nat) : rep_crawler :=
  { c with active := c.active.filter (fun h => decide (h ≠ hash_a)) }

/-- The loop of `rep_crawler::total_weight` over the index by weight: the
weights are added up as `uint128_t` values until a record of weight zero is
met. -/
def rep_crawler.total_weight_loop : List representative → Nat → Nat
  | [], result => result
  | i :: rest, result =>
    let weight := i.weight
    if weight > 0 then
      rep_crawler.total_weight_loop rest ((result + weight) % uint128_modulus)
    else result

/-- The method `rep_crawler::total_weight`. -/
def rep_crawler.total_weight (c : rep_crawler) : Nat :=
  rep_crawler.total_weight_loop (index_by_weight c.probable_reps) 0

/-- The method `rep_crawler::get_crawl_targets`: the number of peers asked of
`random_set` is a `uint16_t` that starts at 10 when the total weight is above
`online_reps.delta ()` and at 40 otherwise, and is then raised by its half; the
result holds the channels of the random set. -/
def rep_crawler.get_crawl_targets (n : crawler_node) (total_weight_a : Nat) : List channel :=
  let conservative_count := 10
  let aggressive_count := 40
  let sufficient_weight := decide (total_weight_a > n.online_delta)
  let required_peer_count := if sufficient_weight then conservative_count else aggressive_count
  let required_peer_count := (required_peer_count + required_peer_count / 2) % uint16_modulus
  let random_peers := n.random_set required_peer_count 0 true
  let result : List channel := []
  result ++ random_peers

/-- The method `rep_crawler::on_rep_request`: unless the tcp endpoint of the
channel has the unspecified address, every record on that channel gets the
current time as `last_request`. -/
def rep_crawler.on_rep_request (n : crawler_node) (c : rep_crawler) (channel_a : channel) :
    rep_crawler :=
  if channel_a.tcp_endpoint.address ≠ 0 then
    let touched := c.probable_reps.map
      (fun value_a =>
        if value_a.channel = channel_a then { value_a with last_request := n.steady_now }
        else value_a)
    { c with probable_reps := touched }
  else c

/-- The first loop of `rep_crawler::cleanup_reps` over the index by last
request: the channel of a record whose tcp endpoint has a specified address is
collected, any other record is erased. -/
def rep_crawler.cleanup_closed :
    List representative → List channel × List representative → List channel × List representative
  | [], state => state
  | iterator :: rest, (channels, reps) =>
    if iterator.channel.tcp_endpoint.address ≠ 0 then
      rep_crawler.cleanup_closed rest (channels ++ [iterator.channel], reps)
    else
      rep_crawler.cleanup_closed rest (channels, probable_reps_erase reps iterator)

/-- The flag `equal` of the second loop of `rep_crawler::cleanup_reps`: a tcp
channel must be the channel `tcp_channels.find_channel` has for its tcp
endpoint, a udp channel the one `udp_channels.channel` has for its endpoint;
a channel of another type never passes. -/
def rep_crawler.cleanup_equal (n : crawler_node) (i : channel) : Bool :=
  if i.type = transport_type.tcp then
    match n.tcp_find_channel i.tcp_endpoint with
    | some find_channel => decide (find_channel = i)
    | none => false
  else if i.type = transport_type.udp then
    match n.udp_channel i.endpoint with
    | some find_channel => decide (find_channel = i)
    | none => false
  else false

/-- The method `rep_crawler::cleanup_reps`: records with closed channels are
erased while the channels of the others are collected, and then the records of
every collected channel that fails the `equal` test are erased. -/
def rep_crawler.cleanup_reps (n : crawler_node) (c : rep_crawler) : rep_crawler :=
  let scanned := rep_crawler.cleanup_closed (index_by_last_request c.probable_reps)
    ([], c.probable_reps)
  let channels := scanned.1
  let cleaned := channels.foldl
    (fun reps i =>
      if !rep_crawler.cleanup_equal n i then probable_reps_erase_channel reps i else reps)
    scanned.2
  { c with probable_reps := cleaned }

/-- The method `rep_crawler::update_weights`: every record takes the weight the
ledger has for its account, and a record whose account has no weight is
erased.  Each step touches the visited record only, so the records are taken
in container order. -/
def rep_crawler.update_weights (n : crawler_node) (c : rep_crawler) : rep_crawler :=
  let updated := c.probable_reps.filterMap
    (fun i =>
      let weight := n.weight i.account
      if weight > 0 then
        if i.weight ≠ weight then some { i with weight := weight } else some i
      else none)
  { c with probable_reps := updated }

/-- The loop of `rep_crawler::representatives` over the index by weight: it
ends at the end of the index or as soon as the result holds `count_a` records,
and takes every record above the weight whose channel has the minimum
version. -/
def rep_crawler.representatives_loop (count_a weight_a version_min : Nat) :
    List representative → List representative → List representative
  | [], result => result
  | i :: rest, result =>
    if result.length < count_a then
      if i.weight > weight_a ∧ i.channel.network_version ≥ version_min then
        rep_crawler.representatives_loop count_a weight_a version_min rest (result ++ [i])
      else
        rep_crawler.representatives_loop count_a weight_a version_min rest result
    else result

/-- The method `rep_crawler::representatives`. -/
def rep_crawler.representatives (n : crawler_node) (c : rep_crawler) (count_a weight_a : Nat)
    (opt_version_min_a : Option Nat) : List representative :=
  let version_min := opt_version_min_a.getD n.protocol_version_min
  rep_crawler.representatives_loop count_a weight_a version_min
    (index_by_weight c.probable_reps) []

/-- The method `rep_crawler::principal_representatives`. -/
def rep_crawler.principal_representatives (n : crawler_node) (c : rep_crawler) (count_a : Nat)
    (opt_version_min_a : Option Nat) : List representative :=
  rep_crawler.representatives n c count_a n.minimum_principal_weight opt_version_min_a

/-- A task handed to `node.workers.add_timed_task`. -/
inductive crawler_task where
  | ongoing_crawl
  | remove (hash : Nat)
deriving DecidableEq, Repr

/-- What a crawl hands to its collaborators. -/
structure crawler_output where
  /-- The calls `node.network.send_confirm_req (channel, hash_root)`, in
  order. -/
  confirm_reqs : List (channel × (Nat × Nat))
  /-- The hashes passed to `node.active.erase_recently_confirmed`. -/
  erased_recently_confirmed : List Nat
  /-- Whether `node.keepalive_preconfigured` was called. -/
  keepalive_preconfigured : Bool
  /-- The tasks passed to `node.workers.add_timed_task` with their time
  points, in order. -/
  timed_tasks : List (Nat × crawler_task)
deriving DecidableEq, Repr

/-- The loop of `rep_crawler::query` that draws again on the dev network while
the hash drawn is in `active`, four times at most; the first argument counts
the rounds left, so the draws made in the rounds have the positions 1 to 4. -/
def rep_crawler.query_redraw (n : crawler_node) (active : List Nat) :
    Nat → Nat × Nat → Nat × Nat
  | 0, hash_root => hash_root
  | remaining + 1, hash_root =>
    if active.count hash_root.1 ≠ 0 then
      rep_crawler.query_redraw n active remaining (n.hash_root_random (4 - remaining))
    else hash_root

/-- The method `rep_crawler::query` for a list of channels: a random hash and
root are drawn and the hash is put into `active`; each channel is noted as
asked and sent a confirm request; the hash is to be removed 5 seconds later. -/
def rep_crawler.query (n : crawler_node) (c : rep_crawler) (channels_a : List channel) :
    rep_crawler × crawler_output :=
  let hash_root := n.hash_root_random 0
  let hash_root :=
    if n.is_dev_network then rep_crawler.query_redraw n c.active 4 hash_root else hash_root
  let active := if hash_root.1 ∈ c.active then c.active else c.active ++ [hash_root.1]
  let c := { c with active := active }
  let erased := if !channels_a.isEmpty then [hash_root.1] else []
  let c := channels_a.foldl (rep_crawler.on_rep_request n) c
  (c, { confirm_reqs := channels_a.map (fun i => (i, hash_root))
        erased_recently_confirmed := erased
        keepalive_preconfigured := false
        timed_tasks := [(n.steady_now + seconds 5, crawler_task.remove hash_root.1)] })

/-- The method `rep_crawler::ongoing_crawl`: the total weight is taken first,
the records are cleaned up, their weights updated and the queued responses
validated; the crawl targets are queried; the preconfigured peers are
contacted when the weight is not sufficient; and the next run is scheduled. -/
def rep_crawler.ongoing_crawl (n : crawler_node) (c : rep_crawler) :
    rep_crawler × crawler_output :=
  let now := n.steady_now
  let total_weight_l := rep_crawler.total_weight c
  let c := rep_crawler.cleanup_reps n c
  let c := rep_crawler.update_weights n c
  let c := rep_crawler.validate n c
  let queried := rep_crawler.query n c (rep_crawler.get_crawl_targets n total_weight_l)
  let sufficient_weight := decide (total_weight_l > n.online_delta)
  let next_run_ms := if n.is_dev_network then 100 else if sufficient_weight then 7000 else 3000
  (queried.1,
    { queried.2 with
      keepalive_preconfigured := !sufficient_weight
      timed_tasks := queried.2.timed_tasks ++
        [(now + milliseconds next_run_ms, crawler_task.ongoing_crawl)] })
/-! ## Concrete inputs for the representative crawler -/

/-- A node for which account 5 weighs exactly the minimum principal weight 100
and account 6 weighs 500. -/
def example_crawler_node : crawler_node :=
  { minimum_principal_weight := 100
    weight := fun account => if account = 5 then 100 else if account = 6 then 500 else 0
    steady_now := 1000
    online_delta := 1000
    is_dev_network := false
    tcp_find_channel := fun _ => none
    udp_channel := fun _ => none
    protocol_version_min := 18
    random_set := fun _ _ _ => []
    hash_root_random := fun k => (77 + k, 1) }

/-- A tcp channel to address 1. -/
def example_tcp_channel : channel :=
  { type := transport_type.tcp
    endpoint := { address := 1, port := 7075 }
    tcp_endpoint := { address := 1, port := 7075 }
    network_version := 18 }

/-- A tcp channel to address 2. -/
def other_tcp_channel : channel :=
  { type := transport_type.tcp
    endpoint := { address := 2, port := 7075 }
    tcp_endpoint := { address := 2, port := 7075 }
    network_version := 18 }

/-- A loopback channel. -/
def example_loopback_channel : channel :=
  { type := transport_type.loopback
    endpoint := { address := 3, port := 7075 }
    tcp_endpoint := { address := 3, port := 7075 }
    network_version := 18 }

/-- A crawler that has asked about hash 77 and holds no response and no
record. -/
def empty_crawler : rep_crawler :=
  { active := [77], responses := [], probable_reps := [] }

/-- A crawler that holds a record of account 6 on `example_tcp_channel`. -/
def one_rep_crawler : rep_crawler :=
  { active := [77]
    responses := []
    probable_reps :=
      [{ account := 6, weight := 400, channel := example_tcp_channel,
         last_request := 10, last_response := 20 }] }


/-- A node like `example_crawler_node` whose network has many peers: the random
set of `count` peers holds the tcp channels to the addresses 1 to `count`. -/
def crowded_crawler_node : crawler_node :=
  { example_crawler_node with
    random_set := fun count _ _ =>
      (List.range count).map (fun k =>
        { type := transport_type.tcp
          endpoint := { address := k + 1, port := 7075 }
          tcp_endpoint := { address := k + 1, port := 7075 }
          network_version := 18 }) }

/-- A crawler that holds four records: the accounts 6, 8, 9 and 4 with the
weights 400, 900, 0 and 650. -/
def four_rep_crawler : rep_crawler :=
  { active := [77]
    responses := []
    probable_reps :=
      [{ account := 6, weight := 400, channel := example_tcp_channel,
         last_request := 10, last_response := 20 },
       { account := 8, weight := 900, channel := other_tcp_channel,
         last_request := 5, last_response := 20 },
       { account := 9, weight := 0, channel := example_tcp_channel,
         last_request := 7, last_response := 0 },
       { account := 4, weight := 650, channel := other_tcp_channel,
         last_request := 12, last_response := 30 }] }

/-- A node like `example_crawler_node` whose tcp peer table holds
`example_tcp_channel` and no other channel. -/
def live_crawler_node : crawler_node :=
  { example_crawler_node with
    tcp_find_channel := fun e =>
      if e = example_tcp_channel.tcp_endpoint then some example_tcp_channel else none }

/-- A crawler that holds three records: the accounts 6 and 8 with the weight
`2 ^ 127` each and the account 4 with the weight 5. -/
def heavy_rep_crawler : rep_crawler :=
  { active := [77]
    responses := []
    probable_reps :=
      [{ account := 6, weight := 2 ^ 127, channel := example_tcp_channel,
         last_request := 10, last_response := 20 },
       { account := 8, weight := 2 ^ 127, channel := other_tcp_channel,
         last_request := 5, last_response := 20 },
       { account := 4, weight := 5, channel := other_tcp_channel,
         last_request := 12, last_response := 30 }] }
/-! ## Lemmas on the wire format -/

theorem number_append_singleton (bs : List Nat) (b : Nat) :
    number (bs ++ [b]) = number bs * 256 + b := by
  simp [number, List.foldl_append]

theorem length_to_bytes (len n : Nat) : (to_bytes len n).length = len := by
  induction len generalizing n with
  | zero => simp [to_bytes]
  | succ k ih => simp [to_bytes, ih]

theorem number_to_bytes (len n : Nat) : number (to_bytes len n) = n % 256 ^ len := by
  induction len generalizing n with
  | zero => simp [to_bytes, number, Nat.mod_one]
  | succ k ih =>
    rw [to_bytes, number_append_singleton, ih, pow_succ', Nat.mod_mul]
    ring

theorem to_bytes_lt (len n b : Nat) (h : b ∈ to_bytes len n) : b < 256 := by
  induction len generalizing n with
  | zero => simp [to_bytes] at h
  | succ k ih =>
    rw [to_bytes, List.mem_append] at h
    rcases h with h | h
    · exact ih _ h
    · rw [List.mem_singleton] at h
      rw [h]
      exact Nat.mod_lt _ (by norm_num)

theorem length_bytes (n : Nat) : (bytes n).length = 32 := length_to_bytes 32 n

theorem number_bytes (n : Nat) (h : n < uint256_modulus) : number (bytes n) = n := by
  have h256 : (256 : Nat) ^ 32 = uint256_modulus := by norm_num [uint256_modulus]
  rw [bytes, number_to_bytes, h256, Nat.mod_eq_of_lt h]

theorem to_bytes_zero (len : Nat) : to_bytes len 0 = List.replicate len 0 := by
  induction len with
  | zero => rfl
  | succ k ih =>
    rw [to_bytes, Nat.zero_div, ih, Nat.zero_mod, List.replicate_succ']

theorem take_frontier_buffer (a h : Nat) : (frontier_buffer a h).take 32 = bytes a := by
  rw [frontier_buffer, List.take_left' (length_bytes a)]

theorem drop_frontier_buffer (a h : Nat) : (frontier_buffer a h).drop 32 = bytes h := by
  rw [frontier_buffer, List.drop_left' (length_bytes a)]

theorem read_frontier_buffer (a h : Nat) (ha : a < uint256_modulus) (hh : h < uint256_modulus) :
    read_frontier (frontier_buffer a h) = (a, h) := by
  have hfull : (bytes h).take 32 = bytes h := List.take_of_length_le (length_bytes h).le
  rw [read_frontier, take_frontier_buffer, drop_frontier_buffer, hfull,
    number_bytes a ha, number_bytes h hh]

theorem read_finished_buffer : read_frontier finished_buffer = (0, 0) :=
  read_frontier_buffer 0 0 (by norm_num [uint256_modulus]) (by norm_num [uint256_modulus])

/-! ## Lemmas on the refill of the deque -/

theorem server_fill_eq (request : frontier_req) (now : Nat) (range : account_store)
    (accounts : List (Nat × Nat)) (h : accounts.length ≤ 128) :
    frontier_req_server.fill request now range accounts =
      accounts ++ ((range.filter
        (fun e => frontier_req_server.age_ok request now e.2)).map account_pair).take
          (128 - accounts.length) := by
  induction range generalizing accounts with
  | nil => simp [frontier_req_server.fill]
  | cons e rest ih =>
    obtain ⟨account, info⟩ := e
    rw [frontier_req_server.fill]
    by_cases hfull : accounts.length = 128
    · simp [hfull]
    · have hlt : accounts.length < 128 := lt_of_le_of_ne h hfull
      rw [if_neg hfull]
      by_cases hok : frontier_req_server.age_ok request now info = true
      · rw [if_pos hok, ih _ (by simp; omega)]
        have hsub : 128 - accounts.length = (128 - (accounts ++ [(account, info.head)]).length) + 1 := by
          simp; omega
        rw [List.filter_cons_of_pos (by simpa using hok), List.map_cons, hsub, List.take_succ_cons]
        simp [account_pair]
      · rw [if_neg hok, ih _ h, List.filter_cons_of_neg (by simpa using hok)]

theorem client_fill_eq (range : account_store) (accounts : List (Nat × Nat))
    (h : accounts.length ≤ 128) :
    frontier_req_client.fill range accounts =
      accounts ++ (range.map account_pair).take (128 - accounts.length) := by
  induction range generalizing accounts with
  | nil => simp [frontier_req_client.fill]
  | cons e rest ih =>
    obtain ⟨account, info⟩ := e
    rw [frontier_req_client.fill]
    by_cases hfull : accounts.length = 128
    · simp [hfull]
    · have hlt : accounts.length < 128 := lt_of_le_of_ne h hfull
      rw [if_neg hfull, ih _ (by simp; omega)]
      have hsub : 128 - accounts.length = (128 - (accounts ++ [(account, info.head)]).length) + 1 := by
        simp; omega
      rw [List.map_cons, hsub, List.take_succ_cons]
      simp [account_pair]

theorem accounts_begin_eq_filter (store : account_store) (key : Nat)
    (hs : store.Pairwise (fun a b => a.1 < b.1)) :
    accounts_begin store key = store.filter (fun e => decide (key ≤ e.1)) := by
  induction store with
  | nil => rfl
  | cons e rest ih =>
    rw [List.pairwise_cons] at hs
    by_cases hlt : e.1 < key
    · rw [accounts_begin, List.dropWhile_cons_of_pos (by simpa using hlt),
        List.filter_cons_of_neg (by simpa using hlt)]
      exact ih hs.2
    · rw [accounts_begin, List.dropWhile_cons_of_neg (by simpa using hlt),
        List.filter_cons_of_pos (by simpa using hlt)]
      congr 1
      symm
      rw [List.filter_eq_self]
      intro a ha
      have := hs.1 a ha
      simp only [decide_eq_true_eq]
      omega

theorem batch_ne_nil (l : List (Nat × Nat)) : batch l ≠ [] := by
  unfold batch
  split
  · simp
  · rename_i h
    intro hnil
    rw [hnil] at h
    simp at h

theorem batch_initial (l : List (Nat × Nat)) : batch l <+: l ++ [(0, 0)] := by
  unfold batch
  split
  · rename_i h
    have hshort : l.length < 128 := by
      rw [List.length_take] at h
      omega
    rw [List.take_of_length_le hshort.le]
  · exact ( List.take_prefix 128 l).trans ( List.prefix_append l _)

theorem mem_batch_of_mem_take (l : List (Nat × Nat)) (p : Nat × Nat) (h : p ∈ l.take 128) :
    p ∈ batch l := by
  unfold batch
  split
  · exact List.mem_append_left _ h
  · exact h

/-- In a list with strictly ascending keys, the entries whose key is above that
of a given entry are the ones after it. -/
theorem filter_above_of_pairwise (pre post : List (Nat × Nat)) (c : Nat × Nat)
    (hs : (pre ++ c :: post).Pairwise (fun a b => a.1 < b.1)) :
    (pre ++ c :: post).filter (fun p => decide (c.1 + 1 ≤ p.1)) = post := by
  rw [List.pairwise_append] at hs
  obtain ⟨_, hpost, hcross⟩ := hs
  rw [List.pairwise_cons] at hpost
  rw [List.filter_append, List.filter_cons_of_neg (by simp)]
  have hpre : pre.filter (fun p => decide (c.1 + 1 ≤ p.1)) = [] := by
    rw [List.filter_eq_nil_iff]
    intro a ha
    have := hcross a ha c (List.mem_cons_self _ _)
    simp only [decide_eq_true_eq]
    omega
  have hkeep : post.filter (fun p => decide (c.1 + 1 ≤ p.1)) = post := by
    rw [List.filter_eq_self]
    intro a ha
    have := hpost.1 a ha
    simp only [decide_eq_true_eq]
    omega
  rw [hpre, hkeep, List.nil_append]

/-! ## Lemmas on the server cursor -/

theorem eligible_pairwise (n : node) (request : frontier_req)
    (hs : n.store.Pairwise (fun a b => a.1 < b.1)) :
    (frontier_req_server.eligible n request).Pairwise (fun a b => a.1 < b.1) := by
  unfold frontier_req_server.eligible
  exact List.Pairwise.map account_pair (fun a b hab => hab) (hs.filter _)

theorem mem_eligible (n : node) (request : frontier_req) (c : Nat × Nat)
    (hc : c ∈ frontier_req_server.eligible n request) :
    request.start ≤ c.1 ∧ ∃ e ∈ n.store, e.1 = c.1 := by
  unfold frontier_req_server.eligible at hc
  rw [List.mem_map] at hc
  obtain ⟨e, he, rfl⟩ := hc
  rw [List.mem_filter] at he
  simp only [Bool.and_eq_true, decide_eq_true_eq] at he
  exact ⟨he.2.1, e, he.1, rfl⟩

theorem server_refill_first (n : node) (request : frontier_req)
    (hs : n.store.Pairwise (fun a b => a.1 < b.1)) :
    frontier_req_server.fill request n.seconds_since_epoch
        (accounts_begin n.store request.start) [] =
      (frontier_req_server.eligible n request).take 128 := by
  rw [server_fill_eq _ _ _ _ (by simp), accounts_begin_eq_filter _ _ hs,
    List.filter_filter]
  simp only [List.nil_append, List.length_nil, Nat.sub_zero, frontier_req_server.eligible]
  congr 2
  apply List.filter_congr
  intro e _
  exact Bool.and_comm _ _

theorem server_refill_after (n : node) (request : frontier_req)
    (hs : n.store.Pairwise (fun a b => a.1 < b.1)) (pre post : List (Nat × Nat)) (c : Nat × Nat)
    (hE : frontier_req_server.eligible n request = pre ++ c :: post)
    (hnw : c.1 + 1 < uint256_modulus) :
    frontier_req_server.fill request n.seconds_since_epoch
        (accounts_begin n.store ((c.1 + 1) % uint256_modulus)) [] = post.take 128 := by
  have hstart : request.start ≤ c.1 :=
    (mem_eligible n request c (by rw [hE]; simp)).1
  have hpost : (frontier_req_server.eligible n request).filter
      (fun p => decide (c.1 + 1 ≤ p.1)) = post := by
    rw [hE]
    exact filter_above_of_pairwise pre post c
      (hE ▸ eligible_pairwise n request hs)
  rw [Nat.mod_eq_of_lt hnw, server_fill_eq _ _ _ _ (by simp),
    accounts_begin_eq_filter _ _ hs, List.filter_filter, ← hpost]
  simp only [List.nil_append, List.length_nil, Nat.sub_zero, frontier_req_server.eligible,
    List.filter_map, List.filter_filter]
  congr 2
  apply List.filter_congr
  intro e _
  simp only [Function.comp, account_pair]
  by_cases hk : c.1 + 1 ≤ e.1
  · have : request.start ≤ e.1 := by omega
    simp [hk, this]
  · simp [hk]

theorem server_next_of_cons (n : node) (s : frontier_req_server)
    (p : Nat × Nat) (rest : List (Nat × Nat)) (h : s.accounts = p :: rest) :
    frontier_req_server.next n s =
      { s with current := p.1, frontier := p.2, accounts := rest } := by
  simp [frontier_req_server.next, h]

theorem server_next_of_nil (n : node) (s : frontier_req_server)
    (l : List (Nat × Nat)) (p : Nat × Nat) (rest : List (Nat × Nat)) (h : s.accounts = [])
    (hfill : frontier_req_server.fill s.request n.seconds_since_epoch
      (accounts_begin n.store ((s.current + 1) % uint256_modulus)) [] = l.take 128)
    (hb : batch l = p :: rest) :
    frontier_req_server.next n s =
      { s with current := p.1, frontier := p.2, accounts := rest } := by
  unfold batch at hb
  simp only [frontier_req_server.next, h, List.isEmpty_nil, if_true, hfill, hb]

theorem server_next_follows (n : node) (request : frontier_req)
    (hs : n.store.Pairwise (fun a b => a.1 < b.1))
    (hnw : ∀ e ∈ n.store, e.1 + 1 < uint256_modulus)
    (s : frontier_req_server) (pre post : List (Nat × Nat)) (hreq : s.request = request)
    (hE : frontier_req_server.eligible n request = pre ++ (s.current, s.frontier) :: post)
    (hdeque : s.accounts <+: post ++ [(0, 0)]) :
    follows (frontier_req_server.next n s).current (frontier_req_server.next n s).frontier
        (frontier_req_server.next n s).accounts post ∧
      (frontier_req_server.next n s).request = request ∧
      (frontier_req_server.next n s).count = s.count := by
  cases hacc : s.accounts with
  | nil =>
    have hcur : s.current + 1 < uint256_modulus := by
      obtain ⟨e, he, hkey⟩ :=
        (mem_eligible n request (s.current, s.frontier) (by rw [hE]; simp)).2
      have := hnw e he
      simp only at hkey
      omega
    have hfill := server_refill_after n request hs pre post
      (s.current, s.frontier) hE hcur
    rw [← hreq] at hfill
    cases hb : batch post with
    | nil => exact absurd hb (batch_ne_nil post)
    | cons p rest =>
      rw [server_next_of_nil n s post p rest hacc hfill hb]
      refine ⟨?_, hreq, rfl⟩
      have := batch_initial post
      rw [hb] at this
      exact this
  | cons p rest =>
    rw [server_next_of_cons n s p rest hacc]
    refine ⟨?_, hreq, rfl⟩
    rw [hacc] at hdeque
    exact hdeque

/-! ## The stream of the server over a table without the account `2 ^ 256 - 1` -/

theorem follows_nil (current frontier : Nat) (accounts : List (Nat × Nat))
    (h : follows current frontier accounts []) : current = 0 := by
  unfold follows at h
  rw [List.nil_append, List.cons_prefix_cons] at h
  exact (Prod.mk.inj h.1).1

theorem follows_cons (current frontier : Nat) (accounts : List (Nat × Nat)) (c : Nat × Nat)
    (post : List (Nat × Nat)) (h : follows current frontier accounts (c :: post)) :
    c = (current, frontier) ∧ accounts <+: post ++ [(0, 0)] := by
  unfold follows at h
  rw [List.cons_append, List.cons_prefix_cons] at h
  exact ⟨h.1.symm, h.2⟩

theorem server_send_next_eq (n : node) (request : frontier_req)
    (hwf : well_formed n.store) (hnw : ∀ e ∈ n.store, e.1 + 1 < uint256_modulus) (fuel : Nat) :
    ∀ (s : frontier_req_server) (pre remaining : List (Nat × Nat)), s.request = request →
      frontier_req_server.eligible n request = pre ++ remaining →
      follows s.current s.frontier s.accounts remaining →
      request.count - s.count < fuel →
      frontier_req_server.send_next n fuel s =
        (remaining.take (request.count - s.count)).map (fun p => frontier_buffer p.1 p.2) ++
          [finished_buffer] := by
  induction fuel with
  | zero => intro s pre remaining _ _ _ hfuel; omega
  | succ fuel ih =>
    intro s pre remaining hreq hE hfol hfuel
    rw [frontier_req_server.send_next]
    by_cases hc : s.current ≠ 0 ∧ s.count < s.request.count
    · rw [if_pos hc]
      cases remaining with
      | nil => exact absurd (follows_nil _ _ _ hfol) hc.1
      | cons c post =>
        obtain ⟨hceq, hdeque⟩ := follows_cons _ _ _ _ _ hfol
        subst hceq
        obtain ⟨hfol', hreq', hcount'⟩ :=
          server_next_follows n request hwf.1 hnw s pre post hreq hE hdeque
        have hlt : s.count < request.count := hreq ▸ hc.2
        have hstep := ih { frontier_req_server.next n s with
            count := (frontier_req_server.next n s).count + 1 }
          (pre ++ [(s.current, s.frontier)]) post hreq' (by simp [hE]) hfol'
          (by simp only [hcount']; omega)
        have hsub : request.count - s.count =
            (request.count - ((frontier_req_server.next n s).count + 1)) + 1 := by
          rw [hcount']; omega
        rw [hsub, List.take_succ_cons, List.map_cons, List.cons_append]
        exact congrArg (List.cons (frontier_buffer s.current s.frontier)) hstep
    · rw [if_neg hc]
      have hnone : remaining.take (request.count - s.count) = [] := by
        by_cases hz : s.current = 0
        · cases remaining with
          | nil => exact List.take_nil
          | cons c post =>
            obtain ⟨hceq, _⟩ := follows_cons _ _ _ _ _ hfol
            obtain ⟨e, he, hkey⟩ :=
              (mem_eligible n request c (by rw [hE]; simp)).2
            have := hwf.2 e he
            rw [hceq] at hkey
            simp only at hkey
            omega
        · have : ¬ s.count < request.count := by
            intro hlt
            exact hc ⟨hz, hreq ▸ hlt⟩
          have hzero : request.count - s.count = 0 := by omega
          rw [hzero, List.take_zero]
      rw [hnone, List.map_nil, List.nil_append]

theorem server_create_follows (n : node) (request : frontier_req)
    (hs : n.store.Pairwise (fun a b => a.1 < b.1)) (hstart : request.start < uint256_modulus) :
    follows (frontier_req_server.create n request).current
        (frontier_req_server.create n request).frontier
        (frontier_req_server.create n request).accounts
        (frontier_req_server.eligible n request) ∧
      (frontier_req_server.create n request).request = request ∧
      (frontier_req_server.create n request).count = 0 := by
  have hkey : ((request.start % uint256_modulus + (uint256_modulus - 1)) % uint256_modulus + 1)
      % uint256_modulus = request.start := by
    unfold uint256_modulus at hstart ⊢
    norm_num at hstart ⊢
    omega
  have hfill := server_refill_first n request hs
  unfold frontier_req_server.create
  cases hb : batch (frontier_req_server.eligible n request) with
  | nil => exact absurd hb (batch_ne_nil _)
  | cons p rest =>
    rw [server_next_of_nil n _ (frontier_req_server.eligible n request) p rest rfl
      (by simp only [hkey]; exact hfill) hb]
    refine ⟨?_, rfl, rfl⟩
    have := batch_initial (frontier_req_server.eligible n request)
    rw [hb] at this
    exact this

/-- Over a well-formed table that does not hold the account `2 ^ 256 - 1`, the
server writes the first `request.count` eligible pairs in table order and then
the all-zero pair. -/
theorem server_serve_eq (n : node) (request : frontier_req)
    (hwf : well_formed n.store) (hnw : ∀ e ∈ n.store, e.1 + 1 < uint256_modulus)
    (hstart : request.start < uint256_modulus) :
    frontier_req_server.serve n request =
      ((frontier_req_server.eligible n request).take request.count).map
        (fun p => frontier_buffer p.1 p.2) ++ [finished_buffer] := by
  obtain ⟨hfol, hreq, hcount⟩ := server_create_follows n request hwf.1 hstart
  have := server_send_next_eq n request hwf hnw (request.count + 1)
    (frontier_req_server.create n request) [] (frontier_req_server.eligible n request)
    hreq rfl hfol (by omega)
  rw [hcount] at this
  exact this

/-- Over a well-formed table that does not hold the account `2 ^ 256 - 1`, the
pairs the server writes before the terminator strictly ascend by account, and
each account is a non-zero account of the table not below `request.start`. -/
theorem server_stream_ascending (n : node) (request : frontier_req)
    (hwf : well_formed n.store) (hnw : ∀ e ∈ n.store, e.1 + 1 < uint256_modulus)
    (hstart : request.start < uint256_modulus) :
    ∃ pairs : List (Nat × Nat),
      frontier_req_server.serve n request =
        pairs.map (fun p => frontier_buffer p.1 p.2) ++ [finished_buffer] ∧
      pairs.Pairwise (fun a b => a.1 < b.1) ∧
      ∀ p ∈ pairs, request.start ≤ p.1 ∧ p.1 ≠ 0 ∧ ∃ e ∈ n.store, e.1 = p.1 := by
  refine ⟨(frontier_req_server.eligible n request).take request.count,
    server_serve_eq n request hwf hnw hstart, ?_, ?_⟩
  · exact (eligible_pairwise n request hwf.1).sublist (List.take_sublist _ _)
  · intro p hp
    obtain ⟨hge, e, he, hkey⟩ := mem_eligible n request p (List.mem_of_mem_take hp)
    exact ⟨hge, by rw [← hkey]; exact hwf.2 e he, e, he, hkey⟩

/-- Over a well-formed table that does not hold the account `2 ^ 256 - 1`, the
server writes `min (count, number of eligible accounts)` pair buffers and one
terminator. -/
theorem server_stream_length (n : node) (request : frontier_req)
    (hwf : well_formed n.store) (hnw : ∀ e ∈ n.store, e.1 + 1 < uint256_modulus)
    (hstart : request.start < uint256_modulus) :
    (frontier_req_server.serve n request).length =
      min request.count (frontier_req_server.eligible n request).length + 1 := by
  rw [server_serve_eq n request hwf hnw hstart]
  simp

/-- When the table holds no eligible account from `request.start` on, the
cursor is zero right after construction and the terminator is all that is
written. -/
theorem server_nothing_from_start (n : node) (request : frontier_req)
    (hs : n.store.Pairwise (fun a b => a.1 < b.1)) (hstart : request.start < uint256_modulus)
    (hnone : frontier_req_server.eligible n request = []) :
    (frontier_req_server.create n request).current = 0 ∧
      frontier_req_server.serve n request = [finished_buffer] := by
  obtain ⟨hfol, _, _⟩ := server_create_follows n request hs hstart
  rw [hnone] at hfol
  have hzero := follows_nil _ _ _ hfol
  refine ⟨hzero, ?_⟩
  unfold frontier_req_server.serve
  rw [frontier_req_server.send_next, if_neg (by simp [hzero])]

/-- The request and the count of the server are not touched by `next ()`. -/
theorem server_next_frame (n : node) (s : frontier_req_server) :
    (frontier_req_server.next n s).request = s.request ∧
      (frontier_req_server.next n s).count = s.count := by
  unfold frontier_req_server.next
  simp only
  split <;> simp

/-- Whatever the table, `send_next` ends with the terminator after at most
`request.count - count` pair buffers. -/
theorem server_send_next_bounded (n : node) (fuel : Nat) :
    ∀ s : frontier_req_server, s.request.count - s.count < fuel →
      ∃ written : List (List Nat),
        frontier_req_server.send_next n fuel s = written ++ [finished_buffer] ∧
        written.length ≤ s.request.count - s.count := by
  induction fuel with
  | zero => intro s h; omega
  | succ fuel ih =>
    intro s hfuel
    rw [frontier_req_server.send_next]
    by_cases hc : s.current ≠ 0 ∧ s.count < s.request.count
    · rw [if_pos hc]
      obtain ⟨hreq, hcount⟩ := server_next_frame n s
      obtain ⟨written, hrun, hlen⟩ := ih
        { frontier_req_server.next n s with count := (frontier_req_server.next n s).count + 1 }
        (by simp only [hreq, hcount]; omega)
      simp only [hreq, hcount] at hlen
      refine ⟨frontier_buffer s.current s.frontier :: written, ?_, ?_⟩
      · rw [List.cons_append]
        exact congrArg (List.cons (frontier_buffer s.current s.frontier)) hrun
      · rw [List.length_cons]
        omega
    · rw [if_neg hc]
      exact ⟨[], rfl, Nat.zero_le _⟩

/-- Whatever the table and the request, the server writes at most
`request.count` pair buffers and then the terminator. -/
theorem server_stream_bounded (n : node) (request : frontier_req) :
    ∃ written : List (List Nat),
      frontier_req_server.serve n request = written ++ [finished_buffer] ∧
      written.length ≤ request.count := by
  have hframe := server_next_frame n
    { current := (request.start % uint256_modulus + (uint256_modulus - 1)) % uint256_modulus
      frontier := 0
      request := request
      count := 0
      accounts := [] }
  have hreq : (frontier_req_server.create n request).request = request := hframe.1
  have hcount : (frontier_req_server.create n request).count = 0 := hframe.2
  obtain ⟨written, hrun, hlen⟩ := server_send_next_bounded n (request.count + 1)
    (frontier_req_server.create n request) (by rw [hreq, hcount]; omega)
  rw [hreq, hcount] at hlen
  exact ⟨written, hrun, hlen⟩

/-! ## Claims on the frontier request server -/

/-- C1, as stated, fails: a request with `age == MAX` and `count == MAX` whose
`start` is 5, served over the accounts 3 and 7, emits the pair of account 7
and the terminator only; account 3, the smallest of the ledger, is never
emitted. -/
theorem frontier_server_full_scan_needs_zero_start :
    (({ start := 5, age := uint32_max, count := uint32_max } : frontier_req).age = uint32_max ∧
      ({ start := 5, age := uint32_max, count := uint32_max } : frontier_req).count = uint32_max) ∧
    two_account_store.map account_pair = [(3, 30), (7, 70)] ∧
    decode_stream (frontier_req_server.serve two_account_node
      { start := 5, age := uint32_max, count := uint32_max }) = [(7, 70), (0, 0)] := by
  decide

/-- C1, amended: for a request with `start == 0`, `age == MAX` and
`count == MAX`, over a well-formed table without the account `2 ^ 256 - 1` and
with at most `2 ^ 32 - 1` accounts, the server writes exactly one pair buffer
for every account of the table, in table order, and then the all-zero pair; so
the first buffer written is that of the smallest account and the last one is
the terminator. -/
theorem frontier_server_full_scan (n : node) (request : frontier_req)
    (hwf : well_formed n.store) (hnw : ∀ e ∈ n.store, e.1 + 1 < uint256_modulus)
    (hstart : request.start = 0) (hage : request.age = uint32_max)
    (hcount : request.count = uint32_max) (hsize : n.store.length ≤ uint32_max) :
    frontier_req_server.serve n request =
        n.store.map (fun e => frontier_buffer e.1 e.2.head) ++ [finished_buffer] ∧
      (∀ first rest, n.store = first :: rest →
        (frontier_req_server.serve n request).head? =
            some (frontier_buffer first.1 first.2.head) ∧
          ∀ e ∈ n.store, first.1 ≤ e.1) ∧
      (frontier_req_server.serve n request).getLast? = some finished_buffer := by
  have hall : frontier_req_server.eligible n request = n.store.map account_pair := by
    unfold frontier_req_server.eligible
    congr 1
    rw [List.filter_eq_self]
    intro e _
    simp [frontier_req_server.age_ok, hstart, hage]
  have hserve := server_serve_eq n request hwf hnw
    (by rw [hstart]; norm_num [uint256_modulus])
  rw [hall, List.take_of_length_le (by rw [List.length_map, hcount]; exact hsize),
    List.map_map] at hserve
  have hserve' : frontier_req_server.serve n request =
      n.store.map (fun e => frontier_buffer e.1 e.2.head) ++ [finished_buffer] := hserve
  refine ⟨hserve', ?_, ?_⟩
  · intro first rest hstore
    constructor
    · rw [hserve', hstore]
      rfl
    · intro e he
      have hpw := hwf.1
      rw [hstore] at hpw he
      rw [List.pairwise_cons] at hpw
      rcases List.mem_cons.mp he with rfl | hmem
      · exact le_refl _
      · exact (hpw.1 e hmem).le
  · rw [hserve', List.getLast?_append]
    rfl

/-- An instance of `frontier_server_full_scan`: the table of the accounts 3 and
7, requested from zero without limits. -/
theorem frontier_server_full_scan_witness :
    frontier_req_server.serve two_account_node { start := 0, age := uint32_max, count := uint32_max } =
        two_account_node.store.map (fun e => frontier_buffer e.1 e.2.head) ++ [finished_buffer] ∧
      (∀ first rest, two_account_node.store = first :: rest →
        (frontier_req_server.serve two_account_node
            { start := 0, age := uint32_max, count := uint32_max }).head? =
            some (frontier_buffer first.1 first.2.head) ∧
          ∀ e ∈ two_account_node.store, first.1 ≤ e.1) ∧
      (frontier_req_server.serve two_account_node
        { start := 0, age := uint32_max, count := uint32_max }).getLast? = some finished_buffer :=
  frontier_server_full_scan two_account_node { start := 0, age := uint32_max, count := uint32_max }
    (by unfold well_formed; decide) (by decide) rfl rfl rfl (by decide)

/-- The age filter in one refill: when `frontier_req_server::next` refills its
deque by scanning the table entries `pre ++ (account, info) :: post` and the
scan reaches `(account, info)` (fewer than 128 pairs were taken from `pre`),
the pair of that account is among the cursor and deque left by `next` if and
only if `age == MAX` or `(now - modified) <= age`, the difference being that of
the two `uint64_t` values; for a modification time that is not after `now` this
is the ordinary difference. -/
theorem server_refill_age_filter (n : node) (s : frontier_req_server) (pre post : account_store)
    (account : Nat) (info : account_info) (hwf : well_formed n.store)
    (hempty : s.accounts = [])
    (hrange : accounts_begin n.store ((s.current + 1) % uint256_modulus) =
      pre ++ (account, info) :: post)
    (hscan : (frontier_req_server.fill s.request n.seconds_since_epoch pre []).length < 128) :
    ((account, info.head) ∈
        ((frontier_req_server.next n s).current, (frontier_req_server.next n s).frontier) ::
          (frontier_req_server.next n s).accounts ↔
      (s.request.age = uint32_max ∨
        (n.seconds_since_epoch + (uint64_modulus - info.modified % uint64_modulus)) %
          uint64_modulus ≤ s.request.age)) ∧
    (info.modified ≤ n.seconds_since_epoch → n.seconds_since_epoch < uint64_modulus →
      ((account, info.head) ∈
          ((frontier_req_server.next n s).current, (frontier_req_server.next n s).frontier) ::
            (frontier_req_server.next n s).accounts ↔
        (s.request.age = uint32_max ∨ n.seconds_since_epoch - info.modified ≤ s.request.age))) := by
  -- the range keeps the order and the non-zero accounts of the table
  have hsuffix : (pre ++ (account, info) :: post) <:+ n.store := by
    rw [← hrange]
    exact List.dropWhile_suffix _
  have hpw : (pre ++ (account, info) :: post).Pairwise (fun a b => a.1 < b.1) :=
    hwf.1.sublist hsuffix.sublist
  have hnz : account ≠ 0 :=
    hwf.2 (account, info) (hsuffix.subset (by simp))
  -- what `next` leaves in cursor and deque
  have hfill := server_fill_eq s.request n.seconds_since_epoch
    (pre ++ (account, info) :: post) [] (by simp)
  have hpre := server_fill_eq s.request n.seconds_since_epoch pre [] (by simp)
  simp only [List.nil_append, List.length_nil, Nat.sub_zero] at hfill hpre
  rw [hpre, List.length_take, List.length_map] at hscan
  have hshort : (pre.filter
      (fun e => frontier_req_server.age_ok s.request n.seconds_since_epoch e.2)).length < 128 := by
    omega
  have hstate : ((frontier_req_server.next n s).current, (frontier_req_server.next n s).frontier) ::
      (frontier_req_server.next n s).accounts =
      batch (((pre ++ (account, info) :: post).filter
        (fun e => frontier_req_server.age_ok s.request n.seconds_since_epoch e.2)).map
          account_pair) := by
    cases hb : batch (((pre ++ (account, info) :: post).filter
        (fun e => frontier_req_server.age_ok s.request n.seconds_since_epoch e.2)).map
          account_pair) with
    | nil => exact absurd hb (batch_ne_nil _)
    | cons p rest =>
      rw [server_next_of_nil n s _ p rest hempty (by rw [hrange]; exact hfill) hb]
  -- membership in the batch is passing the age test
  have hmem : (account, info.head) ∈
      batch (((pre ++ (account, info) :: post).filter
        (fun e => frontier_req_server.age_ok s.request n.seconds_since_epoch e.2)).map
          account_pair) ↔
      frontier_req_server.age_ok s.request n.seconds_since_epoch info = true := by
    constructor
    · intro hin
      rcases List.mem_append.mp ((batch_initial _).subset hin) with h | h
      · obtain ⟨e, he, hpair⟩ := List.mem_map.mp h
        obtain ⟨herange, heok⟩ := List.mem_filter.mp he
        have hkey : e.1 = account := congrArg Prod.fst hpair
        rw [List.pairwise_append] at hpw
        obtain ⟨_, htail, hcross⟩ := hpw
        rw [List.pairwise_cons] at htail
        rcases List.mem_append.mp herange with hp | hp
        · have := hcross e hp (account, info) (List.mem_cons_self _ _)
          simp only at this
          omega
        · rcases List.mem_cons.mp hp with rfl | hq
          · exact heok
          · have := htail.1 e hq
            simp only at this
            omega
      · simp [hnz] at h
    · intro hok
      apply mem_batch_of_mem_take
      rw [List.filter_append,
        List.filter_cons_of_pos (p := fun e => frontier_req_server.age_ok s.request
          n.seconds_since_epoch e.2) (a := (account, info)) hok, List.map_append, List.map_cons,
        List.take_append_eq_append_take, List.length_map]
      apply List.mem_append_right
      have hpos : 128 - (pre.filter
          (fun e => frontier_req_server.age_ok s.request n.seconds_since_epoch e.2)).length =
          (127 - (pre.filter
            (fun e => frontier_req_server.age_ok s.request n.seconds_since_epoch e.2)).length) + 1 := by
        omega
      rw [hpos, List.take_succ_cons]
      exact List.mem_cons_self _ _
  have hok : frontier_req_server.age_ok s.request n.seconds_since_epoch info = true ↔
      (s.request.age = uint32_max ∨
        (n.seconds_since_epoch + (uint64_modulus - info.modified % uint64_modulus)) %
          uint64_modulus ≤ s.request.age) := by
    simp [frontier_req_server.age_ok]
  rw [hstate]
  refine ⟨hmem.trans hok, ?_⟩
  intro hle hnow
  rw [hmem, hok]
  have hdiff : (n.seconds_since_epoch + (uint64_modulus - info.modified % uint64_modulus)) %
      uint64_modulus = n.seconds_since_epoch - info.modified := by
    unfold uint64_modulus at hnow ⊢
    norm_num at hnow ⊢
    omega
  rw [hdiff]

/-- An instance of `server_refill_age_filter`: a server constructed at time 100
with age 200 over the accounts 3 and 7 scans account 7 after account 3. -/
theorem server_refill_age_filter_example :
    ((7, 70) ∈
        ((frontier_req_server.next two_account_node
            { current := 0, frontier := 0, request := { start := 1, age := 200, count := 5 },
              count := 0, accounts := [] }).current,
          (frontier_req_server.next two_account_node
            { current := 0, frontier := 0, request := { start := 1, age := 200, count := 5 },
              count := 0, accounts := [] }).frontier) ::
          (frontier_req_server.next two_account_node
            { current := 0, frontier := 0, request := { start := 1, age := 200, count := 5 },
              count := 0, accounts := [] }).accounts ↔
      ((200 : Nat) = uint32_max ∨
        (two_account_node.seconds_since_epoch + (uint64_modulus - 0 % uint64_modulus)) %
          uint64_modulus ≤ 200)) ∧
    ((0 : Nat) ≤ two_account_node.seconds_since_epoch →
      two_account_node.seconds_since_epoch < uint64_modulus →
      ((7, 70) ∈
          ((frontier_req_server.next two_account_node
              { current := 0, frontier := 0, request := { start := 1, age := 200, count := 5 },
                count := 0, accounts := [] }).current,
            (frontier_req_server.next two_account_node
              { current := 0, frontier := 0, request := { start := 1, age := 200, count := 5 },
                count := 0, accounts := [] }).frontier) ::
            (frontier_req_server.next two_account_node
              { current := 0, frontier := 0, request := { start := 1, age := 200, count := 5 },
                count := 0, accounts := [] }).accounts ↔
        ((200 : Nat) = uint32_max ∨ two_account_node.seconds_since_epoch - 0 ≤ 200))) :=
  server_refill_age_filter two_account_node
    { current := 0, frontier := 0, request := { start := 1, age := 200, count := 5 },
      count := 0, accounts := [] }
    [(3, { head := 30, modified := 0 })] [] 7 { head := 70, modified := 0 }
    (by unfold well_formed; decide) rfl (by decide) (by decide)

set_option maxRecDepth 100000 in
/-- C3, code bug: over the well-formed table `top_store`, whose 128th account is
`2 ^ 256 - 1`, the refill after the last account starts at
`(2 ^ 256 - 1) + 1 = 0` and the server begins again at the first account: in
the stream of a request for 130 pairs the pair of account `2 ^ 256 - 1` is
followed by those of the smaller accounts `2 ^ 256 - 128` and `2 ^ 256 - 127`,
which were the first two pairs of the stream already. -/
theorem frontier_server_wraps_after_last_account :
    well_formed top_store ∧
    (decode_stream (frontier_req_server.serve top_node
      { start := 0, age := uint32_max, count := 130 })).take 2 =
        [(2 ^ 256 - 128, 1), (2 ^ 256 - 127, 2)] ∧
    (decode_stream (frontier_req_server.serve top_node
      { start := 0, age := uint32_max, count := 130 })).drop 126 =
        [(2 ^ 256 - 2, 127), (2 ^ 256 - 1, 128), (2 ^ 256 - 128, 1), (2 ^ 256 - 127, 2),
          (0, 0)] := by
  unfold well_formed
  decide

set_option maxRecDepth 100000 in
/-- C4, code bug: over the well-formed table `top_store` of 128 accounts, all
eligible, a request for 130 pairs is answered with 130 pair buffers before the
terminator, not with `min (130, 128)`, since the server starts over after the
account `2 ^ 256 - 1`.  With `count` below the number of accounts the stream
has `count` pairs. -/
theorem frontier_server_sends_more_than_eligible :
    (frontier_req_server.eligible top_node { start := 0, age := uint32_max, count := 130 }).length
      = 128 ∧
    (frontier_req_server.serve top_node { start := 0, age := uint32_max, count := 130 }).length
      = 130 + 1 ∧
    (frontier_req_server.serve top_node
      { start := 0, age := uint32_max, count := 130 }).getLast? = some finished_buffer ∧
    (frontier_req_server.serve top_node
      { start := 0, age := uint32_max, count := 130 }).count finished_buffer = 1 := by
  decide

/-- C5: for every account and head below `2 ^ 256`, the buffer `send_next`
writes for a cursor on that pair has exactly 64 bytes, the 32 bytes of the
account followed by the 32 bytes of the head, each byte below 256, and the
decoding of `received_frontier` gives the pair back; the buffer of
`send_finished` is 64 zero bytes and decodes to `(0, 0)`.  The first buffer
`send_next` writes is that of the pair under the cursor when the cursor is not
zero and `count` is below the requested count, and otherwise the only buffer it
writes is that of `send_finished`. -/
theorem frontier_pair_round_trip (account frontier : Nat) (ha : account < uint256_modulus)
    (hf : frontier < uint256_modulus) :
    ((frontier_buffer account frontier).length = size_frontier ∧ size_frontier = 64 ∧
      (frontier_buffer account frontier).take 32 = bytes account ∧
      (frontier_buffer account frontier).drop 32 = bytes frontier ∧
      (bytes account).length = 32 ∧ (bytes frontier).length = 32 ∧
      (∀ b ∈ frontier_buffer account frontier, b < 256) ∧
      read_frontier (frontier_buffer account frontier) = (account, frontier)) ∧
    (finished_buffer = List.replicate 64 0 ∧ read_frontier finished_buffer = (0, 0)) ∧
    (∀ (n : node) (fuel : Nat) (s : frontier_req_server),
      s.current = account → s.frontier = frontier →
      (s.current ≠ 0 ∧ s.count < s.request.count →
        (frontier_req_server.send_next n (fuel + 1) s).head? =
          some (frontier_buffer account frontier)) ∧
      (¬ (s.current ≠ 0 ∧ s.count < s.request.count) →
        frontier_req_server.send_next n (fuel + 1) s = [finished_buffer])) := by
  refine ⟨⟨?_, rfl, take_frontier_buffer _ _, drop_frontier_buffer _ _, length_bytes _,
    length_bytes _, ?_, read_frontier_buffer _ _ ha hf⟩, ⟨?_, read_finished_buffer⟩, ?_⟩
  · rw [frontier_buffer, List.length_append, length_bytes, length_bytes, size_frontier]
  · intro b hb
    rw [frontier_buffer, List.mem_append] at hb
    rcases hb with h | h <;> exact to_bytes_lt _ _ _ h
  · rw [finished_buffer, bytes, to_bytes_zero, ← List.replicate_add]
  · intro n fuel s hcur hfr
    constructor
    · intro hc
      rw [frontier_req_server.send_next, if_pos hc, hcur, hfr]
      rfl
    · intro hc
      rw [frontier_req_server.send_next, if_neg hc]

/-- An instance of `frontier_pair_round_trip`: the pair of account 3 and head 30. -/
theorem frontier_pair_round_trip_witness :
    ((frontier_buffer 3 30).length = size_frontier ∧ size_frontier = 64 ∧
      (frontier_buffer 3 30).take 32 = bytes 3 ∧
      (frontier_buffer 3 30).drop 32 = bytes 30 ∧
      (bytes 3).length = 32 ∧ (bytes 30).length = 32 ∧
      (∀ b ∈ frontier_buffer 3 30, b < 256) ∧
      read_frontier (frontier_buffer 3 30) = (3, 30)) ∧
    (finished_buffer = List.replicate 64 0 ∧ read_frontier finished_buffer = (0, 0)) ∧
    (∀ (n : node) (fuel : Nat) (s : frontier_req_server),
      s.current = 3 → s.frontier = 30 →
      (s.current ≠ 0 ∧ s.count < s.request.count →
        (frontier_req_server.send_next n (fuel + 1) s).head? =
          some (frontier_buffer 3 30)) ∧
      (¬ (s.current ≠ 0 ∧ s.count < s.request.count) →
        frontier_req_server.send_next n (fuel + 1) s = [finished_buffer])) :=
  frontier_pair_round_trip 3 30 (by decide) (by decide)

/-! ## Lemmas on the client cursor -/

theorem client_refill_after (n : node) (hs : n.store.Pairwise (fun a b => a.1 < b.1))
    (pre post : List (Nat × Nat)) (c : Nat × Nat)
    (hE : n.store.map account_pair = pre ++ c :: post) (hnw : c.1 + 1 < uint256_modulus) :
    frontier_req_client.fill (accounts_begin n.store ((c.1 + 1) % uint256_modulus)) [] =
      post.take 128 := by
  have hpw : (n.store.map account_pair).Pairwise (fun a b => a.1 < b.1) :=
    List.Pairwise.map account_pair (fun a b hab => hab) hs
  have hpost : (n.store.map account_pair).filter (fun p => decide (c.1 + 1 ≤ p.1)) = post := by
    rw [hE]
    exact filter_above_of_pairwise pre post c (hE ▸ hpw)
  rw [Nat.mod_eq_of_lt hnw, client_fill_eq _ _ (by simp), accounts_begin_eq_filter _ _ hs, ← hpost]
  simp only [List.nil_append, List.length_nil, Nat.sub_zero, List.filter_map]
  rfl

theorem client_next_of_cons (n : node) (s : frontier_req_client)
    (p : Nat × Nat) (rest : List (Nat × Nat)) (h : s.accounts = p :: rest) :
    frontier_req_client.next n s =
      { s with current := p.1, frontier := p.2, accounts := rest } := by
  simp [frontier_req_client.next, h]

theorem client_next_of_nil (n : node) (s : frontier_req_client)
    (l : List (Nat × Nat)) (p : Nat × Nat) (rest : List (Nat × Nat)) (h : s.accounts = [])
    (hfill : frontier_req_client.fill
      (accounts_begin n.store ((s.current + 1) % uint256_modulus)) [] = l.take 128)
    (hb : batch l = p :: rest) :
    frontier_req_client.next n s =
      { s with current := p.1, frontier := p.2, accounts := rest } := by
  unfold batch at hb
  simp only [frontier_req_client.next, h, List.isEmpty_nil, if_true, hfill, hb]

theorem client_next_eq (n : node) (s : frontier_req_client) :
    frontier_req_client.next n s =
      match frontier_req_client.refilled n s.current s.accounts with
      | account_pair :: rest =>
        { s with current := account_pair.1, frontier := account_pair.2, accounts := rest }
      | [] => s := rfl

/-- The fields of the client that `next ()` does not touch. -/
theorem client_next_frame (n : node) (s : frontier_req_client) :
    (frontier_req_client.next n s).count = s.count ∧
    (frontier_req_client.next n s).bulk_push_cost = s.bulk_push_cost ∧
    (frontier_req_client.next n s).frontiers_age = s.frontiers_age ∧
    (frontier_req_client.next n s).start_time = s.start_time ∧
    (frontier_req_client.next n s).promise = s.promise ∧
    (frontier_req_client.next n s).incremental_id = s.incremental_id ∧
    (frontier_req_client.next n s).pulls = s.pulls ∧
    (frontier_req_client.next n s).bulk_push_targets = s.bulk_push_targets ∧
    (frontier_req_client.next n s).pooled = s.pooled ∧
    (frontier_req_client.next n s).reads = s.reads ∧
    (frontier_req_client.next n s).offered = s.offered := by
  rw [client_next_eq]
  cases frontier_req_client.refilled n s.current s.accounts <;> simp

/-- What `next ()` computes depends on the cursor and the deque only. -/
theorem client_next_congr (n : node) (s t : frontier_req_client) (hc : s.current = t.current)
    (hf : s.frontier = t.frontier) (ha : s.accounts = t.accounts) :
    (frontier_req_client.next n s).current = (frontier_req_client.next n t).current ∧
    (frontier_req_client.next n s).frontier = (frontier_req_client.next n t).frontier ∧
    (frontier_req_client.next n s).accounts = (frontier_req_client.next n t).accounts := by
  rw [client_next_eq, client_next_eq, hc, ha]
  cases frontier_req_client.refilled n t.current t.accounts <;> simp [hc, hf, ha]

theorem client_next_follows (n : node) (hs : n.store.Pairwise (fun a b => a.1 < b.1))
    (s : frontier_req_client) (pre post : List (Nat × Nat))
    (hnw : s.current + 1 < uint256_modulus)
    (hE : n.store.map account_pair = pre ++ (s.current, s.frontier) :: post)
    (hdeque : s.accounts <+: post ++ [(0, 0)]) :
    follows (frontier_req_client.next n s).current (frontier_req_client.next n s).frontier
        (frontier_req_client.next n s).accounts post := by
  cases hacc : s.accounts with
  | nil =>
    have hfill := client_refill_after n hs pre post (s.current, s.frontier) hE hnw
    cases hb : batch post with
    | nil => exact absurd hb (batch_ne_nil post)
    | cons p rest =>
      rw [client_next_of_nil n s post p rest hacc hfill hb]
      have := batch_initial post
      rw [hb] at this
      exact this
  | cons p rest =>
    rw [client_next_of_cons n s p rest hacc]
    rw [hacc] at hdeque
    exact hdeque

/-- The cursor and deque are untouched by `unsynced`, which logs its call. -/
theorem client_unsynced_frame (lim : bootstrap_limits) (s : frontier_req_client)
    (head end_ : Nat) :
    (frontier_req_client.unsynced lim s head end_).current = s.current ∧
    (frontier_req_client.unsynced lim s head end_).frontier = s.frontier ∧
    (frontier_req_client.unsynced lim s head end_).accounts = s.accounts ∧
    (frontier_req_client.unsynced lim s head end_).offered = s.offered ++ [(head, end_)] ∧
    (frontier_req_client.unsynced lim s head end_).pulls = s.pulls ∧
    (frontier_req_client.unsynced lim s head end_).count = s.count ∧
    (frontier_req_client.unsynced lim s head end_).frontiers_age = s.frontiers_age ∧
    (frontier_req_client.unsynced lim s head end_).start_time = s.start_time ∧
    (frontier_req_client.unsynced lim s head end_).promise = s.promise ∧
    (frontier_req_client.unsynced lim s head end_).incremental_id = s.incremental_id ∧
    (frontier_req_client.unsynced lim s head end_).pooled = s.pooled ∧
    (frontier_req_client.unsynced lim s head end_).reads = s.reads := by
  unfold frontier_req_client.unsynced
  simp only
  split
  · split <;> simp
  · simp

/-- In a table with strictly ascending accounts, the part from an entry on is
what is left after dropping the smaller accounts. -/
theorem dropWhile_below_of_pairwise (pre post : List (Nat × Nat)) (c : Nat × Nat)
    (hs : (pre ++ c :: post).Pairwise (fun a b => a.1 < b.1)) :
    (pre ++ c :: post).dropWhile (fun p => decide (p.1 < c.1)) = c :: post := by
  rw [List.pairwise_append] at hs
  have hcross : ∀ a ∈ pre, ∀ b ∈ c :: post, a.1 < b.1 := hs.2.2
  clear hs
  induction pre with
  | nil => simp
  | cons a pre ih =>
    have ha := hcross a (List.mem_cons_self _ _) c (List.mem_cons_self _ _)
    rw [List.cons_append, List.dropWhile_cons_of_pos (by simpa using ha)]
    exact ih (fun x hx y hy => hcross x (List.mem_cons_of_mem _ hx) y hy)

theorem client_remaining_eq (n : node) (hwf : well_formed n.store) (s : frontier_req_client)
    (pre rem : List (Nat × Nat)) (hE : n.store.map account_pair = pre ++ rem)
    (hfol : follows s.current s.frontier s.accounts rem) :
    frontier_req_client.remaining n s = rem := by
  have hpw : (n.store.map account_pair).Pairwise (fun a b => a.1 < b.1) :=
    List.Pairwise.map account_pair (fun a b hab => hab) hwf.1
  cases rem with
  | nil =>
    rw [frontier_req_client.remaining, if_pos (follows_nil _ _ _ hfol)]
  | cons c post =>
    obtain ⟨hc, _⟩ := follows_cons _ _ _ _ _ hfol
    have hmem : c ∈ n.store.map account_pair := by rw [hE]; simp
    obtain ⟨e, he, hpair⟩ := List.mem_map.mp hmem
    have hnz : s.current ≠ 0 := by
      have h1 := hwf.2 e he
      have h2 : e.1 = s.current := by
        have := congrArg Prod.fst hpair
        rw [hc] at this
        exact this
      omega
    rw [frontier_req_client.remaining, if_neg hnz, hE]
    have := dropWhile_below_of_pairwise pre post c (hE ▸ hpw)
    rw [hc] at this ⊢
    exact this

theorem client_in_step_split (n : node) (s : frontier_req_client) :
    ∃ pre, n.store.map account_pair = pre ++ frontier_req_client.remaining n s := by
  unfold frontier_req_client.remaining
  split
  · exact ⟨n.store.map account_pair, by simp⟩
  · exact ⟨(n.store.map account_pair).takeWhile (fun p => decide (p.1 < s.current)),
      (List.takeWhile_append_dropWhile _ _).symm⟩

/-- The method `received_frontier` on a well-formed pair buffer that arrives
without error and passes the slow-stream guard. -/
theorem received_frontier_pair (n : node) (lim : bootstrap_limits) (fuel : Nat)
    (s : frontier_req_client) (A H : Nat) (now_first now : ℚ) (hA : A < uint256_modulus)
    (hH : H < uint256_modulus) (hguard : frontier_req_client.guard_passes lim s now_first now) :
    frontier_req_client.received_frontier n lim fuel s false (frontier_buffer A H) now_first now =
      if A ≠ 0 then
        match frontier_req_client.skip_local n lim A fuel
            (frontier_req_client.counted s now_first) with
        | none => none
        | some s =>
          some (frontier_req_client.receive_frontier
            (if s.current ≠ 0 then
              if A = s.current then
                frontier_req_client.next n
                  (if H = s.frontier then s
                  else if n.block_or_pruned_exists H then
                    frontier_req_client.unsynced lim s s.frontier H
                  else
                    { frontier_req_client.add_frontier s
                        ⟨A, H, s.frontier, s.incremental_id, 0, n.frontier_retry_limit⟩
                      with bulk_push_cost := s.bulk_push_cost + 5 })
              else
                frontier_req_client.add_frontier s
                  ⟨A, H, 0, s.incremental_id, 0, n.frontier_retry_limit⟩
            else
              frontier_req_client.add_frontier s
                ⟨A, H, 0, s.incremental_id, 0, n.frontier_retry_limit⟩))
      else
        match frontier_req_client.drain_local n lim fuel
            (frontier_req_client.counted s now_first) with
        | none => none
        | some s =>
          some { s with promise := s.promise.orElse (fun _ => some false), pooled := true } := by
  unfold frontier_req_client.guard_passes at hguard
  unfold frontier_req_client.received_frontier
  simp only [Bool.not_false, if_true, read_frontier_buffer A H hA hH]
  change (if frontier_req_client.too_slow lim (frontier_req_client.counted s now_first).count
    (now - (frontier_req_client.counted s now_first).start_time) = true then _ else _) = _
  rw [hguard]
  simp only [Bool.false_eq_true, if_false]
  rfl

theorem skip_local_of_not_below (n : node) (lim : bootstrap_limits) (account fuel : Nat)
    (s : frontier_req_client) (h : ¬ (s.current ≠ 0 ∧ s.current < account)) :
    frontier_req_client.skip_local n lim account fuel s = some s := by
  cases fuel with
  | zero => rw [frontier_req_client.skip_local, if_neg h]
  | succ fuel => rw [frontier_req_client.skip_local, if_neg h]

/-- The bookkeeping at the head of `received_frontier` touches `count` and
`start_time` only. -/
theorem client_counted_frame (s : frontier_req_client) (now_first : ℚ) :
    (frontier_req_client.counted s now_first).current = s.current ∧
    (frontier_req_client.counted s now_first).frontier = s.frontier ∧
    (frontier_req_client.counted s now_first).accounts = s.accounts ∧
    (frontier_req_client.counted s now_first).count = s.count + 1 ∧
    (frontier_req_client.counted s now_first).bulk_push_cost = s.bulk_push_cost ∧
    (frontier_req_client.counted s now_first).frontiers_age = s.frontiers_age ∧
    (frontier_req_client.counted s now_first).promise = s.promise ∧
    (frontier_req_client.counted s now_first).incremental_id = s.incremental_id ∧
    (frontier_req_client.counted s now_first).pulls = s.pulls ∧
    (frontier_req_client.counted s now_first).bulk_push_targets = s.bulk_push_targets ∧
    (frontier_req_client.counted s now_first).pooled = s.pooled ∧
    (frontier_req_client.counted s now_first).reads = s.reads ∧
    (frontier_req_client.counted s now_first).offered = s.offered := by
  unfold frontier_req_client.counted
  by_cases h : s.count = 0 <;> simp [h]

/-- The loop over the local accounts below the received one: it ends within as
many rounds as there are such accounts, offers each of them once in table order
and leaves the cursor on the first local account that is not below the received
one. -/
theorem skip_local_spec (n : node) (lim : bootstrap_limits) (hwf : well_formed n.store)
    (A : Nat) (hA : A < uint256_modulus) (fuel : Nat) :
    ∀ (s : frontier_req_client) (pre rem : List (Nat × Nat)),
      n.store.map account_pair = pre ++ rem →
      follows s.current s.frontier s.accounts rem →
      (rem.takeWhile (fun p => decide (p.1 < A))).length ≤ fuel →
      ∃ s', frontier_req_client.skip_local n lim A fuel s = some s' ∧
        s'.offered = s.offered ++
          (rem.takeWhile (fun p => decide (p.1 < A))).map (fun p => (p.2, 0)) ∧
        follows s'.current s'.frontier s'.accounts
          (rem.dropWhile (fun p => decide (p.1 < A))) ∧
        (s'.current = 0 ∨ A ≤ s'.current) ∧
        s'.pulls = s.pulls ∧ s'.count = s.count ∧ s'.reads = s.reads ∧
        s'.promise = s.promise ∧ s'.incremental_id = s.incremental_id ∧
        s'.frontiers_age = s.frontiers_age := by
  induction fuel with
  | zero =>
    intro s pre rem hE hfol hfuel
    have hstay : ¬ (s.current ≠ 0 ∧ s.current < A) := by
      cases rem with
      | nil => intro h; exact h.1 (follows_nil _ _ _ hfol)
      | cons c post =>
        obtain ⟨hc, _⟩ := follows_cons _ _ _ _ _ hfol
        intro h
        have hlt : c.1 < A := by rw [hc]; exact h.2
        rw [List.takeWhile_cons_of_pos (by simpa using hlt)] at hfuel
        simp at hfuel
    refine ⟨s, skip_local_of_not_below n lim A 0 s hstay, ?_, ?_, ?_, rfl, rfl, rfl, rfl, rfl, rfl⟩
    · cases rem with
      | nil => simp
      | cons c post =>
        obtain ⟨hc, _⟩ := follows_cons _ _ _ _ _ hfol
        have hge : ¬ c.1 < A := by
          intro hlt
          rw [List.takeWhile_cons_of_pos (by simpa using hlt)] at hfuel
          simp at hfuel
        rw [List.takeWhile_cons_of_neg (by simpa using hge)]
        simp
    · cases rem with
      | nil => exact hfol
      | cons c post =>
        have hge : ¬ c.1 < A := by
          intro hlt
          rw [List.takeWhile_cons_of_pos (by simpa using hlt)] at hfuel
          simp at hfuel
        rw [List.dropWhile_cons_of_neg (by simpa using hge)]
        exact hfol
    · by_cases hz : s.current = 0
      · exact Or.inl hz
      · right
        by_contra hlt
        exact hstay ⟨hz, by omega⟩
  | succ fuel ih =>
    intro s pre rem hE hfol hfuel
    cases rem with
    | nil =>
      have hstay : ¬ (s.current ≠ 0 ∧ s.current < A) :=
        fun h => h.1 (follows_nil _ _ _ hfol)
      exact ⟨s, skip_local_of_not_below n lim A _ s hstay, by simp, hfol,
        Or.inl (follows_nil _ _ _ hfol), rfl, rfl, rfl, rfl, rfl, rfl⟩
    | cons c post =>
      obtain ⟨hc, hdeque⟩ := follows_cons _ _ _ _ _ hfol
      have hmem : c ∈ n.store.map account_pair := by rw [hE]; simp
      obtain ⟨e, he, hpair⟩ := List.mem_map.mp hmem
      have hcnz : s.current ≠ 0 := by
        have h1 := hwf.2 e he
        have h2 : e.1 = s.current := by
          have := congrArg Prod.fst hpair
          rw [hc] at this
          exact this
        omega
      by_cases hlt : s.current < A
      · have hclt : c.1 < A := by rw [hc]; exact hlt
        rw [List.takeWhile_cons_of_pos (by simpa using hclt), List.length_cons] at hfuel
        obtain ⟨hc1, hf1, hacc1, hoff1, hpulls1, hcount1, hage1, _, hprom1, hid1, _, hreads1⟩ :=
          client_unsynced_frame lim s s.frontier 0
        have hfol2 := client_next_follows n hwf.1
          (frontier_req_client.unsynced lim s s.frontier 0) pre post
          (by rw [hc1]; omega) (by rw [hc1, hf1, hE, hc]) (by rw [hacc1]; exact hdeque)
        obtain ⟨hcount2, _, hage2, _, hprom2, hid2, hpulls2, _, _, hreads2, hoff2⟩ :=
          client_next_frame n (frontier_req_client.unsynced lim s s.frontier 0)
        obtain ⟨s', hrun, hoff', hfol', hend', hpulls', hcount', hreads', hprom', hid', hage'⟩ :=
          ih (frontier_req_client.next n (frontier_req_client.unsynced lim s s.frontier 0))
            (pre ++ [c]) post (by simp [hE]) hfol2 (by omega)
        refine ⟨s', ?_, ?_, ?_, hend', ?_, ?_, ?_, ?_, ?_, ?_⟩
        · rw [frontier_req_client.skip_local, if_pos ⟨hcnz, hlt⟩]
          exact hrun
        · rw [hoff', hoff2, hoff1, List.takeWhile_cons_of_pos (by simpa using hclt),
            List.map_cons, hc, List.append_assoc]
          rfl
        · rw [List.dropWhile_cons_of_pos (by simpa using hclt)]
          exact hfol'
        · rw [hpulls', hpulls2, hpulls1]
        · rw [hcount', hcount2, hcount1]
        · rw [hreads', hreads2, hreads1]
        · rw [hprom', hprom2, hprom1]
        · rw [hid', hid2, hid1]
        · rw [hage', hage2, hage1]
      · have hstay : ¬ (s.current ≠ 0 ∧ s.current < A) := fun h => hlt h.2
        have hcge : ¬ c.1 < A := by rw [hc]; exact hlt
        refine ⟨s, skip_local_of_not_below n lim A _ s hstay, ?_, ?_, Or.inr (by omega),
          rfl, rfl, rfl, rfl, rfl, rfl⟩
        · rw [List.takeWhile_cons_of_neg (by simpa using hcge)]
          simp
        · rw [List.dropWhile_cons_of_neg (by simpa using hcge)]
          exact hfol

/-- In a list with strictly ascending accounts, the leading run of accounts
below a bound is all the accounts below it. -/
theorem takeWhile_below_eq_filter (l : List (Nat × Nat)) (A : Nat)
    (hs : l.Pairwise (fun a b => a.1 < b.1)) :
    l.takeWhile (fun p => decide (p.1 < A)) = l.filter (fun p => decide (p.1 < A)) := by
  induction l with
  | nil => rfl
  | cons c post ih =>
    rw [List.pairwise_cons] at hs
    by_cases hlt : c.1 < A
    · rw [List.takeWhile_cons_of_pos (by simpa using hlt),
        List.filter_cons_of_pos (by simpa using hlt), ih hs.2]
    · rw [List.takeWhile_cons_of_neg (by simpa using hlt),
        List.filter_cons_of_neg (by simpa using hlt)]
      symm
      rw [List.filter_eq_nil_iff]
      intro a ha
      have := hs.1 a ha
      simp only [decide_eq_true_eq]
      omega

theorem client_remaining_pairwise (n : node) (hwf : well_formed n.store)
    (s : frontier_req_client) :
    (frontier_req_client.remaining n s).Pairwise (fun a b => a.1 < b.1) := by
  have hpw : (n.store.map account_pair).Pairwise (fun a b => a.1 < b.1) :=
    List.Pairwise.map account_pair (fun a b hab => hab) hwf.1
  obtain ⟨pre, hpre⟩ := client_in_step_split n s
  rw [hpre, List.pairwise_append] at hpw
  exact hpw.2.1

/-- A client is in step with its well-formed local table right after
construction, on the first local account. -/
theorem client_create_in_step (n : node) (incremental_id : Nat) (hwf : well_formed n.store) :
    frontier_req_client.in_step n (frontier_req_client.create n incremental_id) ∧
      frontier_req_client.remaining n (frontier_req_client.create n incremental_id) =
        n.store.map account_pair := by
  have hall : accounts_begin n.store ((0 + 1) % uint256_modulus) = n.store := by
    have hone : (0 + 1) % uint256_modulus = 1 := by norm_num [uint256_modulus]
    rw [hone, accounts_begin_eq_filter _ _ hwf.1, List.filter_eq_self]
    intro e he
    have := hwf.2 e he
    simp only [decide_eq_true_eq]
    omega
  have hfill : frontier_req_client.fill (accounts_begin n.store ((0 + 1) % uint256_modulus)) [] =
      (n.store.map account_pair).take 128 := by
    rw [hall, client_fill_eq _ _ (by simp)]
    simp
  have hfol : follows (frontier_req_client.create n incremental_id).current
      (frontier_req_client.create n incremental_id).frontier
      (frontier_req_client.create n incremental_id).accounts (n.store.map account_pair) := by
    unfold frontier_req_client.create
    cases hb : batch (n.store.map account_pair) with
    | nil => exact absurd hb (batch_ne_nil _)
    | cons p rest =>
      rw [client_next_of_nil n _ (n.store.map account_pair) p rest rfl hfill hb]
      have := batch_initial (n.store.map account_pair)
      rw [hb] at this
      exact this
  have hrem := client_remaining_eq n hwf (frontier_req_client.create n incremental_id) []
    (n.store.map account_pair) rfl hfol
  refine ⟨?_, hrem⟩
  unfold frontier_req_client.in_step
  rw [hrem]
  exact hfol


/-! ## The cursor after `next ()` -/

/-- What is left of the local table depends on the cursor account only, and
being in step on cursor and deque only. -/
theorem client_in_step_congr (n : node) (s t : frontier_req_client) (hc : s.current = t.current)
    (hf : s.frontier = t.frontier) (ha : s.accounts = t.accounts) :
    frontier_req_client.remaining n s = frontier_req_client.remaining n t ∧
      (frontier_req_client.in_step n s ↔ frontier_req_client.in_step n t) := by
  have hrem : frontier_req_client.remaining n s = frontier_req_client.remaining n t := by
    unfold frontier_req_client.remaining
    rw [hc]
  refine ⟨hrem, ?_⟩
  unfold frontier_req_client.in_step
  rw [hrem, hc, hf, ha]

/-- From a cursor on a local account other than `2 ^ 256 - 1`, at a client in
step with its well-formed local table, `next ()` moves the cursor to the next
local account: the client stays in step, the local accounts not yet passed are
those after the old cursor account, the cursor pair is the first of them (or
`(0, 0)` when there is none), and the cursor is zero or on a greater
account. -/
theorem client_next_advances (n : node) (hwf : well_formed n.store) (s : frontier_req_client)
    (hstep : frontier_req_client.in_step n s) (hnz : s.current ≠ 0)
    (hnw : s.current + 1 < uint256_modulus) :
    frontier_req_client.in_step n (frontier_req_client.next n s) ∧
      frontier_req_client.remaining n s =
        (s.current, s.frontier) :: frontier_req_client.remaining n (frontier_req_client.next n s) ∧
      (frontier_req_client.remaining n (frontier_req_client.next n s) ++ [(0, 0)]).head? =
        some ((frontier_req_client.next n s).current, (frontier_req_client.next n s).frontier) ∧
      ((frontier_req_client.next n s).current = 0 ∨
        s.current < (frontier_req_client.next n s).current) := by
  obtain ⟨pre, hpre⟩ := client_in_step_split n s
  have hpw : (n.store.map account_pair).Pairwise (fun a b => a.1 < b.1) :=
    List.Pairwise.map account_pair (fun a b hab => hab) hwf.1
  cases hrem : frontier_req_client.remaining n s with
  | nil =>
    unfold frontier_req_client.in_step at hstep
    rw [hrem] at hstep
    exact absurd (follows_nil _ _ _ hstep) hnz
  | cons c post =>
    unfold frontier_req_client.in_step at hstep
    rw [hrem] at hstep hpre
    obtain ⟨hc, hdeque⟩ := follows_cons _ _ _ _ _ hstep
    rw [hc] at hpre
    have hfol := client_next_follows n hwf.1 s pre post hnw hpre hdeque
    have hsplit : n.store.map account_pair = (pre ++ [(s.current, s.frontier)]) ++ post := by
      rw [hpre, List.append_assoc]
      rfl
    have hrem' := client_remaining_eq n hwf (frontier_req_client.next n s) _ post hsplit hfol
    have hhead : (post ++ [(0, 0)]).head? =
        some ((frontier_req_client.next n s).current, (frontier_req_client.next n s).frontier) := by
      unfold follows at hfol
      obtain ⟨t, ht⟩ := hfol
      rw [← ht]
      rfl
    refine ⟨?_, ?_, ?_, ?_⟩
    · unfold frontier_req_client.in_step
      rw [hrem']
      exact hfol
    · rw [hrem', hc]
    · rw [hrem']
      exact hhead
    · cases post with
      | nil => exact Or.inl (follows_nil _ _ _ hfol)
      | cons d rest =>
        right
        obtain ⟨hd, _⟩ := follows_cons _ _ _ _ _ hfol
        rw [hpre, List.pairwise_append] at hpw
        have htail := hpw.2.1
        rw [List.pairwise_cons] at htail
        have := htail.1 d (List.mem_cons_self _ _)
        rw [hd] at this
        exact this

/-- The same for a state whose cursor and deque are those `next ()` leaves. -/
theorem client_advanced_of_next (n : node) (hwf : well_formed n.store)
    (s s' : frontier_req_client) (hstep : frontier_req_client.in_step n s) (hnz : s.current ≠ 0)
    (hnw : s.current + 1 < uint256_modulus)
    (hnext : s'.current = (frontier_req_client.next n s).current ∧
      s'.frontier = (frontier_req_client.next n s).frontier ∧
      s'.accounts = (frontier_req_client.next n s).accounts) :
    frontier_req_client.in_step n s' ∧
      frontier_req_client.remaining n s =
        (s.current, s.frontier) :: frontier_req_client.remaining n s' ∧
      (frontier_req_client.remaining n s' ++ [(0, 0)]).head? = some (s'.current, s'.frontier) ∧
      (s'.current = 0 ∨ s.current < s'.current) := by
  obtain ⟨h1, h2, h3, h4⟩ := client_next_advances n hwf s hstep hnz hnw
  obtain ⟨hrem, hiff⟩ := client_in_step_congr n s' (frontier_req_client.next n s)
    hnext.1 hnext.2.1 hnext.2.2
  refine ⟨hiff.mpr h1, ?_, ?_, ?_⟩
  · rw [hrem]
    exact h2
  · rw [hrem, hnext.1, hnext.2.1]
    exact h3
  · rw [hnext.1]
    exact h4
/-! ## Claims on the frontier request client -/

/-- C7: when a pair `(A, H)` with `A != 0` arrives without error, passes the
slow-stream guard and the local cursor account is greater than `A`, the client
hands exactly one pull descriptor to the attempt, with account `A`, head `H`
and a zero end; it offers and records no push target, leaves `bulk_push_cost`
and the cursor (account, frontier and deque) as they were, and schedules the
next read. -/
theorem frontier_client_peer_only_account (n : node) (lim : bootstrap_limits) (fuel : Nat)
    (s : frontier_req_client) (A H : Nat) (now_first now : ℚ)
    (hA : A < uint256_modulus) (hH : H < uint256_modulus)
    (hguard : frontier_req_client.guard_passes lim s now_first now)
    (hnz : A ≠ 0) (hgt : A < s.current) :
    ∃ s', frontier_req_client.received_frontier n lim fuel s false (frontier_buffer A H)
        now_first now = some s' ∧
      s'.pulls = s.pulls ++
        [{ account_or_head := A, head := H, end_ := 0, bootstrap_id := s.incremental_id,
           count := 0, retry_limit := n.frontier_retry_limit }] ∧
      s'.bulk_push_targets = s.bulk_push_targets ∧
      s'.offered = s.offered ∧
      s'.bulk_push_cost = s.bulk_push_cost ∧
      s'.current = s.current ∧ s'.frontier = s.frontier ∧ s'.accounts = s.accounts ∧
      s'.reads = s.reads + 1 ∧ s'.promise = s.promise := by
  obtain ⟨hc, hf, hacc, _, hcost, _, hprom, hid, hpulls, htargets, _, hreads, hoff⟩ :=
    client_counted_frame s now_first
  have hstay : ¬ ((frontier_req_client.counted s now_first).current ≠ 0 ∧
      (frontier_req_client.counted s now_first).current < A) := by
    rw [hc]; omega
  have hcur : (frontier_req_client.counted s now_first).current ≠ 0 := by rw [hc]; omega
  have hne : A ≠ (frontier_req_client.counted s now_first).current := by rw [hc]; omega
  rw [received_frontier_pair n lim fuel s A H now_first now hA hH hguard, if_pos hnz,
    skip_local_of_not_below n lim A fuel _ hstay]
  simp only [if_pos hcur, if_neg hne]
  refine ⟨_, rfl, ?_⟩
  simp [frontier_req_client.receive_frontier, frontier_req_client.add_frontier, hc, hf, hacc,
    hcost, hprom, hid, hpulls, htargets, hreads, hoff]

/-- An instance of `frontier_client_peer_only_account`: a fresh client over the
accounts 3 and 7 receives the pair of account 2. -/
theorem frontier_client_peer_only_account_witness :
    ∃ s', frontier_req_client.received_frontier two_account_node example_limits 0
        (fresh_client uint32_max) false (frontier_buffer 2 20) 0 0 = some s' ∧
      s'.pulls = (fresh_client uint32_max).pulls ++
        [{ account_or_head := 2, head := 20, end_ := 0,
           bootstrap_id := (fresh_client uint32_max).incremental_id,
           count := 0, retry_limit := two_account_node.frontier_retry_limit }] ∧
      s'.bulk_push_targets = (fresh_client uint32_max).bulk_push_targets ∧
      s'.offered = (fresh_client uint32_max).offered ∧
      s'.bulk_push_cost = (fresh_client uint32_max).bulk_push_cost ∧
      s'.current = (fresh_client uint32_max).current ∧
      s'.frontier = (fresh_client uint32_max).frontier ∧
      s'.accounts = (fresh_client uint32_max).accounts ∧
      s'.reads = (fresh_client uint32_max).reads + 1 ∧
      s'.promise = (fresh_client uint32_max).promise :=
  frontier_client_peer_only_account two_account_node example_limits 0 (fresh_client uint32_max)
    2 20 0 0 (by decide) (by decide)
    (by norm_num [frontier_req_client.guard_passes, frontier_req_client.too_slow,
      frontier_req_client.counted, fresh_client, example_limits])
    (by decide) (by decide)

/-- C6, as stated, fails for the zero account: the client of
`two_account_node` with its cursor at zero (local table exhausted) receives the
pair `(0, 5)`; the account equals the cursor account, the hash 5 differs from
the local frontier 0 and is not known locally, yet the pair is taken as the
terminator: no pull descriptor is emitted, `bulk_push_cost` stays 0 and the
promise is resolved. -/
theorem frontier_client_zero_account_emits_no_pull :
    (0 = exhausted_client.current ∧ 5 ≠ exhausted_client.frontier ∧
      two_account_node.block_or_pruned_exists 5 = false) ∧
    (frontier_req_client.received_frontier two_account_node example_limits 0 exhausted_client
        false (frontier_buffer 0 5) 0 0).map
      (fun s' => (s'.pulls, s'.bulk_push_cost, s'.promise)) = some ([], 0, some false) := by
  rw [received_frontier_pair _ _ _ _ _ _ _ _ (by decide) (by decide)
    (by norm_num [frontier_req_client.guard_passes, frontier_req_client.too_slow,
      frontier_req_client.counted, exhausted_client, example_limits])]
  decide

/-- C6, amended with `A != 0` and away from the account `2 ^ 256 - 1`: when a
pair `(A, H)` with `A != 0` arrives without error and passes the slow-stream
guard at a client in step with its well-formed local table, `A` equals the
local cursor account, `H` differs from the local frontier and `H` is not known
locally, the client hands exactly one pull descriptor to the attempt, with
account `A`, head `H` and end the local frontier, raises `bulk_push_cost` by
exactly 5, offers and records no push target, and advances the cursor by one
`next ()` to the next local account: the client stays in step, the local
accounts not yet passed are those after `A`, the cursor pair is the first of
them (or `(0, 0)` when there is none) and the cursor is zero or above `A`. -/
theorem frontier_client_peer_ahead_or_forked (n : node) (lim : bootstrap_limits) (fuel : Nat)
    (s : frontier_req_client) (A H : Nat) (now_first now : ℚ)
    (hwf : well_formed n.store) (hstep : frontier_req_client.in_step n s)
    (hA : A + 1 < uint256_modulus) (hH : H < uint256_modulus)
    (hguard : frontier_req_client.guard_passes lim s now_first now)
    (hnz : A ≠ 0) (hcur : A = s.current) (hdiff : H ≠ s.frontier)
    (hunknown : n.block_or_pruned_exists H = false) :
    ∃ s', frontier_req_client.received_frontier n lim fuel s false (frontier_buffer A H)
        now_first now = some s' ∧
      s'.pulls = s.pulls ++
        [{ account_or_head := A, head := H, end_ := s.frontier, bootstrap_id := s.incremental_id,
           count := 0, retry_limit := n.frontier_retry_limit }] ∧
      s'.bulk_push_cost = s.bulk_push_cost + 5 ∧
      s'.bulk_push_targets = s.bulk_push_targets ∧
      s'.offered = s.offered ∧
      (s'.current = (frontier_req_client.next n s).current ∧
        s'.frontier = (frontier_req_client.next n s).frontier ∧
        s'.accounts = (frontier_req_client.next n s).accounts) ∧
      s'.reads = s.reads + 1 ∧ s'.promise = s.promise ∧
      (frontier_req_client.in_step n s' ∧
        frontier_req_client.remaining n s = (A, s.frontier) :: frontier_req_client.remaining n s' ∧
        (frontier_req_client.remaining n s' ++ [(0, 0)]).head? = some (s'.current, s'.frontier) ∧
        (s'.current = 0 ∨ A < s'.current)) := by
  obtain ⟨hc, hf, hacc, _, hcost, _, hprom, hid, hpulls, htargets, _, hreads, hoff⟩ :=
    client_counted_frame s now_first
  have hstay : ¬ ((frontier_req_client.counted s now_first).current ≠ 0 ∧
      (frontier_req_client.counted s now_first).current < A) := by
    rw [hc]; omega
  have hcur0 : (frontier_req_client.counted s now_first).current ≠ 0 := by rw [hc]; omega
  have heq : A = (frontier_req_client.counted s now_first).current := by rw [hc]; exact hcur
  have hne : ¬ H = (frontier_req_client.counted s now_first).frontier := by rw [hf]; exact hdiff
  rw [received_frontier_pair n lim fuel s A H now_first now (by omega) hH hguard, if_pos hnz,
    skip_local_of_not_below n lim A fuel _ hstay]
  simp only [if_pos hcur0, if_pos heq, if_neg hne, hunknown, Bool.false_eq_true, if_false]
  refine ⟨_, rfl, ?_⟩
  obtain ⟨_, hcost', _, _, hprom', _, hpulls', htargets', _, hreads', hoff'⟩ :=
    client_next_frame n
      { frontier_req_client.add_frontier (frontier_req_client.counted s now_first)
          ⟨A, H, (frontier_req_client.counted s now_first).frontier,
            (frontier_req_client.counted s now_first).incremental_id, 0, n.frontier_retry_limit⟩
        with bulk_push_cost := (frontier_req_client.counted s now_first).bulk_push_cost + 5 }
  have hnext := client_next_congr n
      { frontier_req_client.add_frontier (frontier_req_client.counted s now_first)
          ⟨A, H, (frontier_req_client.counted s now_first).frontier,
            (frontier_req_client.counted s now_first).incremental_id, 0, n.frontier_retry_limit⟩
        with bulk_push_cost := (frontier_req_client.counted s now_first).bulk_push_cost + 5 }
      s hc hf hacc
  simp only [frontier_req_client.receive_frontier]
  refine ⟨?_, ?_, ?_, ?_, hnext, ?_, ?_, ?_⟩
  · rw [hpulls']; simp [frontier_req_client.add_frontier, hpulls, hf, hid]
  · rw [hcost']; simp [hcost]
  · rw [htargets']; simp [frontier_req_client.add_frontier, htargets]
  · rw [hoff']; simp [frontier_req_client.add_frontier, hoff]
  · rw [hreads']; simp [frontier_req_client.add_frontier, hreads]
  · rw [hprom']; simp [frontier_req_client.add_frontier, hprom]
  · have hadv := client_advanced_of_next n hwf s _ hstep (by rw [← hcur]; exact hnz)
      (by rw [← hcur]; exact hA) hnext
    rw [← hcur] at hadv
    exact hadv

/-- An instance of `frontier_client_peer_ahead_or_forked`: a fresh client over
the accounts 3 and 7 receives account 3 with the unknown head 32. -/
theorem frontier_client_peer_ahead_or_forked_witness :
    ∃ s', frontier_req_client.received_frontier two_account_node example_limits 0
        (fresh_client uint32_max) false (frontier_buffer 3 32) 0 0 = some s' ∧
      s'.pulls = (fresh_client uint32_max).pulls ++
        [{ account_or_head := 3, head := 32, end_ := (fresh_client uint32_max).frontier,
           bootstrap_id := (fresh_client uint32_max).incremental_id,
           count := 0, retry_limit := two_account_node.frontier_retry_limit }] ∧
      s'.bulk_push_cost = (fresh_client uint32_max).bulk_push_cost + 5 ∧
      s'.bulk_push_targets = (fresh_client uint32_max).bulk_push_targets ∧
      s'.offered = (fresh_client uint32_max).offered ∧
      (s'.current = (frontier_req_client.next two_account_node (fresh_client uint32_max)).current ∧
        s'.frontier =
          (frontier_req_client.next two_account_node (fresh_client uint32_max)).frontier ∧
        s'.accounts =
          (frontier_req_client.next two_account_node (fresh_client uint32_max)).accounts) ∧
      s'.reads = (fresh_client uint32_max).reads + 1 ∧
      s'.promise = (fresh_client uint32_max).promise ∧
      (frontier_req_client.in_step two_account_node s' ∧
        frontier_req_client.remaining two_account_node (fresh_client uint32_max) =
          (3, (fresh_client uint32_max).frontier) ::
            frontier_req_client.remaining two_account_node s' ∧
        (frontier_req_client.remaining two_account_node s' ++ [(0, 0)]).head? =
          some (s'.current, s'.frontier) ∧
        (s'.current = 0 ∨ 3 < s'.current)) :=
  frontier_client_peer_ahead_or_forked two_account_node example_limits 0
    (fresh_client uint32_max) 3 32 0 0 (by unfold well_formed; decide)
    (by unfold frontier_req_client.in_step follows; decide) (by decide) (by decide)
    (by norm_num [frontier_req_client.guard_passes, frontier_req_client.too_slow,
      frontier_req_client.counted, fresh_client, example_limits])
    (by decide) (by decide) (by decide) (by decide)

/-- C8, as stated, fails in two ways.  A client that made an age-limited
request (`frontiers_age` 100) receives account 3, its cursor account, with the
locally known head 31 that differs from the local frontier 30: the entry
`(30, 31)` is handed to `unsynced` but no push target is recorded.  And a client
whose cursor is at zero receives `(0, 31)`: the pair is taken as the
terminator, nothing is handed to `unsynced` and the cursor does not move. -/
theorem frontier_client_peer_behind_not_always_recorded :
    ((3 = (fresh_client 100).current ∧ 31 ≠ (fresh_client 100).frontier ∧
        two_account_node.block_or_pruned_exists 31 = true) ∧
      (frontier_req_client.received_frontier two_account_node example_limits 0 (fresh_client 100)
          false (frontier_buffer 3 31) 0 0).map
        (fun s' => (s'.offered, s'.bulk_push_targets, s'.bulk_push_cost)) =
          some ([(30, 31)], [], 0)) ∧
    ((0 = exhausted_client.current ∧ 31 ≠ exhausted_client.frontier ∧
        two_account_node.block_or_pruned_exists 31 = true) ∧
      (frontier_req_client.received_frontier two_account_node example_limits 0 exhausted_client
          false (frontier_buffer 0 31) 0 0).map
        (fun s' => (s'.offered, s'.bulk_push_targets, s'.current)) = some ([], [], 0)) := by
  rw [received_frontier_pair _ _ _ _ _ _ _ _ (by decide) (by decide)
    (by norm_num [frontier_req_client.guard_passes, frontier_req_client.too_slow,
      frontier_req_client.counted, fresh_client, example_limits]),
    received_frontier_pair _ _ _ _ _ _ _ _ (by decide) (by decide)
    (by norm_num [frontier_req_client.guard_passes, frontier_req_client.too_slow,
      frontier_req_client.counted, exhausted_client, example_limits])]
  decide

/-- C8, amended with `A != 0`, the gate of `unsynced` and away from the account
`2 ^ 256 - 1`: when a pair `(A, H)` with `A != 0` arrives without error and
passes the slow-stream guard at a client in step with its well-formed local
table, `A` equals the local cursor account, `H` differs from the local frontier
and `H` is known locally, the client hands the entry (head = local frontier,
end = `H`) to `unsynced`; the entry is recorded as a push target, at a cost of
1 (2 when `H` is zero), exactly when `bulk_push_cost` is below the limit and
`frontiers_age` is the maximum, and otherwise targets and cost stay as they
were; no pull descriptor is emitted and the cursor advances by one `next ()`
to the next local account: the client stays in step, the local accounts not
yet passed are those after `A`, the cursor pair is the first of them (or
`(0, 0)` when there is none) and the cursor is zero or above `A`. -/
theorem frontier_client_peer_behind (n : node) (lim : bootstrap_limits) (fuel : Nat)
    (s : frontier_req_client) (A H : Nat) (now_first now : ℚ)
    (hwf : well_formed n.store) (hstep : frontier_req_client.in_step n s)
    (hA : A + 1 < uint256_modulus) (hH : H < uint256_modulus)
    (hguard : frontier_req_client.guard_passes lim s now_first now)
    (hnz : A ≠ 0) (hcur : A = s.current) (hdiff : H ≠ s.frontier)
    (hknown : n.block_or_pruned_exists H = true) :
    ∃ s', frontier_req_client.received_frontier n lim fuel s false (frontier_buffer A H)
        now_first now = some s' ∧
      s'.offered = s.offered ++ [(s.frontier, H)] ∧
      s'.bulk_push_targets =
        (if s.bulk_push_cost < lim.bulk_push_cost_limit ∧ s.frontiers_age = uint32_max then
          s.bulk_push_targets ++ [(s.frontier, H)]
        else s.bulk_push_targets) ∧
      s'.bulk_push_cost =
        (if s.bulk_push_cost < lim.bulk_push_cost_limit ∧ s.frontiers_age = uint32_max then
          s.bulk_push_cost + (if H = 0 then 2 else 1)
        else s.bulk_push_cost) ∧
      s'.pulls = s.pulls ∧
      (s'.current = (frontier_req_client.next n s).current ∧
        s'.frontier = (frontier_req_client.next n s).frontier ∧
        s'.accounts = (frontier_req_client.next n s).accounts) ∧
      s'.reads = s.reads + 1 ∧ s'.promise = s.promise ∧
      (frontier_req_client.in_step n s' ∧
        frontier_req_client.remaining n s = (A, s.frontier) :: frontier_req_client.remaining n s' ∧
        (frontier_req_client.remaining n s' ++ [(0, 0)]).head? = some (s'.current, s'.frontier) ∧
        (s'.current = 0 ∨ A < s'.current)) := by
  obtain ⟨hc, hf, hacc, _, hcost, hage, hprom, hid, hpulls, htargets, _, hreads, hoff⟩ :=
    client_counted_frame s now_first
  have hstay : ¬ ((frontier_req_client.counted s now_first).current ≠ 0 ∧
      (frontier_req_client.counted s now_first).current < A) := by
    rw [hc]; omega
  have hcur0 : (frontier_req_client.counted s now_first).current ≠ 0 := by rw [hc]; omega
  have heq : A = (frontier_req_client.counted s now_first).current := by rw [hc]; exact hcur
  have hne : ¬ H = (frontier_req_client.counted s now_first).frontier := by rw [hf]; exact hdiff
  rw [received_frontier_pair n lim fuel s A H now_first now (by omega) hH hguard, if_pos hnz,
    skip_local_of_not_below n lim A fuel _ hstay]
  simp only [if_pos hcur0, if_pos heq, if_neg hne, hknown, if_true]
  refine ⟨_, rfl, ?_⟩
  obtain ⟨hc1, hf1, hacc1, hoff1, hpulls1, _, _, _, hprom1, _, _, hreads1⟩ :=
    client_unsynced_frame lim (frontier_req_client.counted s now_first)
      (frontier_req_client.counted s now_first).frontier H
  obtain ⟨_, hcost', _, _, hprom', _, hpulls', htargets', _, hreads', hoff'⟩ :=
    client_next_frame n (frontier_req_client.unsynced lim (frontier_req_client.counted s now_first)
      (frontier_req_client.counted s now_first).frontier H)
  have hnext := client_next_congr n
    (frontier_req_client.unsynced lim (frontier_req_client.counted s now_first)
      (frontier_req_client.counted s now_first).frontier H) s
    (hc1.trans hc) (hf1.trans hf) (hacc1.trans hacc)
  simp only [frontier_req_client.receive_frontier]
  refine ⟨?_, ?_, ?_, ?_, hnext, ?_, ?_, ?_⟩
  · rw [hoff', hoff1, hoff, hf]
  · rw [htargets']
    unfold frontier_req_client.unsynced
    simp only [hcost, hage, htargets, hf]
    by_cases hgate : s.bulk_push_cost < lim.bulk_push_cost_limit ∧ s.frontiers_age = uint32_max
    · rw [if_pos hgate, if_pos hgate]
      by_cases hz : H = 0 <;> simp [hz]
    · rw [if_neg hgate, if_neg hgate]
  · rw [hcost']
    unfold frontier_req_client.unsynced
    simp only [hcost, hage, htargets, hf]
    by_cases hgate : s.bulk_push_cost < lim.bulk_push_cost_limit ∧ s.frontiers_age = uint32_max
    · rw [if_pos hgate, if_pos hgate]
      by_cases hz : H = 0 <;> simp [hz]
    · rw [if_neg hgate, if_neg hgate]
  · rw [hpulls', hpulls1, hpulls]
  · show (frontier_req_client.next n _).reads + 1 = s.reads + 1
    rw [hreads', hreads1, hreads]
  · rw [hprom', hprom1, hprom]
  · have hadv := client_advanced_of_next n hwf s _ hstep (by rw [← hcur]; exact hnz)
      (by rw [← hcur]; exact hA) hnext
    rw [← hcur] at hadv
    exact hadv

/-- An instance of `frontier_client_peer_behind`: a fresh client over the
accounts 3 and 7 receives account 3 with the locally known head 31. -/
theorem frontier_client_peer_behind_witness :
    ∃ s', frontier_req_client.received_frontier two_account_node example_limits 0
        (fresh_client uint32_max) false (frontier_buffer 3 31) 0 0 = some s' ∧
      s'.offered = (fresh_client uint32_max).offered ++ [((fresh_client uint32_max).frontier, 31)] ∧
      s'.bulk_push_targets =
        (if (fresh_client uint32_max).bulk_push_cost < example_limits.bulk_push_cost_limit ∧
            (fresh_client uint32_max).frontiers_age = uint32_max then
          (fresh_client uint32_max).bulk_push_targets ++ [((fresh_client uint32_max).frontier, 31)]
        else (fresh_client uint32_max).bulk_push_targets) ∧
      s'.bulk_push_cost =
        (if (fresh_client uint32_max).bulk_push_cost < example_limits.bulk_push_cost_limit ∧
            (fresh_client uint32_max).frontiers_age = uint32_max then
          (fresh_client uint32_max).bulk_push_cost + (if 31 = 0 then 2 else 1)
        else (fresh_client uint32_max).bulk_push_cost) ∧
      s'.pulls = (fresh_client uint32_max).pulls ∧
      (s'.current = (frontier_req_client.next two_account_node (fresh_client uint32_max)).current ∧
        s'.frontier =
          (frontier_req_client.next two_account_node (fresh_client uint32_max)).frontier ∧
        s'.accounts =
          (frontier_req_client.next two_account_node (fresh_client uint32_max)).accounts) ∧
      s'.reads = (fresh_client uint32_max).reads + 1 ∧
      s'.promise = (fresh_client uint32_max).promise ∧
      (frontier_req_client.in_step two_account_node s' ∧
        frontier_req_client.remaining two_account_node (fresh_client uint32_max) =
          (3, (fresh_client uint32_max).frontier) ::
            frontier_req_client.remaining two_account_node s' ∧
        (frontier_req_client.remaining two_account_node s' ++ [(0, 0)]).head? =
          some (s'.current, s'.frontier) ∧
        (s'.current = 0 ∨ 3 < s'.current)) :=
  frontier_client_peer_behind two_account_node example_limits 0
    (fresh_client uint32_max) 3 31 0 0 (by unfold well_formed; decide)
    (by unfold frontier_req_client.in_step follows; decide) (by decide) (by decide)
    (by norm_num [frontier_req_client.guard_passes, frontier_req_client.too_slow,
      frontier_req_client.counted, fresh_client, example_limits])
    (by decide) (by decide) (by decide) (by decide)

set_option maxRecDepth 100000 in
/-- C9, code bug: the client over the well-formed table `top_store` of 128
accounts has its cursor on the last local account, `2 ^ 256 - 1`, with an
empty deque (it is in step with the table, this account being all that is
left, and cursor and deque are those that 127 calls of `next ()` lead to from
`top_client`), and receives the pair of that account with the local head 128.
The pair is in sync, and `next ()` refills from `(2 ^ 256 - 1) + 1 = 0`: the
cursor lands on the first local account `2 ^ 256 - 128` with head 1, not past
the last one.  No pull or push target is recorded. -/
theorem frontier_client_in_sync_wraps_after_last_account :
    well_formed top_store ∧
    frontier_req_client.in_step top_node top_client_last ∧
    frontier_req_client.remaining top_node top_client_last = [(2 ^ 256 - 1, 128)] ∧
    (top_client_last.current = 2 ^ 256 - 1 ∧ top_client_last.frontier = 128) ∧
    (((frontier_req_client.next top_node)^[127] top_client).current,
      ((frontier_req_client.next top_node)^[127] top_client).frontier,
      ((frontier_req_client.next top_node)^[127] top_client).accounts) =
        (top_client_last.current, top_client_last.frontier, top_client_last.accounts) ∧
    (frontier_req_client.received_frontier top_node example_limits 0 top_client_last
        false (frontier_buffer (2 ^ 256 - 1) 128) 0 0).map
      (fun s' => (s'.current, s'.frontier, s'.accounts.length)) =
        some (2 ^ 256 - 128, 1, 127) ∧
    (frontier_req_client.received_frontier top_node example_limits 0 top_client_last
        false (frontier_buffer (2 ^ 256 - 1) 128) 0 0).map
      (fun s' => (s'.pulls, s'.bulk_push_targets, s'.bulk_push_cost)) = some ([], [], 0) := by
  rw [received_frontier_pair _ _ _ _ _ _ _ _ (by decide) (by decide)
    (by norm_num [frontier_req_client.guard_passes, frontier_req_client.too_slow,
      frontier_req_client.counted, top_client_last, example_limits])]
  refine ⟨by unfold well_formed; decide,
    by unfold frontier_req_client.in_step follows; decide, by decide, by decide, by decide,
    by decide, by decide⟩

/-- Away from the account `2 ^ 256 - 1`, an in-sync pair moves the cursor on and
does nothing else: when a pair `(A, H)` with `A != 0` arrives without error and
passes the slow-stream guard at a client in step with its well-formed local
table, `A` equals the local cursor account and `H` equals the local frontier,
the client emits no pull descriptor, offers and records no push target, leaves
`bulk_push_cost` as it was, and advances the cursor to the next local account
(or to zero after the last one). -/
theorem client_in_sync_advances (n : node) (lim : bootstrap_limits) (fuel : Nat)
    (s : frontier_req_client) (A H : Nat) (now_first now : ℚ)
    (hwf : well_formed n.store) (hstep : frontier_req_client.in_step n s)
    (hA : A + 1 < uint256_modulus) (hH : H < uint256_modulus)
    (hguard : frontier_req_client.guard_passes lim s now_first now)
    (hnz : A ≠ 0) (hcur : A = s.current) (hsame : H = s.frontier) :
    ∃ s', frontier_req_client.received_frontier n lim fuel s false (frontier_buffer A H)
        now_first now = some s' ∧
      s'.pulls = s.pulls ∧
      s'.bulk_push_targets = s.bulk_push_targets ∧
      s'.offered = s.offered ∧
      s'.bulk_push_cost = s.bulk_push_cost ∧
      (s'.current = (frontier_req_client.next n s).current ∧
        s'.frontier = (frontier_req_client.next n s).frontier ∧
        s'.accounts = (frontier_req_client.next n s).accounts) ∧
      s'.reads = s.reads + 1 ∧ s'.promise = s.promise ∧
      (frontier_req_client.in_step n s' ∧
        frontier_req_client.remaining n s = (A, s.frontier) :: frontier_req_client.remaining n s' ∧
        (frontier_req_client.remaining n s' ++ [(0, 0)]).head? = some (s'.current, s'.frontier) ∧
        (s'.current = 0 ∨ A < s'.current)) := by
  obtain ⟨hc, hf, hacc, _, hcost, _, hprom, _, hpulls, htargets, _, hreads, hoff⟩ :=
    client_counted_frame s now_first
  have hstay : ¬ ((frontier_req_client.counted s now_first).current ≠ 0 ∧
      (frontier_req_client.counted s now_first).current < A) := by
    rw [hc]; omega
  have hcur0 : (frontier_req_client.counted s now_first).current ≠ 0 := by rw [hc]; omega
  have heq : A = (frontier_req_client.counted s now_first).current := by rw [hc]; exact hcur
  have hfr : H = (frontier_req_client.counted s now_first).frontier := by rw [hf]; exact hsame
  rw [received_frontier_pair n lim fuel s A H now_first now (by omega) hH hguard, if_pos hnz,
    skip_local_of_not_below n lim A fuel _ hstay]
  simp only [if_pos hcur0, if_pos heq, if_pos hfr]
  refine ⟨_, rfl, ?_⟩
  obtain ⟨_, hcost', _, _, hprom', _, hpulls', htargets', _, hreads', hoff'⟩ :=
    client_next_frame n (frontier_req_client.counted s now_first)
  have hnext := client_next_congr n (frontier_req_client.counted s now_first) s hc hf hacc
  simp only [frontier_req_client.receive_frontier]
  refine ⟨?_, ?_, ?_, ?_, hnext, ?_, ?_, ?_⟩
  · rw [hpulls', hpulls]
  · rw [htargets', htargets]
  · rw [hoff', hoff]
  · rw [hcost', hcost]
  · show (frontier_req_client.next n _).reads + 1 = s.reads + 1
    rw [hreads', hreads]
  · rw [hprom', hprom]
  · have hadv := client_advanced_of_next n hwf s _ hstep (by rw [← hcur]; exact hnz)
      (by rw [← hcur]; exact hA) hnext
    rw [← hcur] at hadv
    exact hadv

/-- C10: when a pair `(A, H)` with `A != 0` arrives without error and passes the
slow-stream guard at a client that is in step with its well-formed local table,
the loop at the head of `received_frontier` ends (within as many rounds as
there are local accounts below `A` from the cursor on) and the call returns.
The loop hands to `unsynced` exactly one entry (that account's frontier, end 0)
for every local account from the cursor on that is strictly smaller than `A`,
in ascending account order, and moves the cursor past them: afterwards the
client is in step with the local accounts not below `A`, so its cursor is zero
or not below `A`.  The rest of the call offers at most one more entry, the one
for account `A` itself. -/
theorem frontier_client_skips_local_accounts (n : node) (lim : bootstrap_limits) (fuel : Nat)
    (s : frontier_req_client) (A H : Nat) (now_first now : ℚ)
    (hwf : well_formed n.store) (hstep : frontier_req_client.in_step n s)
    (hA : A < uint256_modulus) (hH : H < uint256_modulus)
    (hguard : frontier_req_client.guard_passes lim s now_first now) (hnz : A ≠ 0)
    (hfuel : ((frontier_req_client.remaining n s).takeWhile
      (fun p => decide (p.1 < A))).length ≤ fuel) :
    ∃ s1 s', frontier_req_client.skip_local n lim A fuel
          (frontier_req_client.counted s now_first) = some s1 ∧
      frontier_req_client.received_frontier n lim fuel s false (frontier_buffer A H)
          now_first now = some s' ∧
      s1.offered = s.offered ++
        ((frontier_req_client.remaining n s).filter (fun p => decide (p.1 < A))).map
          (fun p => (p.2, 0)) ∧
      (frontier_req_client.remaining n s).filter (fun p => decide (p.1 < A)) =
        (frontier_req_client.remaining n s).takeWhile (fun p => decide (p.1 < A)) ∧
      (frontier_req_client.remaining n s).Pairwise (fun a b => a.1 < b.1) ∧
      frontier_req_client.remaining n s1 =
        (frontier_req_client.remaining n s).dropWhile (fun p => decide (p.1 < A)) ∧
      frontier_req_client.in_step n s1 ∧
      (s1.current = 0 ∨ A ≤ s1.current) ∧
      (s'.offered = s1.offered ∨ s'.offered = s1.offered ++ [(s1.frontier, H)]) := by
  obtain ⟨hc, hf, hacc, _, _, _, _, _, _, _, _, _, hoff⟩ := client_counted_frame s now_first
  obtain ⟨pre, hpre⟩ := client_in_step_split n s
  have hfol0 : follows (frontier_req_client.counted s now_first).current
      (frontier_req_client.counted s now_first).frontier
      (frontier_req_client.counted s now_first).accounts (frontier_req_client.remaining n s) := by
    rw [hc, hf, hacc]; exact hstep
  obtain ⟨s1, hrun, hoff1, hfol1, hend1, _⟩ :=
    skip_local_spec n lim hwf A hA fuel (frontier_req_client.counted s now_first) pre
      (frontier_req_client.remaining n s) hpre hfol0 hfuel
  have hpw := client_remaining_pairwise n hwf s
  have hfilter := takeWhile_below_eq_filter (frontier_req_client.remaining n s) A hpw
  have hsplit : n.store.map account_pair =
      (pre ++ (frontier_req_client.remaining n s).takeWhile (fun p => decide (p.1 < A))) ++
        (frontier_req_client.remaining n s).dropWhile (fun p => decide (p.1 < A)) := by
    rw [List.append_assoc, List.takeWhile_append_dropWhile]
    exact hpre
  have hrem1 := client_remaining_eq n hwf s1 _ _ hsplit hfol1
  rw [received_frontier_pair n lim fuel s A H now_first now hA hH hguard, if_pos hnz, hrun]
  refine ⟨s1, _, rfl, rfl, ?_, hfilter.symm, hpw, hrem1, ?_, hend1, ?_⟩
  · rw [hoff1, hoff, hfilter]
  · unfold frontier_req_client.in_step
    rw [hrem1]
    exact hfol1
  · simp only [frontier_req_client.receive_frontier]
    by_cases hcur : s1.current ≠ 0
    · rw [if_pos hcur]
      by_cases heq : A = s1.current
      · rw [if_pos heq]
        by_cases hsame : H = s1.frontier
        · rw [if_pos hsame]
          left
          exact (client_next_frame n s1).2.2.2.2.2.2.2.2.2.2
        · rw [if_neg hsame]
          cases hex : n.block_or_pruned_exists H
          · left
            simp only [Bool.false_eq_true, if_false]
            rw [(client_next_frame n _).2.2.2.2.2.2.2.2.2.2]
            rfl
          · right
            simp only [if_true]
            rw [(client_next_frame n _).2.2.2.2.2.2.2.2.2.2]
            exact (client_unsynced_frame lim s1 s1.frontier H).2.2.2.1
      · rw [if_neg heq]
        left
        rfl
    · rw [if_neg hcur]
      left
      rfl

/-- An instance of `frontier_client_skips_local_accounts`: a fresh client over
the accounts 3 and 7 receives the pair of account 7, so account 3 is local
only. -/
theorem frontier_client_skips_local_accounts_witness :
    ∃ s1 s', frontier_req_client.skip_local two_account_node example_limits 7 1
          (frontier_req_client.counted (fresh_client uint32_max) 0) = some s1 ∧
      frontier_req_client.received_frontier two_account_node example_limits 1
          (fresh_client uint32_max) false (frontier_buffer 7 70) 0 0 = some s' ∧
      s1.offered = (fresh_client uint32_max).offered ++
        ((frontier_req_client.remaining two_account_node (fresh_client uint32_max)).filter
          (fun p => decide (p.1 < 7))).map (fun p => (p.2, 0)) ∧
      (frontier_req_client.remaining two_account_node (fresh_client uint32_max)).filter
          (fun p => decide (p.1 < 7)) =
        (frontier_req_client.remaining two_account_node (fresh_client uint32_max)).takeWhile
          (fun p => decide (p.1 < 7)) ∧
      (frontier_req_client.remaining two_account_node (fresh_client uint32_max)).Pairwise
        (fun a b => a.1 < b.1) ∧
      frontier_req_client.remaining two_account_node s1 =
        (frontier_req_client.remaining two_account_node (fresh_client uint32_max)).dropWhile
          (fun p => decide (p.1 < 7)) ∧
      frontier_req_client.in_step two_account_node s1 ∧
      (s1.current = 0 ∨ 7 ≤ s1.current) ∧
      (s'.offered = s1.offered ∨ s'.offered = s1.offered ++ [(s1.frontier, 70)]) :=
  frontier_client_skips_local_accounts two_account_node example_limits 1
    (fresh_client uint32_max) 7 70 0 0 (by unfold well_formed; decide)
    (by unfold frontier_req_client.in_step follows; decide) (by decide) (by decide)
    (by norm_num [frontier_req_client.guard_passes, frontier_req_client.too_slow,
      frontier_req_client.counted, fresh_client, example_limits])
    (by decide) (by decide)

/-! ## The drain loop of the client on the terminating pair -/

theorem drain_local_of_zero (n : node) (lim : bootstrap_limits) (fuel : Nat)
    (s : frontier_req_client) (h : s.current = 0) :
    frontier_req_client.drain_local n lim fuel s = some s := by
  cases fuel with
  | zero => rw [frontier_req_client.drain_local, if_neg (by simp [h])]
  | succ fuel => rw [frontier_req_client.drain_local, if_neg (by simp [h])]

/-- Over a well-formed table, when none of the remaining local accounts is
`2 ^ 256 - 1`, the drain loop ends within as many rounds as there are remaining
local accounts, offers each of them once in table order and leaves the cursor
at zero with an empty deque. -/
theorem drain_local_spec (n : node) (lim : bootstrap_limits) (hwf : well_formed n.store)
    (fuel : Nat) :
    ∀ (s : frontier_req_client) (pre rem : List (Nat × Nat)),
      n.store.map account_pair = pre ++ rem →
      follows s.current s.frontier s.accounts rem →
      (∀ p ∈ rem, p.1 + 1 < uint256_modulus) →
      rem.length ≤ fuel →
      ∃ s', frontier_req_client.drain_local n lim fuel s = some s' ∧
        s'.offered = s.offered ++ rem.map (fun p => (p.2, 0)) ∧
        (s'.current = 0 ∧ s'.frontier = 0 ∧ s'.accounts = []) ∧
        s'.pulls = s.pulls ∧ s'.count = s.count ∧ s'.reads = s.reads ∧
        s'.promise = s.promise ∧ s'.pooled = s.pooled ∧
        s'.incremental_id = s.incremental_id ∧ s'.frontiers_age = s.frontiers_age ∧
        s'.start_time = s.start_time := by
  induction fuel with
  | zero =>
    intro s pre rem hE hfol _ hfuel
    have hnil : rem = [] := List.eq_nil_of_length_eq_zero (by omega)
    subst hnil
    have hz := follows_nil _ _ _ hfol
    refine ⟨s, drain_local_of_zero n lim 0 s hz, by simp, ⟨hz, ?_, ?_⟩,
      rfl, rfl, rfl, rfl, rfl, rfl, rfl, rfl⟩
    · unfold follows at hfol
      rw [List.nil_append, List.cons_prefix_cons] at hfol
      exact (Prod.mk.inj hfol.1).2
    · unfold follows at hfol
      rw [List.nil_append, List.cons_prefix_cons] at hfol
      exact List.prefix_nil.mp hfol.2
  | succ fuel ih =>
    intro s pre rem hE hfol hnw hfuel
    cases rem with
    | nil =>
      have hz := follows_nil _ _ _ hfol
      refine ⟨s, drain_local_of_zero n lim _ s hz, by simp, ⟨hz, ?_, ?_⟩,
        rfl, rfl, rfl, rfl, rfl, rfl, rfl, rfl⟩
      · unfold follows at hfol
        rw [List.nil_append, List.cons_prefix_cons] at hfol
        exact (Prod.mk.inj hfol.1).2
      · unfold follows at hfol
        rw [List.nil_append, List.cons_prefix_cons] at hfol
        exact List.prefix_nil.mp hfol.2
    | cons c post =>
      obtain ⟨hc, hdeque⟩ := follows_cons _ _ _ _ _ hfol
      have hmem : c ∈ n.store.map account_pair := by rw [hE]; simp
      obtain ⟨e, he, hpair⟩ := List.mem_map.mp hmem
      have hcnz : s.current ≠ 0 := by
        have h1 := hwf.2 e he
        have h2 : e.1 = s.current := by
          have := congrArg Prod.fst hpair
          rw [hc] at this
          exact this
        omega
      have hcnw : s.current + 1 < uint256_modulus := by
        have := hnw c (List.mem_cons_self _ _)
        rw [hc] at this
        exact this
      obtain ⟨hc1, hf1, hacc1, hoff1, hpulls1, hcount1, hage1, hst1, hprom1, hid1, hpool1,
        hreads1⟩ := client_unsynced_frame lim s s.frontier 0
      have hfol2 := client_next_follows n hwf.1
        (frontier_req_client.unsynced lim s s.frontier 0) pre post
        (by rw [hc1]; exact hcnw) (by rw [hc1, hf1, hE, hc]) (by rw [hacc1]; exact hdeque)
      obtain ⟨hcount2, _, hage2, hst2, hprom2, hid2, hpulls2, _, hpool2, hreads2, hoff2⟩ :=
        client_next_frame n (frontier_req_client.unsynced lim s s.frontier 0)
      obtain ⟨s', hrun, hoff', hend', hpulls', hcount', hreads', hprom', hpool', hid', hage',
        hst'⟩ :=
        ih (frontier_req_client.next n (frontier_req_client.unsynced lim s s.frontier 0))
          (pre ++ [c]) post (by simp [hE]) hfol2
          (fun p hp => hnw p (List.mem_cons_of_mem _ hp))
          (by rw [List.length_cons] at hfuel; omega)
      refine ⟨s', ?_, ?_, hend', ?_, ?_, ?_, ?_, ?_, ?_, ?_, ?_⟩
      · rw [frontier_req_client.drain_local, if_pos hcnz]
        exact hrun
      · rw [hoff', hoff2, hoff1, List.map_cons, hc, List.append_assoc]
        rfl
      · rw [hpulls', hpulls2, hpulls1]
      · rw [hcount', hcount2, hcount1]
      · rw [hreads', hreads2, hreads1]
      · rw [hprom', hprom2, hprom1]
      · rw [hpool', hpool2, hpool1]
      · rw [hid', hid2, hid1]
      · rw [hage', hage2, hage1]
      · rw [hst', hst2, hst1]

/-- The terminator at a client in step with a well-formed local table none of
whose remaining accounts is `2 ^ 256 - 1`: every remaining local account is
offered once with a zero end, in table order, the cursor ends at zero, no pull
descriptor is emitted, the promise is resolved with `false`, the connection is
pooled and no read is scheduled. -/
theorem client_terminator_drains (n : node) (lim : bootstrap_limits) (fuel : Nat)
    (s : frontier_req_client) (now_first now : ℚ)
    (hwf : well_formed n.store) (hstep : frontier_req_client.in_step n s)
    (hnw : ∀ p ∈ frontier_req_client.remaining n s, p.1 + 1 < uint256_modulus)
    (hguard : frontier_req_client.guard_passes lim s now_first now)
    (hfuel : (frontier_req_client.remaining n s).length ≤ fuel) :
    ∃ s', frontier_req_client.received_frontier n lim fuel s false (frontier_buffer 0 0)
        now_first now = some s' ∧
      s'.offered = s.offered ++ (frontier_req_client.remaining n s).map (fun p => (p.2, 0)) ∧
      (s'.current = 0 ∧ s'.frontier = 0 ∧ s'.accounts = []) ∧
      s'.pulls = s.pulls ∧ s'.reads = s.reads ∧ s'.pooled = true ∧
      s'.promise = s.promise.orElse (fun _ => some false) := by
  obtain ⟨hc, hf, hacc, _, _, _, hprom, _, hpulls, _, _, hreads, hoff⟩ :=
    client_counted_frame s now_first
  obtain ⟨pre, hpre⟩ := client_in_step_split n s
  have hfol0 : follows (frontier_req_client.counted s now_first).current
      (frontier_req_client.counted s now_first).frontier
      (frontier_req_client.counted s now_first).accounts (frontier_req_client.remaining n s) := by
    rw [hc, hf, hacc]; exact hstep
  obtain ⟨s1, hrun, hoff1, hend1, hpulls1, _, hreads1, hprom1, _⟩ :=
    drain_local_spec n lim hwf fuel (frontier_req_client.counted s now_first) pre
      (frontier_req_client.remaining n s) hpre hfol0 hnw hfuel
  have hzero : (0 : Nat) < uint256_modulus := by norm_num [uint256_modulus]
  rw [received_frontier_pair n lim fuel s 0 0 now_first now hzero hzero hguard,
    if_neg (by simp), hrun]
  refine ⟨_, rfl, ?_, hend1, ?_, ?_, rfl, ?_⟩
  · rw [← hoff]; exact hoff1
  · rw [← hpulls]; exact hpulls1
  · rw [← hreads]; exact hreads1
  · show s1.promise.orElse _ = _
    rw [hprom1, hprom]

set_option maxRecDepth 100000 in
theorem top_pairs_last :
    (top_store.map account_pair).drop 127 = [(uint256_modulus - 1, 128)] := by
  decide

set_option maxRecDepth 100000 in
theorem top_refill_wraps :
    frontier_req_client.fill (accounts_begin top_node.store
      ((uint256_modulus - 1 + 1) % uint256_modulus)) [] =
      (top_store.map account_pair).take 128 := by
  decide

set_option maxRecDepth 100000 in
theorem top_batch :
    batch (top_store.map account_pair) =
      (uint256_modulus - 128, 1) :: (top_store.map account_pair).tail := by
  decide

set_option maxRecDepth 100000 in
theorem top_pairs_first :
    (uint256_modulus - 128, 1) :: (top_store.map account_pair).tail =
      (top_store.map account_pair).drop 0 := by
  decide

/-- The cursor of a client over `top_node` stays on the local table when it is
on one of its 128 accounts: after the last one, `2 ^ 256 - 1`, the refill
starts at `(2 ^ 256 - 1) + 1 = 0` and the cursor is back on the first. -/
theorem top_cursor_cycles (lim : bootstrap_limits) (s : frontier_req_client)
    (h : ∃ i, i < 128 ∧ (s.current, s.frontier) :: s.accounts =
      (top_store.map account_pair).drop i) :
    s.current ≠ 0 ∧
    ∃ i, i < 128 ∧
      ((frontier_req_client.next top_node
          (frontier_req_client.unsynced lim s s.frontier 0)).current,
        (frontier_req_client.next top_node
          (frontier_req_client.unsynced lim s s.frontier 0)).frontier) ::
        (frontier_req_client.next top_node
          (frontier_req_client.unsynced lim s s.frontier 0)).accounts =
      (top_store.map account_pair).drop i := by
  obtain ⟨i, hi, hpos⟩ := h
  have hlen : (top_store.map account_pair).length = 128 := by
    simp [top_store]
  obtain ⟨hc1, hf1, hacc1, _⟩ := client_unsynced_frame lim s s.frontier 0
  constructor
  · have hmem : (s.current, s.frontier) ∈ top_store.map account_pair := by
      apply List.mem_of_mem_drop (n := i)
      rw [← hpos]
      exact List.mem_cons_self _ _
    obtain ⟨e, he, hpair⟩ := List.mem_map.mp hmem
    unfold top_store at he
    obtain ⟨k, _, hk⟩ := List.mem_map.mp he
    have hkey : e.1 = s.current := congrArg Prod.fst hpair
    rw [← hk] at hkey
    simp only [uint256_modulus] at hkey
    omega
  · cases hacc : s.accounts with
    | nil =>
      rw [hacc] at hpos
      have hi127 : i = 127 := by
        have := congrArg List.length hpos
        rw [List.length_drop, hlen] at this
        simp at this
        omega
      subst hi127
      rw [top_pairs_last] at hpos
      have hcur : s.current = uint256_modulus - 1 := by
        have := List.head_eq_of_cons_eq hpos
        exact congrArg Prod.fst this
      have hfill : frontier_req_client.fill (accounts_begin top_node.store
          (((frontier_req_client.unsynced lim s s.frontier 0).current + 1) % uint256_modulus)) [] =
          (top_store.map account_pair).take 128 := by
        rw [hc1, hcur]
        exact top_refill_wraps
      rw [client_next_of_nil top_node _ (top_store.map account_pair) _ _ (hacc1.trans hacc)
        hfill top_batch]
      exact ⟨0, by norm_num, top_pairs_first⟩
    | cons p rest =>
      rw [client_next_of_cons top_node _ p rest (hacc1.trans hacc)]
      rw [hacc] at hpos
      have htail : p :: rest = (top_store.map account_pair).drop (i + 1) := by
        have := congrArg List.tail hpos
        rw [List.tail_cons, List.tail_drop] at this
        exact this
      have hi1 : i + 1 < 128 := by
        have := congrArg List.length htail
        rw [List.length_drop, hlen, List.length_cons] at this
        omega
      exact ⟨i + 1, hi1, htail⟩

/-- The drain loop of a client over `top_node` never ends while the cursor is
on one of the 128 local accounts. -/
theorem top_drain_never_ends (lim : bootstrap_limits) (fuel : Nat) :
    ∀ s : frontier_req_client,
      (∃ i, i < 128 ∧ (s.current, s.frontier) :: s.accounts =
        (top_store.map account_pair).drop i) →
      frontier_req_client.drain_local top_node lim fuel s = none := by
  induction fuel with
  | zero =>
    intro s h
    rw [frontier_req_client.drain_local, if_pos (top_cursor_cycles lim s h).1]
  | succ fuel ih =>
    intro s h
    obtain ⟨hnz, hnext⟩ := top_cursor_cycles lim s h
    rw [frontier_req_client.drain_local, if_pos hnz]
    exact ih _ hnext

/-! ## The cursor after a processed pair -/

/-- After `next ()` from a cursor on a local account other than `2 ^ 256 - 1`,
the cursor is zero or on a greater account. -/
theorem client_next_ascends (n : node) (hwf : well_formed n.store) (s : frontier_req_client)
    (pre post : List (Nat × Nat)) (hnw : s.current + 1 < uint256_modulus)
    (hE : n.store.map account_pair = pre ++ (s.current, s.frontier) :: post)
    (hdeque : s.accounts <+: post ++ [(0, 0)]) :
    (frontier_req_client.next n s).current = 0 ∨
      s.current < (frontier_req_client.next n s).current := by
  have hfol := client_next_follows n hwf.1 s pre post hnw hE hdeque
  have hpw : (n.store.map account_pair).Pairwise (fun a b => a.1 < b.1) :=
    List.Pairwise.map account_pair (fun a b hab => hab) hwf.1
  cases post with
  | nil => exact Or.inl (follows_nil _ _ _ hfol)
  | cons d rest =>
    right
    obtain ⟨hd, _⟩ := follows_cons _ _ _ _ _ hfol
    rw [hE, List.pairwise_append] at hpw
    have htail := hpw.2.1
    rw [List.pairwise_cons] at htail
    have := htail.1 d (List.mem_cons_self _ _)
    rw [hd] at this
    exact this

/-- A non-zero pair received while the cursor is zero or on a greater account
yields exactly one pull descriptor with a zero end; nothing is offered or
recorded for push, and the cursor stays. -/
theorem client_pair_below_cursor (n : node) (lim : bootstrap_limits) (fuel : Nat)
    (s : frontier_req_client) (A H : Nat) (now_first now : ℚ)
    (hA : A < uint256_modulus) (hH : H < uint256_modulus)
    (hguard : frontier_req_client.guard_passes lim s now_first now)
    (hnz : A ≠ 0) (hcur : s.current = 0 ∨ A < s.current) :
    ∃ s', frontier_req_client.received_frontier n lim fuel s false (frontier_buffer A H)
        now_first now = some s' ∧
      s'.pulls = s.pulls ++
        [{ account_or_head := A, head := H, end_ := 0, bootstrap_id := s.incremental_id,
           count := 0, retry_limit := n.frontier_retry_limit }] ∧
      s'.bulk_push_targets = s.bulk_push_targets ∧
      s'.offered = s.offered ∧
      s'.bulk_push_cost = s.bulk_push_cost ∧
      s'.current = s.current ∧ s'.frontier = s.frontier ∧ s'.accounts = s.accounts := by
  obtain ⟨hc, hf, hacc, _, hcost, _, _, hid, hpulls, htargets, _, _, hoff⟩ :=
    client_counted_frame s now_first
  have hstay : ¬ ((frontier_req_client.counted s now_first).current ≠ 0 ∧
      (frontier_req_client.counted s now_first).current < A) := by
    rw [hc]; omega
  rw [received_frontier_pair n lim fuel s A H now_first now hA hH hguard, if_pos hnz,
    skip_local_of_not_below n lim A fuel _ hstay]
  by_cases hz : (frontier_req_client.counted s now_first).current ≠ 0
  · have hne : A ≠ (frontier_req_client.counted s now_first).current := by
      rw [hc] at hz ⊢; omega
    simp only [if_pos hz, if_neg hne]
    refine ⟨_, rfl, ?_⟩
    simp [frontier_req_client.receive_frontier, frontier_req_client.add_frontier, hc, hf, hacc,
      hcost, hid, hpulls, htargets, hoff]
  · simp only [if_neg hz]
    refine ⟨_, rfl, ?_⟩
    simp [frontier_req_client.receive_frontier, frontier_req_client.add_frontier, hc, hf, hacc,
      hcost, hid, hpulls, htargets, hoff]

/-- After a non-zero pair of an account `B` other than `2 ^ 256 - 1` has been
processed by a client in step with its well-formed local table, the cursor is
zero or on an account greater than `B`. -/
theorem client_cursor_after_pair (n : node) (lim : bootstrap_limits) (fuel : Nat)
    (s s1 : frontier_req_client) (B H : Nat) (now_first now : ℚ)
    (hwf : well_formed n.store) (hstep : frontier_req_client.in_step n s)
    (hB : B + 1 < uint256_modulus) (hH : H < uint256_modulus)
    (hguard : frontier_req_client.guard_passes lim s now_first now) (hnz : B ≠ 0)
    (hfuel : ((frontier_req_client.remaining n s).takeWhile
      (fun p => decide (p.1 < B))).length ≤ fuel)
    (hrun : frontier_req_client.received_frontier n lim fuel s false (frontier_buffer B H)
      now_first now = some s1) :
    s1.current = 0 ∨ B < s1.current := by
  obtain ⟨hc, hf, hacc, _⟩ := client_counted_frame s now_first
  obtain ⟨pre, hpre⟩ := client_in_step_split n s
  have hfol0 : follows (frontier_req_client.counted s now_first).current
      (frontier_req_client.counted s now_first).frontier
      (frontier_req_client.counted s now_first).accounts (frontier_req_client.remaining n s) := by
    rw [hc, hf, hacc]; exact hstep
  obtain ⟨t, hskip, _, hfol1, hend1, _⟩ :=
    skip_local_spec n lim hwf B (by omega) fuel (frontier_req_client.counted s now_first) pre
      (frontier_req_client.remaining n s) hpre hfol0 hfuel
  have hsplit : n.store.map account_pair =
      (pre ++ (frontier_req_client.remaining n s).takeWhile (fun p => decide (p.1 < B))) ++
        (frontier_req_client.remaining n s).dropWhile (fun p => decide (p.1 < B)) := by
    rw [List.append_assoc, List.takeWhile_append_dropWhile]
    exact hpre
  rw [received_frontier_pair n lim fuel s B H now_first now (by omega) hH hguard, if_pos hnz,
    hskip] at hrun
  simp only [Option.some.injEq] at hrun
  rw [← hrun]
  simp only [frontier_req_client.receive_frontier]
  by_cases hz : t.current ≠ 0
  · rw [if_pos hz]
    by_cases heq : B = t.current
    · rw [if_pos heq]
      -- the cursor is on `B`: whatever is recorded, `next ()` moves it on
      cases hrem : (frontier_req_client.remaining n s).dropWhile
          (fun p => decide (p.1 < B)) with
      | nil =>
        rw [hrem] at hfol1
        exact absurd (follows_nil _ _ _ hfol1) hz
      | cons c post =>
        rw [hrem] at hfol1 hsplit
        obtain ⟨hceq, hdeque⟩ := follows_cons _ _ _ _ _ hfol1
        rw [hceq] at hsplit
        have hasc := client_next_ascends n hwf t _ post (by rw [← heq]; exact hB) hsplit hdeque
        have hsame : ∀ u : frontier_req_client, u.current = t.current →
            u.frontier = t.frontier → u.accounts = t.accounts →
            (frontier_req_client.next n u).current = 0 ∨
              B < (frontier_req_client.next n u).current := by
          intro u h1 h2 h3
          rw [(client_next_congr n u t h1 h2 h3).1, heq]
          exact hasc
        by_cases hsync : H = t.frontier
        · rw [if_pos hsync]
          exact hsame t rfl rfl rfl
        · rw [if_neg hsync]
          cases hex : n.block_or_pruned_exists H
          · simp only [Bool.false_eq_true, if_false]
            exact hsame _ rfl rfl rfl
          · simp only [if_true]
            obtain ⟨h1, h2, h3, _⟩ := client_unsynced_frame lim t t.frontier H
            exact hsame _ h1 h2 h3
    · rw [if_neg heq]
      right
      show B < t.current
      rcases hend1 with h0 | hge
      · exact absurd h0 hz
      · omega
  · rw [if_neg hz]
    left
    show t.current = 0
    exact not_not.mp hz

/-! ## The push cost -/

/-- The method `received_frontier` on any buffer that arrives without error, in
terms of the state after the bookkeeping at its head. -/
theorem received_frontier_unfold (n : node) (lim : bootstrap_limits) (fuel : Nat)
    (s : frontier_req_client) (receive_buffer : List Nat) (now_first now : ℚ) :
    frontier_req_client.received_frontier n lim fuel s false receive_buffer now_first now =
      if frontier_req_client.too_slow lim (frontier_req_client.counted s now_first).count
          (now - (frontier_req_client.counted s now_first).start_time) then
        some { frontier_req_client.counted s now_first with
          promise := (frontier_req_client.counted s now_first).promise.orElse
            (fun _ => some true) }
      else if (read_frontier receive_buffer).1 ≠ 0 then
        match frontier_req_client.skip_local n lim (read_frontier receive_buffer).1 fuel
            (frontier_req_client.counted s now_first) with
        | none => none
        | some s =>
          some (frontier_req_client.receive_frontier
            (if s.current ≠ 0 then
              if (read_frontier receive_buffer).1 = s.current then
                frontier_req_client.next n
                  (if (read_frontier receive_buffer).2 = s.frontier then s
                  else if n.block_or_pruned_exists (read_frontier receive_buffer).2 then
                    frontier_req_client.unsynced lim s s.frontier (read_frontier receive_buffer).2
                  else
                    { frontier_req_client.add_frontier s
                        ⟨(read_frontier receive_buffer).1, (read_frontier receive_buffer).2,
                          s.frontier, s.incremental_id, 0, n.frontier_retry_limit⟩
                      with bulk_push_cost := s.bulk_push_cost + 5 })
              else
                frontier_req_client.add_frontier s
                  ⟨(read_frontier receive_buffer).1, (read_frontier receive_buffer).2, 0,
                    s.incremental_id, 0, n.frontier_retry_limit⟩
            else
              frontier_req_client.add_frontier s
                ⟨(read_frontier receive_buffer).1, (read_frontier receive_buffer).2, 0,
                  s.incremental_id, 0, n.frontier_retry_limit⟩))
      else
        match frontier_req_client.drain_local n lim fuel
            (frontier_req_client.counted s now_first) with
        | none => none
        | some s =>
          some { s with promise := s.promise.orElse (fun _ => some false), pooled := true } :=
  rfl

/-- With `bulk_push_cost` at or above the limit `unsynced` records nothing. -/
theorem client_unsynced_closed (lim : bootstrap_limits) (s : frontier_req_client)
    (head end_ : Nat) (h : lim.bulk_push_cost_limit ≤ s.bulk_push_cost) :
    (frontier_req_client.unsynced lim s head end_).bulk_push_targets = s.bulk_push_targets ∧
      (frontier_req_client.unsynced lim s head end_).bulk_push_cost = s.bulk_push_cost := by
  unfold frontier_req_client.unsynced
  simp only
  rw [if_neg (by omega)]
  exact ⟨rfl, rfl⟩

theorem skip_local_closed (n : node) (lim : bootstrap_limits) (account fuel : Nat) :
    ∀ s s' : frontier_req_client, lim.bulk_push_cost_limit ≤ s.bulk_push_cost →
      frontier_req_client.skip_local n lim account fuel s = some s' →
      s'.bulk_push_targets = s.bulk_push_targets ∧ s'.bulk_push_cost = s.bulk_push_cost := by
  induction fuel with
  | zero =>
    intro s s' _ hrun
    rw [frontier_req_client.skip_local] at hrun
    split at hrun
    · exact absurd hrun (by simp)
    · simp only [Option.some.injEq] at hrun
      rw [← hrun]
      exact ⟨rfl, rfl⟩
  | succ fuel ih =>
    intro s s' hcost hrun
    rw [frontier_req_client.skip_local] at hrun
    split at hrun
    · obtain ⟨ht, hc⟩ := client_unsynced_closed lim s s.frontier 0 hcost
      obtain ⟨_, hc2, _, _, _, _, _, ht2, _⟩ :=
        client_next_frame n (frontier_req_client.unsynced lim s s.frontier 0)
      obtain ⟨ht', hc'⟩ := ih _ s' (by rw [hc2, hc]; exact hcost) hrun
      exact ⟨by rw [ht', ht2, ht], by rw [hc', hc2, hc]⟩
    · simp only [Option.some.injEq] at hrun
      rw [← hrun]
      exact ⟨rfl, rfl⟩

theorem drain_local_closed (n : node) (lim : bootstrap_limits) (fuel : Nat) :
    ∀ s s' : frontier_req_client, lim.bulk_push_cost_limit ≤ s.bulk_push_cost →
      frontier_req_client.drain_local n lim fuel s = some s' →
      s'.bulk_push_targets = s.bulk_push_targets ∧ s'.bulk_push_cost = s.bulk_push_cost := by
  induction fuel with
  | zero =>
    intro s s' _ hrun
    rw [frontier_req_client.drain_local] at hrun
    split at hrun
    · exact absurd hrun (by simp)
    · simp only [Option.some.injEq] at hrun
      rw [← hrun]
      exact ⟨rfl, rfl⟩
  | succ fuel ih =>
    intro s s' hcost hrun
    rw [frontier_req_client.drain_local] at hrun
    split at hrun
    · obtain ⟨ht, hc⟩ := client_unsynced_closed lim s s.frontier 0 hcost
      obtain ⟨_, hc2, _, _, _, _, _, ht2, _⟩ :=
        client_next_frame n (frontier_req_client.unsynced lim s s.frontier 0)
      obtain ⟨ht', hc'⟩ := ih _ s' (by rw [hc2, hc]; exact hcost) hrun
      exact ⟨by rw [ht', ht2, ht], by rw [hc', hc2, hc]⟩
    · simp only [Option.some.injEq] at hrun
      rw [← hrun]
      exact ⟨rfl, rfl⟩

/-- With `bulk_push_cost` at or above the limit, a call of `received_frontier`
records no push target and does not lower the cost. -/
theorem received_frontier_closed (n : node) (lim : bootstrap_limits) (fuel : Nat)
    (s s' : frontier_req_client) (ec : Bool) (receive_buffer : List Nat) (now_first now : ℚ)
    (hcost : lim.bulk_push_cost_limit ≤ s.bulk_push_cost)
    (hrun : frontier_req_client.received_frontier n lim fuel s ec receive_buffer now_first now =
      some s') :
    s'.bulk_push_targets = s.bulk_push_targets ∧ s.bulk_push_cost ≤ s'.bulk_push_cost := by
  obtain ⟨_, _, _, _, hcost0, _, _, _, _, htargets0, _⟩ := client_counted_frame s now_first
  cases ec with
  | true =>
    have : frontier_req_client.received_frontier n lim fuel s true receive_buffer now_first now =
        some s := rfl
    rw [this] at hrun
    simp only [Option.some.injEq] at hrun
    rw [← hrun]
    exact ⟨rfl, le_refl _⟩
  | false =>
    rw [received_frontier_unfold] at hrun
    split at hrun
    · simp only [Option.some.injEq] at hrun
      rw [← hrun]
      exact ⟨htargets0, hcost0.ge⟩
    · split at hrun
      · cases hskip : frontier_req_client.skip_local n lim (read_frontier receive_buffer).1 fuel
            (frontier_req_client.counted s now_first) with
        | none => rw [hskip] at hrun; exact absurd hrun (by simp)
        | some t =>
          rw [hskip] at hrun
          obtain ⟨ht, hc⟩ := skip_local_closed n lim _ fuel _ t (by rw [hcost0]; exact hcost) hskip
          rw [htargets0] at ht
          rw [hcost0] at hc
          simp only [Option.some.injEq] at hrun
          rw [← hrun]
          simp only [frontier_req_client.receive_frontier]
          by_cases hz : t.current ≠ 0
          · rw [if_pos hz]
            by_cases heq : (read_frontier receive_buffer).1 = t.current
            · rw [if_pos heq]
              by_cases hsync : (read_frontier receive_buffer).2 = t.frontier
              · rw [if_pos hsync]
                obtain ⟨_, hc2, _, _, _, _, _, ht2, _⟩ := client_next_frame n t
                exact ⟨by rw [ht2, ht], by rw [hc2, hc]⟩
              · rw [if_neg hsync]
                cases hex : n.block_or_pruned_exists (read_frontier receive_buffer).2
                · simp only [Bool.false_eq_true, if_false]
                  obtain ⟨_, hc2, _, _, _, _, _, ht2, _⟩ := client_next_frame n
                    { frontier_req_client.add_frontier t
                        ⟨(read_frontier receive_buffer).1, (read_frontier receive_buffer).2,
                          t.frontier, t.incremental_id, 0, n.frontier_retry_limit⟩
                      with bulk_push_cost := t.bulk_push_cost + 5 }
                  refine ⟨?_, ?_⟩
                  · rw [ht2]
                    exact ht
                  · rw [hc2]
                    show s.bulk_push_cost ≤ t.bulk_push_cost + 5
                    omega
                · simp only [if_true]
                  obtain ⟨ht1, hc1⟩ := client_unsynced_closed lim t t.frontier
                    (read_frontier receive_buffer).2 (by rw [hc]; exact hcost)
                  obtain ⟨_, hc2, _, _, _, _, _, ht2, _⟩ := client_next_frame n
                    (frontier_req_client.unsynced lim t t.frontier
                      (read_frontier receive_buffer).2)
                  exact ⟨by rw [ht2, ht1, ht], by rw [hc2, hc1, hc]⟩
            · rw [if_neg heq]
              exact ⟨ht, hc.ge⟩
          · rw [if_neg hz]
            exact ⟨ht, hc.ge⟩
      · cases hdrain : frontier_req_client.drain_local n lim fuel
            (frontier_req_client.counted s now_first) with
        | none => rw [hdrain] at hrun; exact absurd hrun (by simp)
        | some t =>
          rw [hdrain] at hrun
          obtain ⟨ht, hc⟩ := drain_local_closed n lim fuel _ t (by rw [hcost0]; exact hcost) hdrain
          simp only [Option.some.injEq] at hrun
          rw [← hrun]
          exact ⟨by rw [← htargets0]; exact ht, by rw [← hcost0]; exact hc.ge⟩

/-- With `bulk_push_cost` at or above the limit, no sequence of calls of
`received_frontier` records a push target or lowers the cost. -/
theorem receive_all_closed (n : node) (lim : bootstrap_limits) (fuel : Nat)
    (events : List frontier_event) :
    ∀ s s' : frontier_req_client, lim.bulk_push_cost_limit ≤ s.bulk_push_cost →
      frontier_req_client.receive_all n lim fuel events s = some s' →
      s'.bulk_push_targets = s.bulk_push_targets ∧ s.bulk_push_cost ≤ s'.bulk_push_cost := by
  induction events with
  | nil =>
    intro s s' _ hrun
    rw [frontier_req_client.receive_all] at hrun
    simp only [Option.some.injEq] at hrun
    rw [← hrun]
    exact ⟨rfl, le_refl _⟩
  | cons e rest ih =>
    intro s s' hcost hrun
    rw [frontier_req_client.receive_all] at hrun
    cases hstep : frontier_req_client.received_frontier n lim fuel s e.ec e.receive_buffer
        e.now_first e.now with
    | none => rw [hstep] at hrun; exact absurd hrun (by simp)
    | some t =>
      rw [hstep] at hrun
      obtain ⟨ht, hc⟩ := received_frontier_closed n lim fuel s t _ _ _ _ hcost hstep
      obtain ⟨ht', hc'⟩ := ih t s' (by omega) hrun
      exact ⟨by rw [ht', ht], by omega⟩

/-! ## Claims on the terminator, the order of pairs and the push cost -/

set_option maxRecDepth 100000 in
/-- C11, code bug: the client constructed over the well-formed local table
`top_store`, whose 128th account is `2 ^ 256 - 1`, receives the terminator
`(0, 0)`.  The drain loop offers the 128 local accounts and then, with the
deque empty and the cursor on `2 ^ 256 - 1`, `next ()` scans from
`(2 ^ 256 - 1) + 1 = 0` and puts the cursor back on the first account: the
cursor never becomes zero, so for no amount of fuel does the call return. -/
theorem frontier_client_drain_never_ends :
    well_formed top_store ∧
    top_client = frontier_req_client.create top_node 9 ∧
    ∀ fuel, frontier_req_client.received_frontier top_node example_limits fuel top_client
      false (frontier_buffer 0 0) 0 0 = none := by
  refine ⟨by unfold well_formed; decide, by decide, ?_⟩
  intro fuel
  rw [received_frontier_pair _ _ _ _ _ _ _ _ (by decide) (by decide)
    (by norm_num [frontier_req_client.guard_passes, frontier_req_client.too_slow,
      frontier_req_client.counted, top_client, example_limits]),
    if_neg (by simp),
    top_drain_never_ends example_limits fuel _ ⟨0, by norm_num, by
      rw [← top_pairs_first]
      rfl⟩]

/-- C12, as stated, fails: the client keeps no record of the account received
before and has no test of the order.  A fresh client over the accounts 3 and 7
receives the pair of account 3 in sync and then the pair `(2, 20)`, whose
account is not greater than 3: the pair is not rejected, a pull descriptor for
account 2 with head 20 and a zero end is emitted. -/
theorem frontier_client_out_of_order_pair_not_rejected :
    frontier_req_client.received_frontier two_account_node example_limits 0
        (fresh_client uint32_max) false (frontier_buffer 3 30) 0 0 = some synced_client ∧
    (2 ≠ 0 ∧ ¬ 3 < 2) ∧
    (frontier_req_client.received_frontier two_account_node example_limits 0 synced_client
        false (frontier_buffer 2 20) 0 0).map (fun s' => (s'.pulls, s'.bulk_push_targets)) =
      some ([{ account_or_head := 2, head := 20, end_ := 0, bootstrap_id := 9,
               count := 0, retry_limit := 16 }], []) := by
  rw [received_frontier_pair _ _ _ _ _ _ _ _ (by decide) (by decide)
    (by norm_num [frontier_req_client.guard_passes, frontier_req_client.too_slow,
      frontier_req_client.counted, fresh_client, example_limits]),
    received_frontier_pair _ _ _ _ _ _ _ _ (by decide) (by decide)
    (by norm_num [frontier_req_client.guard_passes, frontier_req_client.too_slow,
      frontier_req_client.counted, synced_client, example_limits])]
  decide

/-- C12, amended to what the client does with an out-of-order pair: after a
non-zero pair of an account `B` (other than `2 ^ 256 - 1`) has been processed
by a client in step with its well-formed local table, a non-zero pair `(A, H)`
whose account is not greater than `B` is processed like a pair of an account
the local side lacks: exactly one pull descriptor with account `A`, head `H`
and a zero end is emitted, no push target is offered or recorded, and the
cursor and `bulk_push_cost` stay as they were. -/
theorem frontier_client_out_of_order_pair_is_pulled (n : node) (lim : bootstrap_limits)
    (fuel fuel2 : Nat) (s s1 : frontier_req_client) (B HB A HA : Nat)
    (now_first1 now1 now_first2 now2 : ℚ)
    (hwf : well_formed n.store) (hstep : frontier_req_client.in_step n s)
    (hB : B + 1 < uint256_modulus) (hHB : HB < uint256_modulus) (hHA : HA < uint256_modulus)
    (hguard1 : frontier_req_client.guard_passes lim s now_first1 now1) (hBnz : B ≠ 0)
    (hfuel : ((frontier_req_client.remaining n s).takeWhile
      (fun p => decide (p.1 < B))).length ≤ fuel)
    (hfirst : frontier_req_client.received_frontier n lim fuel s false (frontier_buffer B HB)
      now_first1 now1 = some s1)
    (hguard2 : frontier_req_client.guard_passes lim s1 now_first2 now2)
    (hAnz : A ≠ 0) (hle : A ≤ B) :
    ∃ s2, frontier_req_client.received_frontier n lim fuel2 s1 false (frontier_buffer A HA)
        now_first2 now2 = some s2 ∧
      s2.pulls = s1.pulls ++
        [{ account_or_head := A, head := HA, end_ := 0, bootstrap_id := s1.incremental_id,
           count := 0, retry_limit := n.frontier_retry_limit }] ∧
      s2.bulk_push_targets = s1.bulk_push_targets ∧
      s2.offered = s1.offered ∧
      s2.bulk_push_cost = s1.bulk_push_cost ∧
      s2.current = s1.current ∧ s2.frontier = s1.frontier ∧ s2.accounts = s1.accounts := by
  have hcur := client_cursor_after_pair n lim fuel s s1 B HB now_first1 now1 hwf hstep hB hHB
    hguard1 hBnz hfuel hfirst
  exact client_pair_below_cursor n lim fuel2 s1 A HA now_first2 now2 (by omega) hHA hguard2 hAnz
    (by omega)

/-- An instance of `frontier_client_out_of_order_pair_is_pulled`: after the pair
of account 3 the pair `(2, 20)` arrives. -/
theorem frontier_client_out_of_order_pair_is_pulled_witness :
    ∃ s2, frontier_req_client.received_frontier two_account_node example_limits 0 synced_client
        false (frontier_buffer 2 20) 0 0 = some s2 ∧
      s2.pulls = synced_client.pulls ++
        [{ account_or_head := 2, head := 20, end_ := 0,
           bootstrap_id := synced_client.incremental_id,
           count := 0, retry_limit := two_account_node.frontier_retry_limit }] ∧
      s2.bulk_push_targets = synced_client.bulk_push_targets ∧
      s2.offered = synced_client.offered ∧
      s2.bulk_push_cost = synced_client.bulk_push_cost ∧
      s2.current = synced_client.current ∧ s2.frontier = synced_client.frontier ∧
      s2.accounts = synced_client.accounts :=
  frontier_client_out_of_order_pair_is_pulled two_account_node example_limits 0 0
    (fresh_client uint32_max) synced_client 3 30 2 20 0 0 0 0
    (by unfold well_formed; decide)
    (by unfold frontier_req_client.in_step follows; decide) (by decide) (by decide) (by decide)
    (by norm_num [frontier_req_client.guard_passes, frontier_req_client.too_slow,
      frontier_req_client.counted, fresh_client, example_limits])
    (by decide) (by decide)
    (by
      rw [received_frontier_pair _ _ _ _ _ _ _ _ (by decide) (by decide)
        (by norm_num [frontier_req_client.guard_passes, frontier_req_client.too_slow,
          frontier_req_client.counted, fresh_client, example_limits])]
      decide)
    (by norm_num [frontier_req_client.guard_passes, frontier_req_client.too_slow,
      frontier_req_client.counted, synced_client, example_limits])
    (by decide) (by decide)

/-- C13: a call `unsynced (head, end)` either records `(head, end)` as a push
target and raises `bulk_push_cost` by exactly 2 when `end` is zero and by
exactly 1 otherwise, or records nothing and leaves the cost as it was.  Once
`bulk_push_cost` exceeds `bulk_push_cost_limit`, it stays above the limit and
no push target is recorded through any later sequence of received pairs, nor
by any call of `unsynced` after them. -/
theorem push_cost_rule (n : node) (lim : bootstrap_limits) (fuel : Nat)
    (s s' : frontier_req_client) (events : List frontier_event)
    (hover : lim.bulk_push_cost_limit < s.bulk_push_cost)
    (hrun : frontier_req_client.receive_all n lim fuel events s = some s') :
    (∀ (t : frontier_req_client) (head end_ : Nat),
      ((frontier_req_client.unsynced lim t head end_).bulk_push_targets =
          t.bulk_push_targets ++ [(head, end_)] ∧
        (frontier_req_client.unsynced lim t head end_).bulk_push_cost =
          t.bulk_push_cost + (if end_ = 0 then 2 else 1)) ∨
      ((frontier_req_client.unsynced lim t head end_).bulk_push_targets = t.bulk_push_targets ∧
        (frontier_req_client.unsynced lim t head end_).bulk_push_cost = t.bulk_push_cost)) ∧
    (s'.bulk_push_targets = s.bulk_push_targets ∧
      lim.bulk_push_cost_limit < s'.bulk_push_cost ∧
      ∀ head end_ : Nat,
        (frontier_req_client.unsynced lim s' head end_).bulk_push_targets =
            s'.bulk_push_targets ∧
          (frontier_req_client.unsynced lim s' head end_).bulk_push_cost =
            s'.bulk_push_cost) := by
  constructor
  · intro t head end_
    unfold frontier_req_client.unsynced
    simp only
    by_cases hgate : t.bulk_push_cost < lim.bulk_push_cost_limit ∧ t.frontiers_age = uint32_max
    · left
      rw [if_pos hgate]
      by_cases hz : end_ = 0 <;> simp [hz]
    · right
      rw [if_neg hgate]
      exact ⟨rfl, rfl⟩
  · obtain ⟨ht, hc⟩ := receive_all_closed n lim fuel events s s' hover.le hrun
    refine ⟨ht, by omega, ?_⟩
    intro head end_
    exact client_unsynced_closed lim s' head end_ (by omega)

/-- An instance of `push_cost_rule`: a client whose cost is 201, above the
limit 200, receives the pair of account 7 while local account 3 is pending. -/
theorem push_cost_rule_witness :
    (∀ (t : frontier_req_client) (head end_ : Nat),
      ((frontier_req_client.unsynced example_limits t head end_).bulk_push_targets =
          t.bulk_push_targets ++ [(head, end_)] ∧
        (frontier_req_client.unsynced example_limits t head end_).bulk_push_cost =
          t.bulk_push_cost + (if end_ = 0 then 2 else 1)) ∨
      ((frontier_req_client.unsynced example_limits t head end_).bulk_push_targets =
          t.bulk_push_targets ∧
        (frontier_req_client.unsynced example_limits t head end_).bulk_push_cost =
          t.bulk_push_cost)) ∧
    (over_limit_client_after.bulk_push_targets = over_limit_client.bulk_push_targets ∧
      example_limits.bulk_push_cost_limit < over_limit_client_after.bulk_push_cost ∧
      ∀ head end_ : Nat,
        (frontier_req_client.unsynced example_limits over_limit_client_after head
            end_).bulk_push_targets = over_limit_client_after.bulk_push_targets ∧
          (frontier_req_client.unsynced example_limits over_limit_client_after head
            end_).bulk_push_cost = over_limit_client_after.bulk_push_cost) :=
  push_cost_rule two_account_node example_limits 1 over_limit_client over_limit_client_after
    [{ ec := false, receive_buffer := frontier_buffer 7 70, now_first := 0, now := 0 }]
    (by decide)
    (by
      simp only [frontier_req_client.receive_all]
      rw [received_frontier_pair _ _ _ _ _ _ _ _ (by decide) (by decide)
        (by norm_num [frontier_req_client.guard_passes, frontier_req_client.too_slow,
          frontier_req_client.counted, over_limit_client, fresh_client, example_limits])]
      decide)

/-- C15: when a frontier read completes with a byte count other than 64, the
completion handler of `receive_frontier` does not call `received_frontier`:
the client state is left exactly as it was, so the received count, the cursor
and deque, `bulk_push_cost`, the pulls and the push targets are unchanged, the
promise is not resolved, the connection is not pooled and no further read is
scheduled. -/
theorem short_read_is_dropped (n : node) (lim : bootstrap_limits) (fuel : Nat)
    (s : frontier_req_client) (ec : Bool) (size_a : Nat) (receive_buffer : List Nat)
    (now_first now : ℚ) (hsize : size_a ≠ 64) :
    ∃ s', frontier_req_client.read_completed n lim fuel s ec size_a receive_buffer
        now_first now = some s' ∧
      s' = s ∧
      s'.count = s.count ∧
      (s'.current = s.current ∧ s'.frontier = s.frontier ∧ s'.accounts = s.accounts) ∧
      s'.bulk_push_cost = s.bulk_push_cost ∧ s'.pulls = s.pulls ∧
      s'.bulk_push_targets = s.bulk_push_targets ∧ s'.offered = s.offered ∧
      s'.promise = s.promise ∧ s'.pooled = s.pooled ∧ s'.reads = s.reads := by
  refine ⟨s, ?_, rfl, rfl, ⟨rfl, rfl, rfl⟩, rfl, rfl, rfl, rfl, rfl, rfl, rfl⟩
  unfold frontier_req_client.read_completed
  rw [if_neg (by rw [size_frontier]; exact hsize)]

/-- An instance of `short_read_is_dropped`: a read of 10 bytes at a fresh
client. -/
theorem short_read_is_dropped_witness :
    ∃ s', frontier_req_client.read_completed two_account_node example_limits 0
        (fresh_client uint32_max) false 10 (List.replicate 10 0) 0 0 = some s' ∧
      s' = fresh_client uint32_max ∧
      s'.count = (fresh_client uint32_max).count ∧
      (s'.current = (fresh_client uint32_max).current ∧
        s'.frontier = (fresh_client uint32_max).frontier ∧
        s'.accounts = (fresh_client uint32_max).accounts) ∧
      s'.bulk_push_cost = (fresh_client uint32_max).bulk_push_cost ∧
      s'.pulls = (fresh_client uint32_max).pulls ∧
      s'.bulk_push_targets = (fresh_client uint32_max).bulk_push_targets ∧
      s'.offered = (fresh_client uint32_max).offered ∧
      s'.promise = (fresh_client uint32_max).promise ∧
      s'.pooled = (fresh_client uint32_max).pooled ∧
      s'.reads = (fresh_client uint32_max).reads :=
  short_read_is_dropped two_account_node example_limits 0 (fresh_client uint32_max) false 10
    (List.replicate 10 0) 0 0 (by decide)

/-! ## Claims on the bootstrap attempt -/

theorem attempt_call_keeps_stopped (a : bootstrap_attempt) (c : attempt_call)
    (h : a.stopped = true) : (a.call c).stopped = true := by
  cases c <;> simp [bootstrap_attempt.call, bootstrap_attempt.pull_started,
    bootstrap_attempt.pull_finished, bootstrap_attempt.stop, h]

theorem attempt_calls_keep_stopped (cs : List attempt_call) :
    ∀ a : bootstrap_attempt, a.stopped = true → (a.calls cs).stopped = true := by
  induction cs with
  | nil => intro a h; exact h
  | cons c rest ih =>
    intro a h
    exact ih (a.call c) (attempt_call_keeps_stopped a c h)

/-- C16: after `stop ()` the `stopped` flag is true, and it is still true after
any later sequence of `pull_started`, `pull_finished` and `stop` calls; hence
`still_pulling ()` returns false then, whatever the value of the `pulling`
counter.  The call `stop ()` leaves the `pulling` counter as it was. -/
theorem stop_is_permanent (a : bootstrap_attempt) (cs : List attempt_call) :
    a.stop.stopped = true ∧
    (a.stop.calls cs).stopped = true ∧
    (a.stop.calls cs).still_pulling = false ∧
    (∀ pulling : Nat,
      bootstrap_attempt.still_pulling { a.stop.calls cs with pulling := pulling } = false) ∧
    a.stop.pulling = a.pulling := by
  have hstop : a.stop.stopped = true := rfl
  have hlater := attempt_calls_keep_stopped cs a.stop hstop
  refine ⟨hstop, hlater, ?_, ?_, rfl⟩
  · simp [bootstrap_attempt.still_pulling, hlater]
  · intro pulling
    simp [bootstrap_attempt.still_pulling, hlater]

/-- C17: for every block, known account, `pull_blocks`, `max_blocks`,
`block_expected` and `retry_limit`, the base `process_block` hands exactly one
entry to the block processor, carrying that block, the known account and the
verification status `unknown`, changes nothing else of the attempt and
returns `false`. -/
theorem process_block_forwards (a : bootstrap_attempt) (block_a : block) (known_account_a : Nat)
    (pull_blocks max_blocks : Nat) (block_expected : Bool) (retry_limit : Nat) :
    (a.process_block block_a known_account_a pull_blocks max_blocks block_expected
        retry_limit).1 = false ∧
    (a.process_block block_a known_account_a pull_blocks max_blocks block_expected
        retry_limit).2.block_processor =
      a.block_processor ++
        [{ block := block_a, account := known_account_a, modified := 0,
           verified := signature_verification.unknown }] ∧
    (a.process_block block_a known_account_a pull_blocks max_blocks block_expected
        retry_limit).2.block_processor.length = a.block_processor.length + 1 ∧
    (a.process_block block_a known_account_a pull_blocks max_blocks block_expected
        retry_limit).2 =
      { a with block_processor :=
          (a.process_block block_a known_account_a pull_blocks max_blocks block_expected
            retry_limit).2.block_processor } := by
  refine ⟨rfl, rfl, ?_, rfl⟩
  simp [bootstrap_attempt.process_block]

/-! ## Claims on the representative crawler -/

theorem probable_reps_modify_accounts (account : Nat) (f : representative → representative)
    (hf : ∀ r, (f r).account = r.account) (reps : List representative) :
    (probable_reps_modify account f reps).map (fun r => r.account) =
      reps.map (fun r => r.account) := by
  induction reps with
  | nil => rfl
  | cons r rest ih =>
    rw [probable_reps_modify]
    by_cases h : r.account = account
    · rw [if_pos h, List.map_cons, List.map_cons, hf]
    · rw [if_neg h, List.map_cons, List.map_cons, ih]

theorem probable_reps_find_some (reps : List representative) (account : Nat) (r : representative)
    (h : probable_reps_find reps account = some r) :
    r ∈ reps ∧ r.account = account := by
  unfold probable_reps_find at h
  exact ⟨List.mem_of_find?_eq_some h, by simpa using List.find?_some h⟩

theorem probable_reps_find_none (reps : List representative) (account : Nat)
    (h : probable_reps_find reps account = none) :
    ∀ r ∈ reps, r.account ≠ account := by
  unfold probable_reps_find at h
  intro r hr
  have := List.find?_eq_none.mp h r hr
  simpa using this

/-- The update `validate` applies to an existing record keeps its account. -/
theorem validate_update_account (n : crawler_node) (ch : channel) (w : Nat) (r : representative) :
    ((fun info : representative =>
        let info := { info with last_response := n.steady_now }
        if info.channel.endpoint ≠ ch.endpoint then
          { info with weight := w, channel := ch }
        else info) r).account = r.account := by
  simp only
  split <;> rfl

/-- Handling one response keeps the accounts that have a record, in order, and
adds at most the account of the vote at the end. -/
theorem validate_response_accounts (n : crawler_node) (c : rep_crawler) (i : channel × vote) :
    (rep_crawler.validate_response n c i).probable_reps.map (fun r => r.account) =
        c.probable_reps.map (fun r => r.account) ∨
      ((rep_crawler.validate_response n c i).probable_reps.map (fun r => r.account) =
          c.probable_reps.map (fun r => r.account) ++ [i.2.account] ∧
        i.2.account ∉ c.probable_reps.map (fun r => r.account)) := by
  unfold rep_crawler.validate_response
  simp only
  split
  · split
    · split
      · left
        exact probable_reps_modify_accounts _ _ (validate_update_account n i.1 _) _
      · rename_i hnone
        right
        have hno := probable_reps_find_none _ _ hnone
        have hany : c.probable_reps.any (fun x => decide (x.account =
            (representative.create i.2.account (n.weight i.2.account) i.1).account)) = false := by
          rw [List.any_eq_false]
          intro x hx
          simpa [representative.create] using hno x hx
        constructor
        · simp only [probable_reps_emplace, hany]
          simp [representative.create]
        · intro hmem
          obtain ⟨r, hr, hacc⟩ := List.mem_map.mp hmem
          exact hno r hr hacc
    · left; rfl
  · left; rfl

/-- A response that passes the two tests of `validate` leaves a record of the
vote's account. -/
theorem validate_response_records (n : crawler_node) (c : rep_crawler) (i : channel × vote)
    (htype : i.1.type ≠ transport_type.loopback)
    (hweight : n.minimum_principal_weight < n.weight i.2.account) :
    i.2.account ∈ (rep_crawler.validate_response n c i).probable_reps.map (fun r => r.account) := by
  unfold rep_crawler.validate_response
  simp only
  rw [if_pos htype, if_pos hweight]
  split
  · rename_i r hsome
    obtain ⟨hr, hacc⟩ := probable_reps_find_some _ _ _ hsome
    rw [probable_reps_modify_accounts _ _ (validate_update_account n i.1 _)]
    exact List.mem_map.mpr ⟨r, hr, hacc⟩
  · rename_i hnone
    have hno := probable_reps_find_none _ _ hnone
    have hany : c.probable_reps.any (fun x => decide (x.account =
        (representative.create i.2.account (n.weight i.2.account) i.1).account)) = false := by
      rw [List.any_eq_false]
      intro x hx
      simpa [representative.create] using hno x hx
    simp only [probable_reps_emplace, hany]
    simp [representative.create]

theorem validate_responses_keep (n : crawler_node) (l : List (channel × vote)) :
    ∀ (c : rep_crawler) (account : Nat),
      account ∈ c.probable_reps.map (fun r => r.account) →
      account ∈ (l.foldl (rep_crawler.validate_response n) c).probable_reps.map
        (fun r => r.account) := by
  induction l with
  | nil => intro c account h; exact h
  | cons i rest ih =>
    intro c account h
    rw [List.foldl_cons]
    apply ih
    rcases validate_response_accounts n c i with hsame | ⟨happ, _⟩
    · rw [hsame]; exact h
    · rw [happ]; exact List.mem_append_left _ h

theorem validate_responses_record (n : crawler_node) (l : List (channel × vote)) :
    ∀ (c : rep_crawler) (i : channel × vote), i ∈ l →
      i.1.type ≠ transport_type.loopback →
      n.minimum_principal_weight < n.weight i.2.account →
      i.2.account ∈ (l.foldl (rep_crawler.validate_response n) c).probable_reps.map
        (fun r => r.account) := by
  induction l with
  | nil => intro c i hi; simp at hi
  | cons j rest ih =>
    intro c i hi htype hweight
    rw [List.foldl_cons]
    rcases List.mem_cons.mp hi with rfl | hrest
    · exact validate_responses_keep n rest _ _ (validate_response_records n c i htype hweight)
    · exact ih _ i hrest htype hweight

/-- C18, as stated, fails in two ways.  A queued response of account 5, whose
ledger weight 100 equals the minimum principal weight, leaves no record: the
test is `rep_weight > minimum`.  And a queued response of account 6, whose
weight 500 is above the minimum, leaves no record when it came over a loopback
channel. -/
theorem validate_skips_minimum_weight_and_loopback :
    (example_crawler_node.minimum_principal_weight ≤ example_crawler_node.weight 5 ∧
      (rep_crawler.validate example_crawler_node
        { empty_crawler with
          responses := [(example_tcp_channel, { account := 5, hashes := [77] })] }).probable_reps
        = []) ∧
    (example_crawler_node.minimum_principal_weight ≤ example_crawler_node.weight 6 ∧
      (rep_crawler.validate example_crawler_node
        { empty_crawler with
          responses := [(example_loopback_channel, { account := 6, hashes := [77] })]
        }).probable_reps = []) := by
  decide

/-- C18, amended to the tests of the code: for every queued response whose
channel is not a loopback channel and whose vote account has a ledger weight
strictly above the minimum principal weight, a record of the vote's account
is in the container of probable representatives after `validate`; the queue
is empty afterwards. -/
theorem validate_upserts_representative (n : crawler_node) (c : rep_crawler) (ch : channel)
    (v : vote) (hqueued : (ch, v) ∈ c.responses)
    (htype : ch.type ≠ transport_type.loopback)
    (hweight : n.minimum_principal_weight < n.weight v.account) :
    (∃ r ∈ (rep_crawler.validate n c).probable_reps, r.account = v.account) ∧
      (rep_crawler.validate n c).responses = [] := by
  constructor
  · have := validate_responses_record n c.responses { c with responses := [] } (ch, v) hqueued
      htype hweight
    obtain ⟨r, hr, hacc⟩ := List.mem_map.mp this
    exact ⟨r, hr, hacc⟩
  · unfold rep_crawler.validate
    simp only
    generalize c.responses = l
    have hkeep : ∀ (l : List (channel × vote)) (c0 : rep_crawler), c0.responses = [] →
        (l.foldl (rep_crawler.validate_response n) c0).responses = [] := by
      intro l
      induction l with
      | nil => intro c0 h; exact h
      | cons i rest ih =>
        intro c0 h
        rw [List.foldl_cons]
        apply ih
        unfold rep_crawler.validate_response
        simp only
        split
        · split
          · split <;> exact h
          · exact h
        · exact h
    exact hkeep l _ rfl

/-- An instance of `validate_upserts_representative`: the response of account 6
over a tcp channel. -/
theorem validate_upserts_representative_witness :
    (∃ r ∈ (rep_crawler.validate example_crawler_node
        { empty_crawler with
          responses := [(example_tcp_channel, { account := 6, hashes := [77] })]
        }).probable_reps, r.account = 6) ∧
      (rep_crawler.validate example_crawler_node
        { empty_crawler with
          responses := [(example_tcp_channel, { account := 6, hashes := [77] })]
        }).responses = [] :=
  validate_upserts_representative example_crawler_node
    { empty_crawler with responses := [(example_tcp_channel, { account := 6, hashes := [77] })] }
    example_tcp_channel { account := 6, hashes := [77] } (by decide) (by decide) (by decide)

theorem probable_reps_find_split (pre post : List representative) (r0 : representative)
    (account : Nat) (hpre : ∀ r ∈ pre, r.account ≠ account) (hacc : r0.account = account) :
    probable_reps_find (pre ++ r0 :: post) account = some r0 := by
  unfold probable_reps_find
  induction pre with
  | nil => simp [hacc]
  | cons a rest ih =>
    have ha := hpre a (List.mem_cons_self _ _)
    rw [List.cons_append, List.find?_cons_of_neg _ (by simpa using ha)]
    exact ih (fun r hr => hpre r (List.mem_cons_of_mem _ hr))

theorem probable_reps_modify_split (pre post : List representative) (r0 : representative)
    (account : Nat) (f : representative → representative)
    (hpre : ∀ r ∈ pre, r.account ≠ account) (hacc : r0.account = account) :
    probable_reps_modify account f (pre ++ r0 :: post) = pre ++ f r0 :: post := by
  induction pre with
  | nil => simp [probable_reps_modify, hacc]
  | cons a rest ih =>
    have ha := hpre a (List.mem_cons_self _ _)
    rw [List.cons_append, probable_reps_modify, if_neg ha,
      ih (fun r hr => hpre r (List.mem_cons_of_mem _ hr))]
    rfl

/-- C19: when `validate` handles a response that passes its tests (channel not
loopback, weight above the minimum) for an account that has a record, the
container keeps its records in place and only that record changes: its
`last_response` becomes the current time; when the endpoint of the response's
channel differs from that of the recorded channel, its channel becomes the
response's channel and its weight the current ledger weight, and when the
endpoints are equal its weight and channel stay; its account and
`last_request` stay in both cases.  No record is added. -/
theorem validate_updates_existing (n : crawler_node) (c : rep_crawler) (ch : channel) (v : vote)
    (r0 : representative)
    (hunique : (c.probable_reps.map (fun r => r.account)).Nodup)
    (hrecord : r0 ∈ c.probable_reps) (haccount : r0.account = v.account)
    (htype : ch.type ≠ transport_type.loopback)
    (hweight : n.minimum_principal_weight < n.weight v.account) :
    ∃ (pre post : List representative) (r1 : representative),
      c.probable_reps = pre ++ r0 :: post ∧
      (rep_crawler.validate_response n c (ch, v)).probable_reps = pre ++ r1 :: post ∧
      r1.account = r0.account ∧ r1.last_request = r0.last_request ∧
      r1.last_response = n.steady_now ∧
      (r0.channel.endpoint ≠ ch.endpoint →
        r1.channel = ch ∧ r1.weight = n.weight v.account) ∧
      (r0.channel.endpoint = ch.endpoint →
        r1.channel = r0.channel ∧ r1.weight = r0.weight) ∧
      (rep_crawler.validate_response n c (ch, v)).probable_reps.length =
        c.probable_reps.length ∧
      (rep_crawler.validate_response n c (ch, v)).responses = c.responses ∧
      (rep_crawler.validate_response n c (ch, v)).active = c.active := by
  obtain ⟨pre, post, hsplit⟩ := List.append_of_mem hrecord
  have hpre : ∀ r ∈ pre, r.account ≠ v.account := by
    intro r hr heq
    rw [hsplit, List.map_append, List.map_cons] at hunique
    have hdisj := (List.nodup_append.mp hunique).2.2
    exact hdisj (List.mem_map.mpr ⟨r, hr, rfl⟩)
      (by rw [heq, ← haccount]; exact List.mem_cons_self _ _)
  have hfind := probable_reps_find_split pre post r0 v.account hpre haccount
  have hstep : rep_crawler.validate_response n c (ch, v) =
      { c with probable_reps := pre ++
        (if r0.channel.endpoint ≠ ch.endpoint then
          { r0 with last_response := n.steady_now, weight := n.weight v.account, channel := ch }
        else { r0 with last_response := n.steady_now }) :: post } := by
    unfold rep_crawler.validate_response
    simp only
    rw [if_pos htype, if_pos hweight, hsplit, hfind]
    simp only
    rw [probable_reps_modify_split pre post r0 v.account _ hpre haccount]
  refine ⟨pre, post, _, hsplit, by rw [hstep], ?_, ?_, ?_, ?_, ?_, ?_, by rw [hstep],
    by rw [hstep]⟩
  · split <;> rfl
  · split <;> rfl
  · split <;> rfl
  · intro hdiff
    rw [if_pos hdiff]
    exact ⟨rfl, rfl⟩
  · intro hsame
    rw [if_neg (by simpa using hsame)]
    exact ⟨rfl, rfl⟩
  · rw [hstep, hsplit]
    simp

/-- An instance of `validate_updates_existing`: the representative 6, recorded
on the channel to address 1, answers over the channel to address 2. -/
theorem validate_updates_existing_witness :
    ∃ (pre post : List representative) (r1 : representative),
      one_rep_crawler.probable_reps = pre ++
        ({ account := 6, weight := 400, channel := example_tcp_channel,
           last_request := 10, last_response := 20 } : representative) :: post ∧
      (rep_crawler.validate_response example_crawler_node one_rep_crawler
        (other_tcp_channel, { account := 6, hashes := [77] })).probable_reps =
          pre ++ r1 :: post ∧
      r1.account = 6 ∧ r1.last_request = 10 ∧
      r1.last_response = example_crawler_node.steady_now ∧
      (example_tcp_channel.endpoint ≠ other_tcp_channel.endpoint →
        r1.channel = other_tcp_channel ∧ r1.weight = example_crawler_node.weight 6) ∧
      (example_tcp_channel.endpoint = other_tcp_channel.endpoint →
        r1.channel = example_tcp_channel ∧ r1.weight = 400) ∧
      (rep_crawler.validate_response example_crawler_node one_rep_crawler
        (other_tcp_channel, { account := 6, hashes := [77] })).probable_reps.length =
          one_rep_crawler.probable_reps.length ∧
      (rep_crawler.validate_response example_crawler_node one_rep_crawler
        (other_tcp_channel, { account := 6, hashes := [77] })).responses =
          one_rep_crawler.responses ∧
      (rep_crawler.validate_response example_crawler_node one_rep_crawler
        (other_tcp_channel, { account := 6, hashes := [77] })).active = one_rep_crawler.active :=
  validate_updates_existing example_crawler_node one_rep_crawler other_tcp_channel
    { account := 6, hashes := [77] }
    { account := 6, weight := 400, channel := example_tcp_channel,
      last_request := 10, last_response := 20 }
    (by decide) (by decide) (by decide) (by decide) (by decide)

theorem response_loop_spec (c : rep_crawler) (ch : channel) (v : vote) (hashes : List Nat) :
    ((rep_crawler.response_loop c ch v hashes).1 = false ↔ ∃ h ∈ hashes, h ∈ c.active) ∧
    (rep_crawler.response_loop c ch v hashes).2 =
      (if ∃ h ∈ hashes, h ∈ c.active then
        { c with responses := c.responses ++ [(ch, v)] }
      else c) := by
  induction hashes with
  | nil => simp [rep_crawler.response_loop]
  | cons h rest ih =>
    rw [rep_crawler.response_loop]
    by_cases hin : h ∈ c.active
    · have hcount : c.active.count h ≠ 0 := by
        rw [Ne, List.count_eq_zero]
        exact fun hn => hn hin
      have hex : ∃ x ∈ h :: rest, x ∈ c.active := ⟨h, List.mem_cons_self _ _, hin⟩
      rw [if_pos hcount, if_pos hex]
      exact ⟨⟨fun _ => hex, fun _ => rfl⟩, rfl⟩
    · have hcount : ¬ c.active.count h ≠ 0 := by
        rw [Ne, List.count_eq_zero, not_not]
        exact hin
      rw [if_neg hcount]
      have hiff : (∃ x ∈ h :: rest, x ∈ c.active) ↔ ∃ x ∈ rest, x ∈ c.active := by
        constructor
        · rintro ⟨x, hx, hxa⟩
          rcases List.mem_cons.mp hx with rfl | hr
          · exact absurd hxa hin
          · exact ⟨x, hr, hxa⟩
        · rintro ⟨x, hx, hxa⟩
          exact ⟨x, List.mem_cons_of_mem _ hx, hxa⟩
      refine ⟨ih.1.trans hiff.symm, ?_⟩
      rw [ih.2]
      by_cases hex : ∃ x ∈ rest, x ∈ c.active
      · rw [if_pos hex, if_pos (hiff.mpr hex)]
      · rw [if_neg hex, if_neg (fun h' => hex (hiff.mp h'))]

/-- C20: `response (channel, vote)` returns `false` if and only if at least one
hash carried by the vote is in the active set, and in that case it has
appended exactly one `(channel, vote)` entry to the response queue; otherwise
it returns `true` and the queue is as it was.  The active set and the container
of representatives are not modified in either case. -/
theorem response_queues_active_votes (c : rep_crawler) (ch : channel) (v : vote) :
    ((rep_crawler.response c ch v).1 = false ↔ ∃ h ∈ v.hashes, h ∈ c.active) ∧
    ((rep_crawler.response c ch v).1 = true ↔ ¬ ∃ h ∈ v.hashes, h ∈ c.active) ∧
    (rep_crawler.response c ch v).2.responses =
      (if ∃ h ∈ v.hashes, h ∈ c.active then c.responses ++ [(ch, v)] else c.responses) ∧
    (rep_crawler.response c ch v).2.active = c.active ∧
    (rep_crawler.response c ch v).2.probable_reps = c.probable_reps := by
  obtain ⟨hflag, hstate⟩ := response_loop_spec c ch v v.hashes
  unfold rep_crawler.response
  refine ⟨hflag, ?_, ?_, ?_, ?_⟩
  · rw [← hflag]
    cases (rep_crawler.response_loop c ch v v.hashes).1 <;> simp
  · rw [hstate]
    split <;> rfl
  · rw [hstate]
    split <;> rfl
  · rw [hstate]
    split <;> rfl


/-! ## Claims on logging and construction of the bootstrap attempt -/

/-- A call of `should_log ()` never moves `next_log` back. -/
theorem should_log_next_log_le (a : bootstrap_attempt) (now : Nat) :
    a.next_log ≤ (a.should_log now).2.next_log := by
  unfold bootstrap_attempt.should_log
  by_cases h : a.next_log < now
  · simp only [h, if_true]
    omega
  · simp only [h, if_false]
    exact le_refl _

/-- A call that returns `true` in a sequence of `should_log ()` calls read the
clock after the `next_log` the sequence started with. -/
theorem should_log_all_true_after (nows : List Nat) :
    ∀ (a : bootstrap_attempt) (j : Nat), (a.should_log_all nows)[j]? = some true →
      ∃ tj, nows[j]? = some tj ∧ a.next_log < tj := by
  induction nows with
  | nil => intro a j h; simp [bootstrap_attempt.should_log_all] at h
  | cons now rest ih =>
    intro a j h
    cases j with
    | zero =>
      refine ⟨now, List.getElem?_cons_zero, ?_⟩
      simp only [bootstrap_attempt.should_log_all, List.getElem?_cons_zero, Option.some.injEq] at h
      unfold bootstrap_attempt.should_log at h
      by_cases hlt : a.next_log < now
      · exact hlt
      · simp [hlt] at h
    | succ j =>
      simp only [bootstrap_attempt.should_log_all, List.getElem?_cons_succ] at h
      obtain ⟨tj, htj, hlt⟩ := ih (a.should_log now).2 j h
      exact ⟨tj, by simpa using htj, lt_of_le_of_lt (should_log_next_log_le a now) hlt⟩

/-- Two calls that return `true` in a sequence of `should_log ()` calls read
the clock more than 15 seconds apart. -/
theorem should_log_all_apart (nows : List Nat) :
    ∀ (a : bootstrap_attempt) (i j : Nat), i < j →
      (a.should_log_all nows)[i]? = some true → (a.should_log_all nows)[j]? = some true →
      ∃ ti tj, nows[i]? = some ti ∧ nows[j]? = some tj ∧ ti + seconds 15 < tj := by
  induction nows with
  | nil => intro a i j _ h; simp [bootstrap_attempt.should_log_all] at h
  | cons now rest ih =>
    intro a i j hij hi hj
    cases j with
    | zero => omega
    | succ j =>
      simp only [bootstrap_attempt.should_log_all, List.getElem?_cons_succ] at hj
      cases i with
      | zero =>
        simp only [bootstrap_attempt.should_log_all, List.getElem?_cons_zero,
          Option.some.injEq] at hi
        obtain ⟨tj, htj, hlt⟩ := should_log_all_true_after rest (a.should_log now).2 j hj
        refine ⟨now, tj, List.getElem?_cons_zero, by simpa using htj, ?_⟩
        unfold bootstrap_attempt.should_log at hi hlt
        by_cases hnow : a.next_log < now
        · simpa [hnow] using hlt
        · simp [hnow] at hi
      | succ i =>
        simp only [bootstrap_attempt.should_log_all, List.getElem?_cons_succ] at hi
        obtain ⟨ti, tj, hti, htj, hlt⟩ := ih (a.should_log now).2 i j (by omega) hi hj
        exact ⟨ti, tj, by simpa using hti, by simpa using htj, hlt⟩

/-- C24: `should_log ()` returns `true` if and only if `next_log < now`; a
`true` result sets `next_log` to `now` plus 15 seconds and changes nothing
else, a `false` result leaves the attempt as it was.  Hence in any sequence of
calls on one attempt, two calls that both return `true` read the clock more
than 15 seconds apart (whether or not the clock readings ascend). -/
theorem should_log_rate_limit (a : bootstrap_attempt) (now : Nat) :
    ((a.should_log now).1 = true ↔ a.next_log < now) ∧
    ((a.should_log now).1 = true →
      (a.should_log now).2 = { a with next_log := now + seconds 15 }) ∧
    ((a.should_log now).1 = false → (a.should_log now).2 = a) ∧
    ∀ (nows : List Nat) (i j : Nat), i < j →
      (a.should_log_all nows)[i]? = some true → (a.should_log_all nows)[j]? = some true →
      ∃ ti tj, nows[i]? = some ti ∧ nows[j]? = some tj ∧ ti + seconds 15 < tj := by
  refine ⟨?_, ?_, ?_, ?_⟩
  · unfold bootstrap_attempt.should_log
    by_cases h : a.next_log < now <;> simp [h]
  · unfold bootstrap_attempt.should_log
    by_cases h : a.next_log < now <;> simp [h]
  · unfold bootstrap_attempt.should_log
    by_cases h : a.next_log < now <;> simp [h]
  · intro nows i j hij hi hj
    exact should_log_all_apart nows a i j hij hi hj

/-- An instance of `should_log_rate_limit`: an attempt created at tick 7 is
asked at the ticks 7, 8, 9, 15000000008 and 15000000009; the calls at 8 and at
15000000009 are the ones that return `true`. -/
theorem should_log_rate_limit_witness :
    (bootstrap_attempt.create bootstrap_mode.legacy 3 "123456" 255 7).should_log_all
        [7, 8, 9, 15000000008, 15000000009] = [false, true, false, false, true] ∧
    ∃ ti tj, [7, 8, 9, 15000000008, 15000000009][1]? = some ti ∧
      [7, 8, 9, 15000000008, 15000000009][4]? = some tj ∧ ti + seconds 15 < tj :=
  ⟨by decide,
    (should_log_rate_limit (bootstrap_attempt.create bootstrap_mode.legacy 3 "123456" 255 7)
      8).2.2.2 [7, 8, 9, 15000000008, 15000000009] 1 4 (by decide) (by decide) (by decide)⟩

/-- The text of a 128-bit number has 32 characters. -/
theorem uint128_to_string_length (value : Nat) : (uint128_to_string value).length = 32 := by
  simp [uint128_to_string, String.length]

/-- C25: an attempt constructed with a non-empty id keeps exactly that string
as its id; constructed with an empty id it gets the generated text of the
random number, which has 32 characters and so is not empty.  The mode and the
incremental id are stored as given in both cases. -/
theorem attempt_id_kept_or_generated (mode_a : bootstrap_mode) (incremental_id_a : Nat)
    (id_a : String) (random_128 steady_now : Nat) :
    (id_a ≠ "" →
      (bootstrap_attempt.create mode_a incremental_id_a id_a random_128 steady_now).id = id_a) ∧
    (bootstrap_attempt.create mode_a incremental_id_a "" random_128 steady_now).id =
      uint128_to_string random_128 ∧
    (bootstrap_attempt.create mode_a incremental_id_a "" random_128 steady_now).id ≠ "" ∧
    (bootstrap_attempt.create mode_a incremental_id_a id_a random_128 steady_now).id ≠ "" ∧
    (bootstrap_attempt.create mode_a incremental_id_a id_a random_128 steady_now).mode = mode_a ∧
    (bootstrap_attempt.create mode_a incremental_id_a id_a random_128 steady_now).incremental_id =
      incremental_id_a := by
  have hgen : uint128_to_string random_128 ≠ "" := by
    intro h
    have := uint128_to_string_length random_128
    rw [h] at this
    exact absurd this (by decide)
  have hempty : (bootstrap_attempt.create mode_a incremental_id_a "" random_128 steady_now).id =
      uint128_to_string random_128 := by
    simp [bootstrap_attempt.create, String.isEmpty_iff]
  refine ⟨?_, hempty, by rw [hempty]; exact hgen, ?_, ?_, ?_⟩
  · intro h
    simp [bootstrap_attempt.create, String.isEmpty_iff, h]
  · by_cases h : id_a = ""
    · subst h
      rw [hempty]
      exact hgen
    · simp [bootstrap_attempt.create, String.isEmpty_iff, h]
  · unfold bootstrap_attempt.create
    simp only
    split <;> rfl
  · unfold bootstrap_attempt.create
    simp only
    split <;> rfl

/-- An instance of `attempt_id_kept_or_generated`: the id "123456" of the test
`lazy_hash_bootstrap_id` is kept, and an empty id is replaced by the text of
the random number 255. -/
theorem attempt_id_kept_or_generated_witness :
    (bootstrap_attempt.create bootstrap_mode.lazy 3 "123456" 255 7).id = "123456" ∧
    (bootstrap_attempt.create bootstrap_mode.lazy 3 "" 255 7).id =
      "000000000000000000000000000000ff" ∧
    (bootstrap_attempt.create bootstrap_mode.lazy 3 "123456" 255 7).mode = bootstrap_mode.lazy ∧
    (bootstrap_attempt.create bootstrap_mode.lazy 3 "123456" 255 7).incremental_id = 3 :=
  ⟨(attempt_id_kept_or_generated bootstrap_mode.lazy 3 "123456" 255 7).1 (by decide),
    by decide,
    (attempt_id_kept_or_generated bootstrap_mode.lazy 3 "123456" 255 7).2.2.2.2.1,
    (attempt_id_kept_or_generated bootstrap_mode.lazy 3 "123456" 255 7).2.2.2.2.2⟩

/-! ## Claims on the periodic crawl and the indices of the crawler -/

set_option maxRecDepth 100000 in
/-- C21, as stated, fails: with a total weight of 2000 above the online delta
of 1000 the crawler asks the network for 15 random peers, not 10, and with a
total weight of 5 it asks for 60, not 40; over a network that has that many
peers the targets are 15 and 60 channels. -/
theorem get_crawl_targets_asks_for_more_than_ten :
    (2000 > crowded_crawler_node.online_delta ∧
      (rep_crawler.get_crawl_targets crowded_crawler_node 2000).length = 15 ∧
      rep_crawler.get_crawl_targets crowded_crawler_node 2000 ≠
        crowded_crawler_node.random_set 10 0 true) ∧
    (¬ 5 > crowded_crawler_node.online_delta ∧
      (rep_crawler.get_crawl_targets crowded_crawler_node 5).length = 60 ∧
      rep_crawler.get_crawl_targets crowded_crawler_node 5 ≠
        crowded_crawler_node.random_set 40 0 true) := by
  decide

/-- C21, amended: `get_crawl_targets (total_weight)` returns the channels of
one random set, and the number of random peers it asks the network for is 15
when `total_weight > online_reps.delta ()` and 60 otherwise (10 or 40 raised by
its half); the minimum version asked is 0 and temporary channels are
included. -/
theorem get_crawl_targets_peer_count (n : crawler_node) (total_weight_a : Nat) :
    rep_crawler.get_crawl_targets n total_weight_a =
      n.random_set (if total_weight_a > n.online_delta then 15 else 60) 0 true := by
  unfold rep_crawler.get_crawl_targets
  by_cases h : total_weight_a > n.online_delta <;> simp [h, uint16_modulus]

/-- C23: `ongoing_crawl` schedules its next run at the reading of the clock it
took plus 100 ms on the dev network, and on any other network plus 7000 ms when
the total weight of the known representatives, taken at the start of the call,
is above `online_reps.delta ()` and plus 3000 ms otherwise.  It is the last task
scheduled by the call and the only one that runs `ongoing_crawl`; the other
task removes the queried hash 5 seconds after the call. -/
theorem ongoing_crawl_next_run (n : crawler_node) (c : rep_crawler) :
    ∃ hash : Nat,
      (rep_crawler.ongoing_crawl n c).2.timed_tasks =
        [(n.steady_now + seconds 5, crawler_task.remove hash),
         (n.steady_now +
            milliseconds (if n.is_dev_network then 100
              else if rep_crawler.total_weight c > n.online_delta then 7000 else 3000),
          crawler_task.ongoing_crawl)] := by
  by_cases hdev : n.is_dev_network = true
  · refine ⟨?_, ?_⟩
    swap
    unfold rep_crawler.ongoing_crawl rep_crawler.query
    simp only [List.singleton_append, hdev, if_true]
    exact rfl
  · by_cases hw : rep_crawler.total_weight c > n.online_delta
    · refine ⟨?_, ?_⟩
      swap
      unfold rep_crawler.ongoing_crawl rep_crawler.query
      simp only [List.singleton_append, hdev, hw, if_false, decide_True,
        if_true]
      exact rfl
    · refine ⟨?_, ?_⟩
      swap
      unfold rep_crawler.ongoing_crawl rep_crawler.query
      simp only [List.singleton_append, hdev, hw, if_false,
        decide_False]
      exact rfl

/-- The index by weight holds the records of the container, each as often as
the container does. -/
theorem index_by_weight_perm (reps : List representative) :
    (index_by_weight reps).Perm reps :=
  List.perm_insertionSort _ reps

/-- The index by weight descends. -/
theorem index_by_weight_sorted (reps : List representative) :
    (index_by_weight reps).Pairwise (fun a b => b.weight ≤ a.weight) := by
  haveI : IsTotal representative (fun a b => b.weight ≤ a.weight) :=
    ⟨fun a b => le_total b.weight a.weight⟩
  haveI : IsTrans representative (fun a b => b.weight ≤ a.weight) :=
    ⟨fun _ _ _ hab hbc => le_trans hbc hab⟩
  exact List.sorted_insertionSort (fun a b : representative => b.weight ≤ a.weight) reps

/-- The index by last request holds the records of the container. -/
theorem index_by_last_request_perm (reps : List representative) :
    (index_by_last_request reps).Perm reps :=
  List.perm_insertionSort _ reps

/-- Over a descending list the loop of `total_weight` adds up all weights as
`uint128_t` values: its result is congruent modulo `2 ^ 128` to the start value
plus the sum of the weights. -/
theorem total_weight_loop_mod (l : List representative) :
    ∀ result : Nat, l.Pairwise (fun a b => b.weight ≤ a.weight) →
      rep_crawler.total_weight_loop l result % uint128_modulus =
        (result + (l.map (fun r => r.weight)).sum) % uint128_modulus := by
  induction l with
  | nil => intro result _; simp [rep_crawler.total_weight_loop]
  | cons i rest ih =>
    intro result hsorted
    rw [List.pairwise_cons] at hsorted
    simp only [List.map_cons, List.sum_cons]
    rw [rep_crawler.total_weight_loop]
    by_cases hw : i.weight > 0
    · simp only [hw, if_true]
      rw [ih _ hsorted.2, Nat.add_mod, Nat.mod_mod, ← Nat.add_mod, Nat.add_assoc]
    · simp only [hw, if_false]
      have hzero : (rest.map (fun r => r.weight)).sum = 0 := by
        apply List.sum_eq_zero
        intro x hx
        obtain ⟨r, hr, rfl⟩ := List.mem_map.mp hx
        have := hsorted.1 r hr
        omega
      have hi : i.weight = 0 := by omega
      rw [hzero, hi, Nat.add_zero]

/-- The loop of `total_weight` keeps its result below `2 ^ 128`. -/
theorem total_weight_loop_lt (l : List representative) :
    ∀ result : Nat, result < uint128_modulus →
      rep_crawler.total_weight_loop l result < uint128_modulus := by
  induction l with
  | nil => intro result h; simpa [rep_crawler.total_weight_loop] using h
  | cons i rest ih =>
    intro result h
    rw [rep_crawler.total_weight_loop]
    by_cases hw : i.weight > 0
    · simp only [hw, if_true]
      exact ih _ (Nat.mod_lt _ (by norm_num [uint128_modulus]))
    · simp only [hw, if_false]
      exact h

/-- C29, as stated, fails when the sum passes `2 ^ 128`: for records of the
weights `2 ^ 127`, `2 ^ 127` and 5, `total_weight ()` is 5, while the weights
add up to `2 ^ 128 + 5`. -/
theorem total_weight_wraps_at_uint128 :
    heavy_rep_crawler.probable_reps.map (fun r => r.weight) = [2 ^ 127, 2 ^ 127, 5] ∧
    rep_crawler.total_weight heavy_rep_crawler = 5 ∧
    (heavy_rep_crawler.probable_reps.map (fun r => r.weight)).sum = 2 ^ 128 + 5 ∧
    rep_crawler.total_weight heavy_rep_crawler ≠
      (heavy_rep_crawler.probable_reps.map (fun r => r.weight)).sum := by
  decide

/-- C29, amended: `total_weight ()` is the sum of the weights of all records of
the container taken as a `uint128_t`, that is modulo `2 ^ 128`, and so the sum
itself when that is below `2 ^ 128`.  No record is left out: the index by
weight descends, so the records after the first one of weight zero have weight
zero too. -/
theorem total_weight_is_sum_modulo (c : rep_crawler) :
    rep_crawler.total_weight c =
      (c.probable_reps.map (fun r => r.weight)).sum % uint128_modulus ∧
    ((c.probable_reps.map (fun r => r.weight)).sum < 2 ^ 128 →
      rep_crawler.total_weight c = (c.probable_reps.map (fun r => r.weight)).sum) ∧
    (index_by_weight c.probable_reps).Pairwise (fun a b => b.weight ≤ a.weight) ∧
    ∀ pre post r, index_by_weight c.probable_reps = pre ++ r :: post → r.weight = 0 →
      ∀ x ∈ post, x.weight = 0 := by
  have hsum : ((index_by_weight c.probable_reps).map (fun r => r.weight)).sum =
      (c.probable_reps.map (fun r => r.weight)).sum :=
    ((index_by_weight_perm c.probable_reps).map _).sum_eq
  have hmod : rep_crawler.total_weight c =
      (c.probable_reps.map (fun r => r.weight)).sum % uint128_modulus := by
    have hlt := total_weight_loop_lt (index_by_weight c.probable_reps) 0
      (by norm_num [uint128_modulus])
    have hloop := total_weight_loop_mod (index_by_weight c.probable_reps) 0
      (index_by_weight_sorted c.probable_reps)
    rw [Nat.mod_eq_of_lt hlt, Nat.zero_add, hsum] at hloop
    exact hloop
  refine ⟨hmod, ?_, index_by_weight_sorted c.probable_reps, ?_⟩
  · intro hbound
    rw [hmod]
    exact Nat.mod_eq_of_lt (by unfold uint128_modulus; exact hbound)
  · intro pre post r hsplit hzero x hx
    have hsorted := index_by_weight_sorted c.probable_reps
    rw [hsplit, List.pairwise_append] at hsorted
    have := (List.pairwise_cons.mp hsorted.2.1).1 x hx
    omega

/-- An instance of `total_weight_is_sum_modulo`: the records of weight 400, 900,
0 and 650 add up to 1950, below `2 ^ 128`, and that is their total weight. -/
theorem total_weight_is_sum_modulo_witness :
    (four_rep_crawler.probable_reps.map (fun r => r.weight)).sum = 1950 ∧
    rep_crawler.total_weight four_rep_crawler =
      (four_rep_crawler.probable_reps.map (fun r => r.weight)).sum :=
  ⟨by decide, (total_weight_is_sum_modulo four_rep_crawler).2.1 (by decide)⟩

/-- The loop of `representatives` appends to a result of at most `count_a`
records the first qualifying records of the list, as many as fit. -/
theorem representatives_loop_eq (count_a weight_a version_min : Nat) (l : List representative) :
    ∀ result : List representative, result.length ≤ count_a →
      rep_crawler.representatives_loop count_a weight_a version_min l result =
        result ++ (l.filter (fun i => decide (i.weight > weight_a ∧
          i.channel.network_version ≥ version_min))).take (count_a - result.length) := by
  induction l with
  | nil => intro result _; simp [rep_crawler.representatives_loop]
  | cons i rest ih =>
    intro result hlen
    rw [rep_crawler.representatives_loop]
    by_cases hroom : result.length < count_a
    · rw [if_pos hroom]
      by_cases hq : i.weight > weight_a ∧ i.channel.network_version ≥ version_min
      · rw [if_pos hq, ih _ (by rw [List.length_append]; simpa using hroom),
          List.filter_cons_of_pos (by simpa using hq)]
        have hsplit : count_a - result.length = (count_a - (result ++ [i]).length) + 1 := by
          rw [List.length_append, List.length_singleton]
          omega
        rw [hsplit, List.take_succ_cons, List.append_assoc]
        rfl
      · rw [if_neg hq, ih _ hlen, List.filter_cons_of_neg (by simpa using hq)]
    · rw [if_neg hroom]
      have hzero : count_a - result.length = 0 := by omega
      rw [hzero, List.take_zero, List.append_nil]

/-- C30: `representatives (count, weight, version_min)` returns the first
`count` qualifying records of the index by weight, a record qualifying when
its weight is strictly above `weight` and the network version of its channel is
at least the minimum version (the node's minimum when none is given).  So it
returns at most `count` records, each a qualifying record of the container, in
descending order of weight, and a qualifying record of the container is left
out only when `count` records were returned, each of a weight not below its
own.  The principal representatives are those above the minimum principal
weight. -/
theorem representatives_are_first_qualifying (n : crawler_node) (c : rep_crawler)
    (count_a weight_a : Nat) (opt_version_min_a : Option Nat) :
    rep_crawler.representatives n c count_a weight_a opt_version_min_a =
      ((index_by_weight c.probable_reps).filter (fun i => decide (i.weight > weight_a ∧
        i.channel.network_version ≥ opt_version_min_a.getD n.protocol_version_min))).take
          count_a ∧
    (rep_crawler.representatives n c count_a weight_a opt_version_min_a).length ≤ count_a ∧
    (∀ r ∈ rep_crawler.representatives n c count_a weight_a opt_version_min_a,
      r ∈ c.probable_reps ∧ r.weight > weight_a ∧
        r.channel.network_version ≥ opt_version_min_a.getD n.protocol_version_min) ∧
    (rep_crawler.representatives n c count_a weight_a opt_version_min_a).Pairwise
      (fun a b => b.weight ≤ a.weight) ∧
    (∀ r ∈ c.probable_reps, r.weight > weight_a →
      r.channel.network_version ≥ opt_version_min_a.getD n.protocol_version_min →
      r ∉ rep_crawler.representatives n c count_a weight_a opt_version_min_a →
      (rep_crawler.representatives n c count_a weight_a opt_version_min_a).length = count_a ∧
        ∀ x ∈ rep_crawler.representatives n c count_a weight_a opt_version_min_a,
          r.weight ≤ x.weight) ∧
    rep_crawler.principal_representatives n c count_a opt_version_min_a =
      rep_crawler.representatives n c count_a n.minimum_principal_weight opt_version_min_a := by
  have heq : rep_crawler.representatives n c count_a weight_a opt_version_min_a =
      ((index_by_weight c.probable_reps).filter (fun i => decide (i.weight > weight_a ∧
        i.channel.network_version ≥ opt_version_min_a.getD n.protocol_version_min))).take
          count_a := by
    unfold rep_crawler.representatives
    simp only
    rw [representatives_loop_eq _ _ _ _ [] (Nat.zero_le _)]
    simp
  have hsorted : ((index_by_weight c.probable_reps).filter (fun i => decide (i.weight > weight_a ∧
      i.channel.network_version ≥ opt_version_min_a.getD n.protocol_version_min))).Pairwise
        (fun a b => b.weight ≤ a.weight) :=
    (index_by_weight_sorted c.probable_reps).sublist (List.filter_sublist _)
  rw [heq]
  refine ⟨rfl, ?_, ?_, ?_, ?_, rfl⟩
  · rw [List.length_take]
    exact Nat.min_le_left _ _
  · intro r hr
    have hmem := List.mem_of_mem_take hr
    rw [List.mem_filter] at hmem
    exact ⟨(index_by_weight_perm c.probable_reps).mem_iff.mp hmem.1, by simpa using hmem.2⟩
  · exact hsorted.sublist (List.take_sublist _ _)
  · intro r hr hw hv hout
    have hin : r ∈ (index_by_weight c.probable_reps).filter (fun i => decide (i.weight > weight_a ∧
        i.channel.network_version ≥ opt_version_min_a.getD n.protocol_version_min)) := by
      rw [List.mem_filter]
      exact ⟨(index_by_weight_perm c.probable_reps).mem_iff.mpr hr, by simpa using ⟨hw, hv⟩⟩
    rw [← List.take_append_drop count_a ((index_by_weight c.probable_reps).filter _)] at hin hsorted
    have hdrop := (List.mem_append.mp hin).resolve_left hout
    constructor
    · rw [List.length_take]
      have hpos : 0 < (((index_by_weight c.probable_reps).filter (fun i =>
          decide (i.weight > weight_a ∧ i.channel.network_version ≥
            opt_version_min_a.getD n.protocol_version_min))).drop count_a).length :=
        List.length_pos_of_mem hdrop
      rw [List.length_drop] at hpos
      omega
    · intro x hx
      exact (List.pairwise_append.mp hsorted).2.2 x hx r hdrop

/-- An instance of `representatives_are_first_qualifying`: of the records of
weight 400, 900, 0 and 650 the two heaviest above weight 100 are returned, and
the record of weight 400, which qualifies too, is left out. -/
theorem representatives_are_first_qualifying_witness :
    (rep_crawler.representatives example_crawler_node four_rep_crawler 2 100 none).map
        (fun r => (r.account, r.weight)) = [(8, 900), (4, 650)] ∧
    (rep_crawler.representatives example_crawler_node four_rep_crawler 2 100 none).length = 2 ∧
    ∀ x ∈ rep_crawler.representatives example_crawler_node four_rep_crawler 2 100 none,
      400 ≤ x.weight :=
  ⟨by decide,
    (representatives_are_first_qualifying example_crawler_node four_rep_crawler 2 100
      none).2.2.2.2.1
      { account := 6, weight := 400, channel := example_tcp_channel,
        last_request := 10, last_response := 20 }
      (by decide) (by decide) (by decide) (by decide)⟩

/-- The first loop of `cleanup_reps`: the channels of the visited records with
a specified address are collected in order, and of the container the records
remain that either were not visited or have a specified address. -/
theorem cleanup_closed_eq (index : List representative) :
    ∀ (channels : List channel) (reps : List representative),
      rep_crawler.cleanup_closed index (channels, reps) =
        (channels ++ (index.filter
            (fun r => decide (r.channel.tcp_endpoint.address ≠ 0))).map (fun r => r.channel),
          reps.filter (fun x => decide (x ∈ index → x.channel.tcp_endpoint.address ≠ 0))) := by
  induction index with
  | nil => intro channels reps; simp [rep_crawler.cleanup_closed]
  | cons r rest ih =>
    intro channels reps
    rw [rep_crawler.cleanup_closed]
    by_cases hopen : r.channel.tcp_endpoint.address ≠ 0
    · rw [if_pos hopen, ih, List.filter_cons_of_pos (by simpa using hopen)]
      refine Prod.ext (by simp) ?_
      apply List.filter_congr
      intro x _
      by_cases hx : x = r
      · subst hx
        simp [hopen]
      · simp [hx]
    · rw [if_neg hopen, ih, List.filter_cons_of_neg (by simpa using hopen)]
      refine Prod.ext rfl ?_
      simp only [probable_reps_erase, List.filter_filter]
      apply List.filter_congr
      intro x _
      by_cases hx : x = r
      · subst hx
        simpa using hopen
      · simp [hx]

/-- The second loop of `cleanup_reps`: of the container the records remain
whose channel either was not collected or passes the `equal` test. -/
theorem cleanup_inactive_eq (n : crawler_node) (channels : List channel) :
    ∀ reps : List representative,
      channels.foldl
          (fun reps i =>
            if !rep_crawler.cleanup_equal n i then probable_reps_erase_channel reps i else reps)
          reps =
        reps.filter (fun x => decide (x.channel ∈ channels →
          rep_crawler.cleanup_equal n x.channel = true)) := by
  induction channels with
  | nil => intro reps; simp
  | cons i rest ih =>
    intro reps
    rw [List.foldl_cons, ih]
    by_cases heq : rep_crawler.cleanup_equal n i = true
    · simp only [heq, Bool.not_true, Bool.false_eq_true, if_false]
      apply List.filter_congr
      intro x _
      by_cases hx : x.channel = i
      · simp [hx, heq]
      · simp [hx]
    · have hf : rep_crawler.cleanup_equal n i = false := by simpa using heq
      simp only [hf, Bool.not_false, if_true, probable_reps_erase_channel, List.filter_filter]
      apply List.filter_congr
      intro x _
      by_cases hx : x.channel = i
      · simp [hx, hf]
      · simp [hx]

/-- C22: after `cleanup_reps` the container holds, in their order and
unchanged, exactly the records whose channel has a tcp endpoint with a
specified address and is the channel registered for its endpoint in the peer
table of its own type: for a tcp channel the one `tcp_channels.find_channel`
gives for its tcp endpoint, for a udp channel the one `udp_channels.channel`
gives for its endpoint.  A record on a channel of any other type is removed.
The set of active hashes and the queue of responses stay as they were. -/
theorem cleanup_reps_keeps_live_channels (n : crawler_node) (c : rep_crawler) :
    (rep_crawler.cleanup_reps n c).probable_reps =
      c.probable_reps.filter (fun r =>
        decide (r.channel.tcp_endpoint.address ≠ 0 ∧
          ((r.channel.type = transport_type.tcp ∧
              n.tcp_find_channel r.channel.tcp_endpoint = some r.channel) ∨
           (r.channel.type = transport_type.udp ∧
              n.udp_channel r.channel.endpoint = some r.channel)))) ∧
    (∀ r, r ∈ (rep_crawler.cleanup_reps n c).probable_reps ↔
      r ∈ c.probable_reps ∧ r.channel.tcp_endpoint.address ≠ 0 ∧
        ((r.channel.type = transport_type.tcp ∧
            n.tcp_find_channel r.channel.tcp_endpoint = some r.channel) ∨
         (r.channel.type = transport_type.udp ∧
            n.udp_channel r.channel.endpoint = some r.channel))) ∧
    (rep_crawler.cleanup_reps n c).probable_reps.Sublist c.probable_reps ∧
    (rep_crawler.cleanup_reps n c).active = c.active ∧
    (rep_crawler.cleanup_reps n c).responses = c.responses := by
  have hequal : ∀ i : channel, rep_crawler.cleanup_equal n i = true ↔
      ((i.type = transport_type.tcp ∧ n.tcp_find_channel i.tcp_endpoint = some i) ∨
       (i.type = transport_type.udp ∧ n.udp_channel i.endpoint = some i)) := by
    intro i
    unfold rep_crawler.cleanup_equal
    by_cases htcp : i.type = transport_type.tcp
    · rw [if_pos htcp]
      cases hfind : n.tcp_find_channel i.tcp_endpoint with
      | none => simp [htcp]
      | some found => simp [htcp]
    · rw [if_neg htcp]
      by_cases hudp : i.type = transport_type.udp
      · rw [if_pos hudp]
        cases hfind : n.udp_channel i.endpoint with
        | none => simp [hudp]
        | some found => simp [hudp]
      · rw [if_neg hudp]
        simp [htcp, hudp]
  have hreps : (rep_crawler.cleanup_reps n c).probable_reps =
      c.probable_reps.filter (fun r =>
        decide (r.channel.tcp_endpoint.address ≠ 0 ∧
          ((r.channel.type = transport_type.tcp ∧
              n.tcp_find_channel r.channel.tcp_endpoint = some r.channel) ∨
           (r.channel.type = transport_type.udp ∧
              n.udp_channel r.channel.endpoint = some r.channel)))) := by
    unfold rep_crawler.cleanup_reps
    simp only [cleanup_closed_eq, cleanup_inactive_eq, List.nil_append, List.filter_filter]
    apply List.filter_congr
    intro x hx
    have hidx : x ∈ index_by_last_request c.probable_reps :=
      (index_by_last_request_perm c.probable_reps).mem_iff.mpr hx
    rw [Bool.eq_iff_iff]
    simp only [Bool.and_eq_true, decide_eq_true_eq]
    constructor
    · rintro ⟨hlive, hopen⟩
      have hcollected : x.channel ∈ ((index_by_last_request c.probable_reps).filter
          (fun r => decide (r.channel.tcp_endpoint.address ≠ 0))).map (fun r => r.channel) :=
        List.mem_map.mpr ⟨x, List.mem_filter.mpr ⟨hidx, by simpa using hopen hidx⟩, rfl⟩
      exact ⟨hopen hidx, (hequal x.channel).mp (hlive hcollected)⟩
    · rintro ⟨hopen, hlive⟩
      exact ⟨fun _ => (hequal x.channel).mpr hlive, fun _ => hopen⟩
  refine ⟨hreps, ?_, ?_, rfl, rfl⟩
  · intro r
    rw [hreps, List.mem_filter]
    simp
  · rw [hreps]
    exact List.filter_sublist _

/-- An evaluation of `cleanup_reps`: with `example_tcp_channel` the only
channel of the tcp peer table, the records of the accounts 6 and 9, which are
on that channel, are kept as they are and the two records on
`other_tcp_channel` are removed. -/
theorem cleanup_reps_example :
    (rep_crawler.cleanup_reps live_crawler_node four_rep_crawler).probable_reps =
      [{ account := 6, weight := 400, channel := example_tcp_channel,
         last_request := 10, last_response := 20 },
       { account := 9, weight := 0, channel := example_tcp_channel,
         last_request := 7, last_response := 0 }] := by
  decide

/-! ## Claims on the frontier exchange as a whole -/

/-- A property of the client state that `unsynced`, `next`, the bookkeeping at
the head of `received_frontier`, the recording of a pull, the scheduling of a
read and the setting of the promise all preserve is preserved by the loop over
the smaller local accounts. -/
theorem skip_local_preserves (n : node) (lim : bootstrap_limits)
    (I : frontier_req_client → Prop)
    (hU : ∀ s head end_, I s → I (frontier_req_client.unsynced lim s head end_))
    (hN : ∀ s, I s → I (frontier_req_client.next n s)) (account fuel : Nat) :
    ∀ s s' : frontier_req_client, I s →
      frontier_req_client.skip_local n lim account fuel s = some s' → I s' := by
  induction fuel with
  | zero =>
    intro s s' hs hrun
    rw [frontier_req_client.skip_local] at hrun
    split at hrun
    · exact absurd hrun (by simp)
    · simp only [Option.some.injEq] at hrun
      exact hrun ▸ hs
  | succ fuel ih =>
    intro s s' hs hrun
    rw [frontier_req_client.skip_local] at hrun
    split at hrun
    · exact ih _ s' (hN _ (hU s s.frontier 0 hs)) hrun
    · simp only [Option.some.injEq] at hrun
      exact hrun ▸ hs

theorem drain_local_preserves (n : node) (lim : bootstrap_limits)
    (I : frontier_req_client → Prop)
    (hU : ∀ s head end_, I s → I (frontier_req_client.unsynced lim s head end_))
    (hN : ∀ s, I s → I (frontier_req_client.next n s)) (fuel : Nat) :
    ∀ s s' : frontier_req_client, I s →
      frontier_req_client.drain_local n lim fuel s = some s' → I s' := by
  induction fuel with
  | zero =>
    intro s s' hs hrun
    rw [frontier_req_client.drain_local] at hrun
    split at hrun
    · exact absurd hrun (by simp)
    · simp only [Option.some.injEq] at hrun
      exact hrun ▸ hs
  | succ fuel ih =>
    intro s s' hs hrun
    rw [frontier_req_client.drain_local] at hrun
    split at hrun
    · exact ih _ s' (hN _ (hU s s.frontier 0 hs)) hrun
    · simp only [Option.some.injEq] at hrun
      exact hrun ▸ hs

/-- A property preserved by every step of `received_frontier` holds after the
call when it held before. -/
theorem received_frontier_preserves (n : node) (lim : bootstrap_limits)
    (I : frontier_req_client → Prop)
    (hU : ∀ s head end_, I s → I (frontier_req_client.unsynced lim s head end_))
    (hN : ∀ s, I s → I (frontier_req_client.next n s))
    (hC : ∀ s now_first, I s → I (frontier_req_client.counted s now_first))
    (hA : ∀ s pull, I s → I (frontier_req_client.add_frontier s pull))
    (hB : ∀ s : frontier_req_client, I s → I { s with bulk_push_cost := s.bulk_push_cost + 5 })
    (hR : ∀ s, I s → I (frontier_req_client.receive_frontier s))
    (hP : ∀ (s : frontier_req_client) promise pooled, I s →
      I { s with promise := promise, pooled := pooled })
    (fuel : Nat) (s s' : frontier_req_client) (ec : Bool) (receive_buffer : List Nat)
    (now_first now : ℚ) (hs : I s)
    (hrun : frontier_req_client.received_frontier n lim fuel s ec receive_buffer now_first now =
      some s') : I s' := by
  cases ec with
  | true =>
    have : frontier_req_client.received_frontier n lim fuel s true receive_buffer now_first now =
        some s := rfl
    rw [this] at hrun
    simp only [Option.some.injEq] at hrun
    exact hrun ▸ hs
  | false =>
    have hs0 := hC s now_first hs
    rw [received_frontier_unfold] at hrun
    split at hrun
    · simp only [Option.some.injEq] at hrun
      rw [← hrun]
      exact hP _ _ (frontier_req_client.counted s now_first).pooled hs0
    · split at hrun
      · cases hskip : frontier_req_client.skip_local n lim (read_frontier receive_buffer).1 fuel
            (frontier_req_client.counted s now_first) with
        | none => rw [hskip] at hrun; exact absurd hrun (by simp)
        | some t =>
          rw [hskip] at hrun
          have ht := skip_local_preserves n lim I hU hN _ fuel _ t hs0 hskip
          simp only [Option.some.injEq] at hrun
          rw [← hrun]
          apply hR
          by_cases hz : t.current ≠ 0
          · rw [if_pos hz]
            by_cases heq : (read_frontier receive_buffer).1 = t.current
            · rw [if_pos heq]
              apply hN
              by_cases hsync : (read_frontier receive_buffer).2 = t.frontier
              · rw [if_pos hsync]
                exact ht
              · rw [if_neg hsync]
                cases hex : n.block_or_pruned_exists (read_frontier receive_buffer).2
                · simp only [Bool.false_eq_true, if_false]
                  exact hB _ (hA t _ ht)
                · simp only [if_true]
                  exact hU t _ _ ht
            · rw [if_neg heq]
              exact hA t _ ht
          · rw [if_neg hz]
            exact hA t _ ht
      · cases hdrain : frontier_req_client.drain_local n lim fuel
            (frontier_req_client.counted s now_first) with
        | none => rw [hdrain] at hrun; exact absurd hrun (by simp)
        | some t =>
          rw [hdrain] at hrun
          have ht := drain_local_preserves n lim I hU hN fuel _ t hs0 hdrain
          simp only [Option.some.injEq] at hrun
          rw [← hrun]
          exact hP t _ true ht

/-- A property preserved by every step of `received_frontier` holds after any
sequence of calls when it held before. -/
theorem receive_all_preserves (n : node) (lim : bootstrap_limits)
    (I : frontier_req_client → Prop)
    (hU : ∀ s head end_, I s → I (frontier_req_client.unsynced lim s head end_))
    (hN : ∀ s, I s → I (frontier_req_client.next n s))
    (hC : ∀ s now_first, I s → I (frontier_req_client.counted s now_first))
    (hA : ∀ s pull, I s → I (frontier_req_client.add_frontier s pull))
    (hB : ∀ s : frontier_req_client, I s → I { s with bulk_push_cost := s.bulk_push_cost + 5 })
    (hR : ∀ s, I s → I (frontier_req_client.receive_frontier s))
    (hP : ∀ (s : frontier_req_client) promise pooled, I s →
      I { s with promise := promise, pooled := pooled })
    (fuel : Nat) (events : List frontier_event) :
    ∀ s s' : frontier_req_client, I s →
      frontier_req_client.receive_all n lim fuel events s = some s' → I s' := by
  induction events with
  | nil =>
    intro s s' hs hrun
    rw [frontier_req_client.receive_all] at hrun
    simp only [Option.some.injEq] at hrun
    exact hrun ▸ hs
  | cons e rest ih =>
    intro s s' hs hrun
    rw [frontier_req_client.receive_all] at hrun
    cases hstep : frontier_req_client.received_frontier n lim fuel s e.ec e.receive_buffer
        e.now_first e.now with
    | none => rw [hstep] at hrun; exact absurd hrun (by simp)
    | some t =>
      rw [hstep] at hrun
      exact ih t s' (received_frontier_preserves n lim I hU hN hC hA hB hR hP fuel s t _ _ _ _
        hs hstep) hrun

/-- A refill of the server's deque takes at most 128 account pairs from the
table, whatever the table and the cursor. -/
theorem server_refill_bounded (request : frontier_req) (now : Nat) (range : account_store) :
    (frontier_req_server.fill request now range []).length ≤ 128 := by
  rw [server_fill_eq request now range [] (Nat.zero_le _), List.nil_append, List.length_take]
  exact Nat.min_le_left _ _

/-- Over a well-formed table that does not hold the account `2 ^ 256 - 1` and
whose heads are 256-bit values, the pairs the stream of the server decodes to
are those of the unbatched scan followed by the terminator. -/
theorem server_stream_is_unbatched_scan (n : node) (request : frontier_req)
    (hwf : well_formed n.store) (hnw : ∀ e ∈ n.store, e.1 + 1 < uint256_modulus)
    (hheads : ∀ e ∈ n.store, e.2.head < uint256_modulus)
    (hstart : request.start < uint256_modulus) :
    decode_stream (frontier_req_server.serve n request) =
      frontier_req_server.unbatched_scan n request ++ [(0, 0)] := by
  rw [server_serve_eq n request hwf hnw hstart]
  unfold decode_stream frontier_req_server.unbatched_scan
  rw [List.map_append, List.map_map, List.map_singleton, read_finished_buffer]
  congr 1
  conv_rhs => rw [← List.map_id ((frontier_req_server.eligible n request).take request.count)]
  apply List.map_congr_left
  intro p hp
  have hmem := List.mem_of_mem_take hp
  unfold frontier_req_server.eligible at hmem
  obtain ⟨e, he, rfl⟩ := List.mem_map.mp hmem
  have hstore := (List.mem_filter.mp he).1
  simp only [Function.comp_apply, account_pair, id]
  exact read_frontier_buffer e.1 e.2.head (by have := hnw e hstore; omega) (hheads e hstore)

set_option maxRecDepth 100000 in
/-- C26, code bug: over the well-formed table `top_store` of 128 accounts, the
last one `2 ^ 256 - 1`, a request from account 1 for 129 pairs without age
filter is answered with the 128 pairs of the unbatched scan and then the pair
of the first account once more: the refill after the full first batch starts
at `(2 ^ 256 - 1) + 1 = 0`.  The stream is not the unbatched scan followed by
the terminator.  Right after construction the cursor is on the first pair of
the scan. -/
theorem frontier_server_batching_repeats_first_account :
    well_formed top_store ∧
    frontier_req_server.unbatched_scan top_node { start := 1, age := uint32_max, count := 129 } =
      top_store.map account_pair ∧
    (frontier_req_server.unbatched_scan top_node
      { start := 1, age := uint32_max, count := 129 }).length = 128 ∧
    decode_stream (frontier_req_server.serve top_node
      { start := 1, age := uint32_max, count := 129 }) =
        frontier_req_server.unbatched_scan top_node
          { start := 1, age := uint32_max, count := 129 } ++ [(2 ^ 256 - 128, 1), (0, 0)] ∧
    decode_stream (frontier_req_server.serve top_node
      { start := 1, age := uint32_max, count := 129 }) ≠
        frontier_req_server.unbatched_scan top_node
          { start := 1, age := uint32_max, count := 129 } ++ [(0, 0)] ∧
    ((frontier_req_server.create top_node
        { start := 1, age := uint32_max, count := 129 }).current,
      (frontier_req_server.create top_node
        { start := 1, age := uint32_max, count := 129 }).frontier) = (2 ^ 256 - 128, 1) := by
  unfold well_formed
  decide

/-- With the cursor at zero a call of `received_frontier` returns whatever the
fuel, does not call `next ()` or `unsynced`, and records at most one pull. -/
theorem received_frontier_exhausted (n : node) (lim : bootstrap_limits) (fuel : Nat)
    (s : frontier_req_client) (ec : Bool) (receive_buffer : List Nat) (now_first now : ℚ)
    (hz : s.current = 0) :
    ∃ s', frontier_req_client.received_frontier n lim fuel s ec receive_buffer now_first now =
        some s' ∧
      s'.current = 0 ∧ s'.frontier = s.frontier ∧ s'.accounts = s.accounts ∧
      s'.bulk_push_targets = s.bulk_push_targets ∧ s'.offered = s.offered ∧
      s'.bulk_push_cost = s.bulk_push_cost ∧ s'.incremental_id = s.incremental_id := by
  obtain ⟨hc, hf, hacc, _, hcost, _, _, hid, _, htargets, _, _, hoff⟩ :=
    client_counted_frame s now_first
  cases ec with
  | true => exact ⟨s, rfl, hz, rfl, rfl, rfl, rfl, rfl, rfl⟩
  | false =>
    have hc0 : (frontier_req_client.counted s now_first).current = 0 := by rw [hc]; exact hz
    rw [received_frontier_unfold]
    split
    · exact ⟨_, rfl, hc0, hf, hacc, htargets, hoff, hcost, hid⟩
    · split
      · rw [skip_local_of_not_below n lim _ fuel _ (by simp [hc0])]
        simp only [hc0, ne_eq, not_true_eq_false, if_false]
        exact ⟨_, rfl, hc0, hf, hacc, htargets, hoff, hcost, hid⟩
      · rw [drain_local_of_zero n lim fuel _ hc0]
        exact ⟨_, rfl, hc0, hf, hacc, htargets, hoff, hcost, hid⟩

/-- C27: once the cursor of the client is zero, every later sequence of calls
of `received_frontier` returns (whatever the fuel) and leaves the cursor at
zero; `next ()` and `unsynced` are not called, so frontier, deque, push
targets, offered entries and `bulk_push_cost` stay as they were.  A pair
`(A, H)` with `A != 0` that then arrives without error and passes the
slow-stream guard yields exactly one more pull descriptor, with account `A`,
head `H` and a zero end, and no push target. -/
theorem frontier_client_exhausted_cursor_stays (n : node) (lim : bootstrap_limits) (fuel : Nat)
    (events : List frontier_event) (s : frontier_req_client) (hz : s.current = 0) :
    ∃ s', frontier_req_client.receive_all n lim fuel events s = some s' ∧
      s'.current = 0 ∧ s'.frontier = s.frontier ∧ s'.accounts = s.accounts ∧
      s'.bulk_push_targets = s.bulk_push_targets ∧ s'.offered = s.offered ∧
      s'.bulk_push_cost = s.bulk_push_cost ∧
      ∀ (A H : Nat) (now_first now : ℚ), A < uint256_modulus → H < uint256_modulus → A ≠ 0 →
        frontier_req_client.guard_passes lim s' now_first now →
        ∃ s'', frontier_req_client.received_frontier n lim fuel s' false (frontier_buffer A H)
            now_first now = some s'' ∧
          s''.pulls = s'.pulls ++
            [{ account_or_head := A, head := H, end_ := 0, bootstrap_id := s.incremental_id,
               count := 0, retry_limit := n.frontier_retry_limit }] ∧
          s''.bulk_push_targets = s'.bulk_push_targets ∧ s''.offered = s'.offered ∧
          s''.bulk_push_cost = s'.bulk_push_cost ∧
          s''.current = 0 ∧ s''.frontier = s'.frontier ∧ s''.accounts = s'.accounts := by
  have hrun : ∀ (events : List frontier_event) (s : frontier_req_client), s.current = 0 →
      ∃ s', frontier_req_client.receive_all n lim fuel events s = some s' ∧
        s'.current = 0 ∧ s'.frontier = s.frontier ∧ s'.accounts = s.accounts ∧
        s'.bulk_push_targets = s.bulk_push_targets ∧ s'.offered = s.offered ∧
        s'.bulk_push_cost = s.bulk_push_cost ∧ s'.incremental_id = s.incremental_id := by
    intro events
    induction events with
    | nil => intro s hz; exact ⟨s, rfl, hz, rfl, rfl, rfl, rfl, rfl, rfl⟩
    | cons e rest ih =>
      intro s hz
      obtain ⟨t, ht, hc, hf, hacc, htar, hoff, hcost, hid⟩ :=
        received_frontier_exhausted n lim fuel s e.ec e.receive_buffer e.now_first e.now hz
      obtain ⟨s', hs', hc', hf', hacc', htar', hoff', hcost', hid'⟩ := ih t hc
      refine ⟨s', ?_, hc', hf'.trans hf, hacc'.trans hacc, htar'.trans htar, hoff'.trans hoff,
        hcost'.trans hcost, hid'.trans hid⟩
      rw [frontier_req_client.receive_all, ht]
      exact hs'
  obtain ⟨s', hs', hc, hf, hacc, htar, hoff, hcost, hid⟩ := hrun events s hz
  refine ⟨s', hs', hc, hf, hacc, htar, hoff, hcost, ?_⟩
  intro A H now_first now hA hH hnz hguard
  obtain ⟨hc0, hf0, hacc0, _, hcost0, _, _, hid0, hpulls0, htar0, _, _, hoff0⟩ :=
    client_counted_frame s' now_first
  have hzero : (frontier_req_client.counted s' now_first).current = 0 := by rw [hc0]; exact hc
  rw [received_frontier_pair n lim fuel s' A H now_first now hA hH hguard, if_pos hnz,
    skip_local_of_not_below n lim A fuel _ (by simp [hzero])]
  simp only [hzero, ne_eq, not_true_eq_false, if_false]
  refine ⟨_, rfl, ?_⟩
  simp [frontier_req_client.receive_frontier, frontier_req_client.add_frontier, hzero, hf0,
    hacc0, hcost0, hid0, hpulls0, htar0, hoff0, hid]

/-- An instance of `frontier_client_exhausted_cursor_stays`: the client of
`two_account_node` whose cursor has passed both local accounts receives a pair
in error and then the pair `(9, 90)`, which becomes its only pull. -/
theorem frontier_client_exhausted_cursor_stays_witness :
    exhausted_client.current = 0 ∧
    frontier_req_client.receive_all two_account_node example_limits 0
        [{ ec := true, receive_buffer := frontier_buffer 8 80, now_first := 0, now := 0 }]
        exhausted_client = some exhausted_client ∧
    ∃ s'', frontier_req_client.received_frontier two_account_node example_limits 0
        exhausted_client false (frontier_buffer 9 90) 0 0 = some s'' ∧
      s''.pulls =
        [{ account_or_head := 9, head := 90, end_ := 0, bootstrap_id := 9, count := 0,
           retry_limit := 16 }] ∧
      s''.bulk_push_targets = [] ∧ s''.offered = [] ∧ s''.current = 0 := by
  obtain ⟨s', hs', _, _, _, _, _, _, hpair⟩ :=
    frontier_client_exhausted_cursor_stays two_account_node example_limits 0
      [{ ec := true, receive_buffer := frontier_buffer 8 80, now_first := 0, now := 0 }]
      exhausted_client rfl
  have hsame : frontier_req_client.receive_all two_account_node example_limits 0
      [{ ec := true, receive_buffer := frontier_buffer 8 80, now_first := 0, now := 0 }]
      exhausted_client = some exhausted_client := rfl
  have hs : s' = exhausted_client := Option.some.inj (hs'.symm.trans hsame)
  subst hs
  obtain ⟨s'', hrun, hpulls, htargets, hoffered, _, hcurrent, _, _⟩ :=
    hpair 9 90 0 0 (by decide) (by decide) (by decide)
      (by norm_num [frontier_req_client.guard_passes, frontier_req_client.too_slow,
        frontier_req_client.counted, exhausted_client, example_limits])
  exact ⟨rfl, hsame, s'', hrun, hpulls, htargets, hoffered, hcurrent⟩

/-- C28: `unsynced (head, end)` records `(head, end)` as a push target if and
only if `bulk_push_cost < bulk_push_cost_limit` and the request was made with
`frontiers_age == MAX`; it then raises the cost by 2 for a zero `end` and by 1
otherwise, and in the other case it changes nothing of the client (the call is
only noted in the ghost list `offered`).  So nothing is recorded when the cost
equals the limit.  Through any sequence of received pairs after construction
and `run (frontiers_age)`, the number of push targets recorded is at most
`bulk_push_cost_limit`, and none is recorded when `frontiers_age` is not the
maximum. -/
theorem unsynced_gate_bounds_targets (n : node) (lim : bootstrap_limits) (fuel : Nat)
    (incremental_id frontiers_age_a : Nat) (events : List frontier_event)
    (s' : frontier_req_client)
    (hrun : frontier_req_client.receive_all n lim fuel events
      (frontier_req_client.run (frontier_req_client.create n incremental_id)
        frontiers_age_a).1 = some s') :
    (∀ (t : frontier_req_client) (head end_ : Nat),
      ((frontier_req_client.unsynced lim t head end_).bulk_push_targets =
          t.bulk_push_targets ++ [(head, end_)] ↔
        (t.bulk_push_cost < lim.bulk_push_cost_limit ∧ t.frontiers_age = uint32_max)) ∧
      (t.bulk_push_cost < lim.bulk_push_cost_limit ∧ t.frontiers_age = uint32_max →
        (frontier_req_client.unsynced lim t head end_).bulk_push_cost =
          t.bulk_push_cost + (if end_ = 0 then 2 else 1)) ∧
      (¬ (t.bulk_push_cost < lim.bulk_push_cost_limit ∧ t.frontiers_age = uint32_max) →
        frontier_req_client.unsynced lim t head end_ =
          { t with offered := t.offered ++ [(head, end_)] }) ∧
      (t.bulk_push_cost = lim.bulk_push_cost_limit →
        (frontier_req_client.unsynced lim t head end_).bulk_push_targets =
            t.bulk_push_targets ∧
          (frontier_req_client.unsynced lim t head end_).bulk_push_cost = t.bulk_push_cost)) ∧
    s'.bulk_push_targets.length ≤ lim.bulk_push_cost_limit ∧
    (frontiers_age_a ≠ uint32_max → s'.bulk_push_targets = []) := by
  constructor
  · intro t head end_
    unfold frontier_req_client.unsynced
    simp only
    by_cases hgate : t.bulk_push_cost < lim.bulk_push_cost_limit ∧ t.frontiers_age = uint32_max
    · rw [if_pos hgate]
      refine ⟨?_, ?_, fun h => absurd hgate h, fun h => by omega⟩
      · by_cases hz : end_ = 0 <;> simp [hz, hgate]
      · intro _
        by_cases hz : end_ = 0 <;> simp [hz]
    · rw [if_neg hgate]
      refine ⟨?_, fun h => absurd h hgate, fun _ => rfl, fun _ => ⟨rfl, rfl⟩⟩
      simp [hgate]
  · have hinv := receive_all_preserves n lim
      (fun s => s.bulk_push_targets.length ≤ s.bulk_push_cost ∧
        s.bulk_push_targets.length ≤ lim.bulk_push_cost_limit ∧
        s.frontiers_age = frontiers_age_a ∧
        (frontiers_age_a ≠ uint32_max → s.bulk_push_targets = []))
      (by
        intro s head end_ ⟨h1, h2, h3, h4⟩
        unfold frontier_req_client.unsynced
        simp only
        by_cases hgate : s.bulk_push_cost < lim.bulk_push_cost_limit ∧
            s.frontiers_age = uint32_max
        · rw [if_pos hgate]
          have hage : frontiers_age_a = uint32_max := h3 ▸ hgate.2
          by_cases hz : end_ = 0
          · simp only [hz, if_true, List.length_append, List.length_singleton]
            exact ⟨by omega, by omega, h3, fun h => absurd hage h⟩
          · simp only [hz, if_false, List.length_append, List.length_singleton]
            exact ⟨by omega, by omega, h3, fun h => absurd hage h⟩
        · rw [if_neg hgate]
          exact ⟨h1, h2, h3, h4⟩)
      (by
        intro s ⟨h1, h2, h3, h4⟩
        obtain ⟨_, hc, ha, _, _, _, _, ht, _⟩ := client_next_frame n s
        simp only [hc, ha, ht]
        exact ⟨h1, h2, h3, h4⟩)
      (by
        intro s now_first ⟨h1, h2, h3, h4⟩
        obtain ⟨_, _, _, _, hc, ha, _, _, _, ht, _⟩ := client_counted_frame s now_first
        simp only [hc, ha, ht]
        exact ⟨h1, h2, h3, h4⟩)
      (by intro s pull h; exact h)
      (by
        intro s ⟨h1, h2, h3, h4⟩
        exact ⟨by show s.bulk_push_targets.length ≤ s.bulk_push_cost + 5; omega, h2, h3, h4⟩)
      (by intro s h; exact h)
      (by intro s promise pooled h; exact h)
      fuel events _ s'
      (by
        obtain ⟨_, hc, _, _, _, _, _, ht, _⟩ := client_next_frame n
          { current := 0, frontier := 0, count := 0, bulk_push_cost := 0,
            frontiers_age := uint32_max, accounts := [], start_time := 0, promise := none,
            incremental_id := incremental_id, pulls := [], bulk_push_targets := [],
            pooled := false, reads := 0, offered := [] }
        have htargets : (frontier_req_client.create n incremental_id).bulk_push_targets = [] := ht
        have hcost : (frontier_req_client.create n incremental_id).bulk_push_cost = 0 := hc
        simp only [frontier_req_client.run, frontier_req_client.receive_frontier, htargets,
          hcost, List.length_nil]
        exact ⟨le_refl _, Nat.zero_le _, trivial, fun _ => trivial⟩)
      hrun
    exact ⟨hinv.2.1, hinv.2.2.2⟩

/-- An instance of `unsynced_gate_bounds_targets`: a client over the accounts 3
and 7, run without age filter under a limit of 200, receives the terminator as
its first pair and records both local accounts as push targets. -/
theorem unsynced_gate_bounds_targets_witness :
    frontier_req_client.receive_all two_account_node example_limits 2
        [{ ec := false, receive_buffer := frontier_buffer 0 0, now_first := 0, now := 0 }]
        (frontier_req_client.run (frontier_req_client.create two_account_node 9)
          uint32_max).1 = some drained_client ∧
    drained_client.bulk_push_targets = [(30, 0), (70, 0)] ∧
    drained_client.bulk_push_targets.length ≤ example_limits.bulk_push_cost_limit :=
  have hrun : frontier_req_client.receive_all two_account_node example_limits 2
      [{ ec := false, receive_buffer := frontier_buffer 0 0, now_first := 0, now := 0 }]
      (frontier_req_client.run (frontier_req_client.create two_account_node 9)
        uint32_max).1 = some drained_client := by
    have hstart : (frontier_req_client.run (frontier_req_client.create two_account_node 9)
        uint32_max).1 = fresh_client uint32_max := rfl
    rw [hstart]
    simp only [frontier_req_client.receive_all]
    rw [received_frontier_pair _ _ _ _ _ _ _ _ (by decide) (by decide)
      (by norm_num [frontier_req_client.guard_passes, frontier_req_client.too_slow,
        frontier_req_client.counted, fresh_client, example_limits])]
    decide
  ⟨hrun, rfl,
    (unsynced_gate_bounds_targets two_account_node example_limits 2 9 uint32_max
      [{ ec := false, receive_buffer := frontier_buffer 0 0, now_first := 0, now := 0 }]
      drained_client hrun).2.1⟩

/-! ## The age filter and the count on the outgoing stream -/

/-- In a list of pairs that ascends strictly by account, a member is among the
first `k` pairs if and only if fewer than `k` pairs have a smaller account. -/
theorem mem_take_iff_below_count (l : List (Nat × Nat))
    (hl : l.Pairwise (fun a b => a.1 < b.1)) (p : Nat × Nat) (hp : p ∈ l) (k : Nat) :
    p ∈ l.take k ↔ (l.filter (fun q => decide (q.1 < p.1))).length < k := by
  obtain ⟨pre, post, rfl⟩ := List.append_of_mem hp
  rw [List.pairwise_append] at hl
  obtain ⟨_, htail, hcross⟩ := hl
  rw [List.pairwise_cons] at htail
  have hpre : pre.filter (fun q => decide (q.1 < p.1)) = pre := by
    rw [List.filter_eq_self]
    intro a ha
    simpa using hcross a ha p (List.mem_cons_self _ _)
  have hpost : post.filter (fun q => decide (q.1 < p.1)) = [] := by
    rw [List.filter_eq_nil_iff]
    intro a ha
    have := htail.1 a ha
    simp only [decide_eq_true_eq]
    omega
  rw [List.filter_append, hpre, List.filter_cons_of_neg (by simp), hpost, List.append_nil,
    List.take_append_eq_append_take]
  constructor
  · intro hin
    by_contra hk
    have hzero : k - pre.length = 0 := by omega
    rw [hzero, List.take_zero, List.append_nil] at hin
    have := hcross p (List.mem_of_mem_take hin) p (List.mem_cons_self _ _)
    omega
  · intro hk
    obtain ⟨m, hm⟩ : ∃ m, k - pre.length = m + 1 := ⟨k - pre.length - 1, by omega⟩
    rw [hm, List.take_succ_cons]
    exact List.mem_append_right _ (List.mem_cons_self _ _)

/-- In a well-formed table the pair of an entry at or after `request.start` is
eligible if and only if the entry passes the age test. -/
theorem mem_eligible_iff_age_ok (n : node) (request : frontier_req) (account : Nat)
    (info : account_info) (hwf : well_formed n.store) (hmem : (account, info) ∈ n.store)
    (hge : request.start ≤ account) :
    (account, info.head) ∈ frontier_req_server.eligible n request ↔
      frontier_req_server.age_ok request n.seconds_since_epoch info = true := by
  unfold frontier_req_server.eligible
  constructor
  · intro hin
    obtain ⟨e, he, hpair⟩ := List.mem_map.mp hin
    obtain ⟨hstore, hok⟩ := List.mem_filter.mp he
    have hkey : e.1 = account := congrArg Prod.fst hpair
    have hsame : e = (account, info) := by
      by_contra hne
      have hdistinct : n.store.Pairwise (fun a b => a.1 ≠ b.1) :=
        hwf.1.imp (fun h => ne_of_lt h)
      have hsymm : Symmetric (fun a b : Nat × account_info => a.1 ≠ b.1) :=
        fun _ _ h => h.symm
      exact hdistinct.forall hsymm hstore hmem hne hkey
    rw [hsame] at hok
    simp only [Bool.and_eq_true, decide_eq_true_eq] at hok
    exact hok.2
  · intro hok
    exact List.mem_map.mpr ⟨(account, info),
      List.mem_filter.mpr ⟨hmem, by simp [hge, hok]⟩, rfl⟩

/-- C2, as stated, fails when the count cuts the stream: for a request with
`age == MAX` and `count == 1` over the accounts 3 and 7, account 7 is scanned
by `next` during construction, passes the age test and is put into the deque,
yet it is not in the outgoing stream, which holds the pair of account 3 and
the terminator. -/
theorem frontier_server_count_cuts_passing_account :
    (frontier_req_server.create two_account_node
      { start := 0, age := uint32_max, count := 1 }).accounts = [(7, 70), (0, 0)] ∧
    (({ start := 0, age := uint32_max, count := 1 } : frontier_req).age = uint32_max ∧
      frontier_req_server.age_ok { start := 0, age := uint32_max, count := 1 }
        two_account_node.seconds_since_epoch { head := 70, modified := 0 } = true) ∧
    decode_stream (frontier_req_server.serve two_account_node
      { start := 0, age := uint32_max, count := 1 }) = [(3, 30), (0, 0)] ∧
    frontier_buffer 7 70 ∉ frontier_req_server.serve two_account_node
      { start := 0, age := uint32_max, count := 1 } := by
  decide

/-- C2, amended with the count and away from the account `2 ^ 256 - 1`: over a
well-formed table, for every account of the table at or after `request.start`,
with modification time `modified` and head `head`, the pair of the account is
in the outgoing stream of the server (its buffer is written; the pair is among
those the stream decodes to) if and only if `age == MAX` or
`(now - modified) <= age`, the difference being that of the two `uint64_t`
values, and fewer than `request.count` accounts from `request.start` on that
pass this test come before it.  For a modification time that is not after
`now` the difference is the ordinary one. -/
theorem frontier_server_stream_age_filter (n : node) (request : frontier_req) (account : Nat)
    (info : account_info) (hwf : well_formed n.store)
    (hnw : ∀ e ∈ n.store, e.1 + 1 < uint256_modulus)
    (hheads : ∀ e ∈ n.store, e.2.head < uint256_modulus)
    (hstart : request.start < uint256_modulus) (hmem : (account, info) ∈ n.store)
    (hge : request.start ≤ account) :
    (frontier_buffer account info.head ∈ frontier_req_server.serve n request ↔
      (request.age = uint32_max ∨
        (n.seconds_since_epoch + (uint64_modulus - info.modified % uint64_modulus)) %
          uint64_modulus ≤ request.age) ∧
      ((frontier_req_server.eligible n request).filter
        (fun p => decide (p.1 < account))).length < request.count) ∧
    ((account, info.head) ∈ decode_stream (frontier_req_server.serve n request) ↔
      (request.age = uint32_max ∨
        (n.seconds_since_epoch + (uint64_modulus - info.modified % uint64_modulus)) %
          uint64_modulus ≤ request.age) ∧
      ((frontier_req_server.eligible n request).filter
        (fun p => decide (p.1 < account))).length < request.count) ∧
    (info.modified ≤ n.seconds_since_epoch → n.seconds_since_epoch < uint64_modulus →
      (n.seconds_since_epoch + (uint64_modulus - info.modified % uint64_modulus)) %
        uint64_modulus = n.seconds_since_epoch - info.modified) := by
  have hnz : account ≠ 0 := hwf.2 (account, info) hmem
  have hok : frontier_req_server.age_ok request n.seconds_since_epoch info = true ↔
      (request.age = uint32_max ∨
        (n.seconds_since_epoch + (uint64_modulus - info.modified % uint64_modulus)) %
          uint64_modulus ≤ request.age) := by
    simp [frontier_req_server.age_ok]
  have hscan : (account, info.head) ∈ frontier_req_server.unbatched_scan n request ↔
      (request.age = uint32_max ∨
        (n.seconds_since_epoch + (uint64_modulus - info.modified % uint64_modulus)) %
          uint64_modulus ≤ request.age) ∧
      ((frontier_req_server.eligible n request).filter
        (fun p => decide (p.1 < account))).length < request.count := by
    unfold frontier_req_server.unbatched_scan
    constructor
    · intro hin
      have hel := List.mem_of_mem_take hin
      exact ⟨hok.mp ((mem_eligible_iff_age_ok n request account info hwf hmem hge).mp hel),
        (mem_take_iff_below_count _ (eligible_pairwise n request hwf.1) _ hel _).mp hin⟩
    · rintro ⟨hage, hcount⟩
      have hel := (mem_eligible_iff_age_ok n request account info hwf hmem hge).mpr (hok.mpr hage)
      exact (mem_take_iff_below_count _ (eligible_pairwise n request hwf.1) _ hel _).mpr hcount
  have hdecode : (account, info.head) ∈ decode_stream (frontier_req_server.serve n request) ↔
      (account, info.head) ∈ frontier_req_server.unbatched_scan n request := by
    rw [server_stream_is_unbatched_scan n request hwf hnw hheads hstart, List.mem_append]
    constructor
    · rintro (h | h)
      · exact h
      · simp [hnz] at h
    · exact Or.inl
  have hbuffer : frontier_buffer account info.head ∈ frontier_req_server.serve n request ↔
      (account, info.head) ∈ decode_stream (frontier_req_server.serve n request) := by
    constructor
    · intro hin
      have := List.mem_map_of_mem read_frontier hin
      rw [read_frontier_buffer account info.head (by have := hnw _ hmem; simp only at this; omega)
        (hheads _ hmem)] at this
      exact this
    · intro hin
      have hsc := hdecode.mp hin
      rw [server_serve_eq n request hwf hnw hstart]
      exact List.mem_append_left _
        (List.mem_map.mpr ⟨(account, info.head), hsc, rfl⟩)
  refine ⟨hbuffer.trans (hdecode.trans hscan), hdecode.trans hscan, ?_⟩
  intro hle hnow
  unfold uint64_modulus at hnow ⊢
  norm_num at hnow ⊢
  omega

/-- An instance of `frontier_server_stream_age_filter`: a server at time 100
asked from account 1 on for up to 5 pairs not older than 200 seconds sends the
pair of account 7, which was modified at time 0 and has one eligible account
before it. -/
theorem frontier_server_stream_age_filter_witness :
    frontier_buffer 7 70 ∈ frontier_req_server.serve two_account_node
      { start := 1, age := 200, count := 5 } ∧
    (7, 70) ∈ decode_stream (frontier_req_server.serve two_account_node
      { start := 1, age := 200, count := 5 }) ∧
    ((frontier_req_server.eligible two_account_node
      { start := 1, age := 200, count := 5 }).filter (fun p => decide (p.1 < 7))).length = 1 :=
  ⟨(frontier_server_stream_age_filter two_account_node { start := 1, age := 200, count := 5 } 7
      { head := 70, modified := 0 } (by unfold well_formed; decide) (by decide) (by decide)
      (by decide) (by decide) (by decide)).1.mpr (by decide),
    (frontier_server_stream_age_filter two_account_node { start := 1, age := 200, count := 5 } 7
      { head := 70, modified := 0 } (by unfold well_formed; decide) (by decide) (by decide)
      (by decide) (by decide) (by decide)).2.1.mpr (by decide),
    by decide⟩
end nano
